import Mathlib

/-!
# report.Sets: an ordered string -> string-set map (src/report/sets.go)

A shallow embedding of `Sets` and of its operations `locate`, `Add`, `Delete`,
`Lookup`, `Size`, `Merge`, `DeepEqual`, `CodecEncodeSelf` and `CodecDecodeSelf`,
followed by the properties proved of them.

* A Go slice is a `List`; the nil slice is a constructor of its own (`Sets.nil`).
* Every index or slice expression of the source is a step that can fail
  (`none`), so that "the operation returns" is part of what is proved.
* Loops run on a fuel counter that is given the bound of the loop; running out
  of fuel is `none` as well.
* The value type `StringSet` is declared outside `sets.go`; the operations of it
  that `sets.go` calls are a parameter (`StringSetOps`, `StringSetCodec`).
* The codec library is outside `sets.go` as well; what its encoder writes and
  its decoder reads is a sequence of tokens (`Token`).
* For the writes of `Add`, `Delete` and `Merge` the three are embedded a second
  time with the backing arrays of the slices explicit (`Memory`, `memAdd`,
  `memDelete`, `memMerge`).
-/

namespace Report

/-! ## Go primitives -/

/-- Go's `a < b` on strings: lexicographic comparison. Go compares the bytes of
the UTF-8 encoding, which orders strings as comparing their characters does. -/
def strLess (a b : String) : Bool := decide (a.toList < b.toList)

/-- Go's `make([]T, n)`: `n` copies of the zero value `z`. -/
def goMake {α : Type} (z : α) (n : Nat) : List α := List.replicate n z

/-- Go's `copy(dst, src)`: the first `min (len dst) (len src)` elements of `dst`
are overwritten; the value is the new content of `dst`. -/
def goCopy {α : Type} (dst src : List α) : List α :=
  src.take dst.length ++ dst.drop src.length

/-- Go's `s[i]`, which panics (`none`) when `i` is out of range. -/
def goIndex {α : Type} (s : List α) (i : Nat) : Option α := s.get? i

/-- Go's `s[:hi]`, out of range (`none`) when `hi` exceeds the length. -/
def goSliceTo {α : Type} (s : List α) (hi : Nat) : Option (List α) :=
  if hi ≤ s.length then some (s.take hi) else none

/-- Go's `s[lo:]`, out of range (`none`) when `lo` exceeds the length. -/
def goSliceFrom {α : Type} (s : List α) (lo : Nat) : Option (List α) :=
  if lo ≤ s.length then some (s.drop lo) else none

/-- Go's `copy(dst[lo:], src)`; the value is the new content of `dst`. -/
def goCopyInto {α : Type} (dst : List α) (lo : Nat) (src : List α) : Option (List α) :=
  if lo ≤ dst.length then some (dst.take lo ++ goCopy (dst.drop lo) src) else none

/-- Go's `s[i] = x`, which panics (`none`) when `i` is out of range. -/
def goStore {α : Type} (s : List α) (i : Nat) (x : α) : Option (List α) :=
  if i < s.length then some (s.set i x) else none

/-- The loop of Go's `sort.Search`: `for i < j { h := int(uint(i+j) >> 1);
if !f(h) { i = h + 1 } else { j = h } }; return i`. Slice lengths are below
`2^63`, so `uint(i+j) >> 1` is `(i + j) / 2`. -/
def Search.loop (f : Nat → Option Bool) : Nat → Nat → Nat → Option Nat
  | 0, i, j => if i < j then none else some i
  | fuel + 1, i, j =>
    if i < j then
      let h := (i + j) / 2
      match f h with
      | none => none
      | some false => Search.loop f fuel (h + 1) j
      | some true => Search.loop f fuel i h
    else some i

/-- Go's `sort.Search(n, f)`: binary search on `[0, n)`. -/
def Search (n : Nat) (f : Nat → Option Bool) : Option Nat := Search.loop f n 0 n

/-! ## The data model -/

/-- Modelled from the spec: the value type `StringSet` is not declared in
`sets.go`. Of it the file uses `Merge` (receiver first, argument second),
`MakeStringSet()` (the defined empty value) and the zero value that `make`
fills a fresh slice with. -/
structure StringSetOps (V : Type) where
  Merge : V → V → V
  MakeStringSet : V
  zero : V

/-- The struct `stringSetEntry`. -/
structure stringSetEntry (V : Type) where
  key : String
  Value : V
deriving DecidableEq

/-- The type `Sets []stringSetEntry`: the nil slice, or a slice with entries. -/
inductive Sets (V : Type) where
  | nil : Sets V
  | slice (entries : List (stringSetEntry V)) : Sets V
deriving DecidableEq

variable {V : Type}

/-- The zero value of `stringSetEntry`. -/
def zeroEntry (ops : StringSetOps V) : stringSetEntry V := ⟨"", ops.zero⟩

/-- The elements of a `Sets`, none for the nil slice. -/
def Sets.entries : Sets V → List (stringSetEntry V)
  | Sets.nil => []
  | Sets.slice es => es

/-- `MakeSets`: `return Sets{}`. -/
def MakeSets : Sets V := Sets.slice []

/-- `Sets.Size`: `return len(s)`. -/
def Sets.Size (s : Sets V) : Nat := s.entries.length

/-- `Sets.locate`: `sort.Search(len(s), func(i) { return s[i].key >= key })`. -/
def Sets.locate (s : Sets V) (key : String) : Option Nat :=
  Search s.entries.length
    (fun i => (goIndex s.entries i).map (fun e => !strLess e.key key))

/-- `Sets.Add`. -/
def Sets.Add (ops : StringSetOps V) (s : Sets V) (key : String) (value : V) :
    Option (Sets V) := do
  let i ← s.locate key
  let oldEntries := s.entries
  if i = oldEntries.length then
    let s1 := goMake (zeroEntry ops) (oldEntries.length + 1)
    let s1 := goCopy s1 oldEntries
    let s1 ← goStore s1 i ⟨key, value⟩
    pure (Sets.slice s1)
  else
    let si ← goIndex oldEntries i
    if si.key = key then
      let value := ops.Merge value si.Value
      let s1 := goMake (zeroEntry ops) oldEntries.length
      let s1 := goCopy s1 oldEntries
      let s1 ← goStore s1 i ⟨key, value⟩
      pure (Sets.slice s1)
    else
      let s1 := goMake (zeroEntry ops) (oldEntries.length + 1)
      let head ← goSliceTo oldEntries i
      let s1 := goCopy s1 head
      let tail ← goSliceFrom oldEntries i
      let s1 ← goCopyInto s1 (i + 1) tail
      let s1 ← goStore s1 i ⟨key, value⟩
      pure (Sets.slice s1)

/-- `Sets.Delete`. The test `i == len(s) || s[i].key != key` reads `s[i]` only
when `i != len(s)`; `len(s) - 1` is computed only when `i < len(s)`. -/
def Sets.Delete (ops : StringSetOps V) (s : Sets V) (key : String) :
    Option (Sets V) := do
  let i ← s.locate key
  let notFound ←
    if i = s.entries.length then pure true
    else do
      let si ← goIndex s.entries i
      pure (decide (si.key ≠ key))
  if notFound then pure s
  else
    let result := goMake (zeroEntry ops) (s.entries.length - 1)
    let result ←
      if i > 0 then do
        let head ← goSliceTo s.entries (i - 1)
        pure (goCopy result head)
      else pure result
    let tail ← goSliceFrom s.entries (i + 1)
    let result ← goCopyInto result i tail
    pure (Sets.slice result)

/-- `Sets.Lookup`. -/
def Sets.Lookup (ops : StringSetOps V) (s : Sets V) (key : String) :
    Option (V × Bool) := do
  let i ← s.locate key
  if i < s.entries.length then
    let si ← goIndex s.entries i
    if si.key = key then pure (si.Value, true)
    else pure (ops.MakeStringSet, false)
  else pure (ops.MakeStringSet, false)

/-- The first loop of `Sets.Merge`, `for i < len(m) { switch ... }`, from the
state `(i, j, out)`; the value is the final `(j, out)`. -/
def Sets.Merge.loop (ops : StringSetOps V) (m n : List (stringSetEntry V)) :
    Nat → Nat → Nat → List (stringSetEntry V) → Option (Nat × List (stringSetEntry V))
  | 0, i, j, out => if i < m.length then none else some (j, out)
  | fuel + 1, i, j, out =>
    if i < m.length then do
      let first ←
        if j ≥ n.length then pure true
        else do
          let mi ← goIndex m i
          let nj ← goIndex n j
          pure (strLess mi.key nj.key)
      if first then
        let mi ← goIndex m i
        Sets.Merge.loop ops m n fuel (i + 1) j (out ++ [mi])
      else
        let mi ← goIndex m i
        let nj ← goIndex n j
        if mi.key = nj.key then
          let newValue := ops.Merge mi.Value nj.Value
          Sets.Merge.loop ops m n fuel (i + 1) (j + 1) (out ++ [⟨mi.key, newValue⟩])
        else
          Sets.Merge.loop ops m n fuel i (j + 1) (out ++ [nj])
    else some (j, out)

/-- The second loop of `Sets.Merge`: `for ; j < len(n); j++ { out = append(out, n[j]) }`. -/
def Sets.Merge.rest (n : List (stringSetEntry V)) :
    Nat → Nat → List (stringSetEntry V) → Option (List (stringSetEntry V))
  | 0, j, out => if j < n.length then none else some out
  | fuel + 1, j, out =>
    if j < n.length then do
      let nj ← goIndex n j
      Sets.Merge.rest n fuel (j + 1) (out ++ [nj])
    else some out

/-- `Sets.Merge`. The first loop makes at most `len(m) + len(n)` steps, the
second at most `len(n)`. -/
def Sets.Merge (ops : StringSetOps V) (m n : Sets V) : Option (Sets V) :=
  match m, n with
  | Sets.nil, _ => some n
  | _, Sets.nil => some m
  | Sets.slice ms, Sets.slice ns => do
    let (j, out) ← Sets.Merge.loop ops ms ns (ms.length + ns.length) 0 0 []
    let out ← Sets.Merge.rest ns ns.length j out
    pure (Sets.slice out)

/-- The loop of `Sets.DeepEqual`: `for i := range s { if !reflect.DeepEqual(s[i], t[i])
{ return false } }; return true`. -/
def Sets.DeepEqual.loop [DecidableEq V] (s t : List (stringSetEntry V)) :
    Nat → Nat → Option Bool
  | 0, i => if i < s.length then none else some true
  | fuel + 1, i =>
    if i < s.length then do
      let si ← goIndex s i
      let ti ← goIndex t i
      if si ≠ ti then pure false
      else Sets.DeepEqual.loop s t fuel (i + 1)
    else some true

/-- `Sets.DeepEqual`; `reflect.DeepEqual` on two entries is equality of the key
and of the value. -/
def Sets.DeepEqual [DecidableEq V] (s t : Sets V) : Option Bool :=
  if s.Size ≠ t.Size then some false
  else Sets.DeepEqual.loop s.entries t.entries s.entries.length 0

/-- The entries of a sequence have strictly increasing keys. -/
def StrictKeys (l : List (stringSetEntry V)) : Prop :=
  l.Pairwise (fun a b => strLess a.key b.key = true)

instance (l : List (stringSetEntry V)) : Decidable (StrictKeys l) := by
  unfold StrictKeys; infer_instance

/-- The keys of a `Sets` are strictly increasing: every entry's key is below
the key of every later entry. -/
def Sets.StrictlyIncreasing (s : Sets V) : Prop := StrictKeys s.entries

instance (s : Sets V) : Decidable s.StrictlyIncreasing := by
  unfold Sets.StrictlyIncreasing; infer_instance

/-! ## The operations as functions on the entry sequence -/

/-- The value of the first entry of `l` whose key is `k`, if there is one. -/
def lookupL (l : List (stringSetEntry V)) (k : String) : Option V :=
  (l.find? (fun e => decide (e.key = k))).map (fun e => e.Value)

/-- What `Lookup` returns for the outcome of a search by key. -/
def lookupResult (ops : StringSetOps V) : Option V → V × Bool
  | some v => (v, true)
  | none => (ops.MakeStringSet, false)

/-- The two loops of `Merge` as one recursion on what is left of `m` and `n`. -/
def mergeL (ops : StringSetOps V) :
    List (stringSetEntry V) → List (stringSetEntry V) → List (stringSetEntry V)
  | [], ys => ys
  | x :: xs, [] => x :: xs
  | x :: xs, y :: ys =>
    if strLess x.key y.key then x :: mergeL ops xs (y :: ys)
    else if x.key = y.key then ⟨x.key, ops.Merge x.Value y.Value⟩ :: mergeL ops xs ys
    else y :: mergeL ops (x :: xs) ys
termination_by xs ys => xs.length + ys.length

/-- The value under a key of a merge, from the values under it in the two inputs. -/
def mergeValue (ops : StringSetOps V) : Option V → Option V → Option V
  | some a, some b => some (ops.Merge a b)
  | some a, none => some a
  | none, some b => some b
  | none, none => none

/-- What `Add` builds from the index `i` that `locate` returned: the entries
before `i`, the entry for `key`, and the entries from `i` on (from `i + 1` on,
and with the merged value, when the entry at `i` has the key). -/
def addL (ops : StringSetOps V) (l : List (stringSetEntry V)) (i : Nat) (key : String)
    (value : V) : List (stringSetEntry V) :=
  match l.drop i with
  | [] => l.take i ++ [⟨key, value⟩]
  | e :: rest =>
    if e.key = key then l.take i ++ ⟨key, ops.Merge value e.Value⟩ :: rest
    else l.take i ++ ⟨key, value⟩ :: e :: rest

/-- What `Delete` builds when the entry at the index `i` that `locate` returned
has the key: for `i > 0` the entries before `i - 1`, one zero entry, and the
entries after `i`; for `i = 0` the entries after the first. -/
def deleteL (ops : StringSetOps V) (l : List (stringSetEntry V)) (i : Nat) :
    List (stringSetEntry V) :=
  if i > 0 then l.take (i - 1) ++ zeroEntry ops :: l.drop (i + 1) else l.drop 1

/-- The keys of a `Sets` are in non-decreasing order: no entry's key is below
the key of an earlier entry. -/
def Sets.NonDecreasing (s : Sets V) : Prop :=
  s.entries.Pairwise (fun a b => strLess b.key a.key = false)

instance (s : Sets V) : Decidable s.NonDecreasing := by
  unfold Sets.NonDecreasing; infer_instance

/-! ## The codec -/

/-- The container states that `sets.go` sends to the codec; the constants
`containerMapKey`, `containerMapValue` and `containerMapEnd` are declared
outside `sets.go`. -/
inductive containerState where
  | containerMapKey
  | containerMapValue
  | containerMapEnd
deriving DecidableEq

/-- Modelled from the spec: the stream that the codec library's encoder writes
and its decoder reads (spec section 6: null, map-start(length-or-unknown), key,
value, map-end, break-on-unknown-length). A negative length of a map-start is
an unknown length; `value w` is what the value type wrote for a value that it
does not write as the nil marker. -/
inductive Token (W : Type) where
  | null
  | mapStart (length : Int)
  | string (s : String)
  | state (c : containerState)
  | value (w : W)
  | breakMark
deriving DecidableEq

/-- Modelled from the spec: the value type's own `CodecEncodeSelf` and
`CodecDecodeSelf`, which are not in `sets.go`. Encoding a value writes the nil
marker (`none`) or one value `w`; decoding reads one value `w` into the
receiver, whose content it is given. -/
structure StringSetCodec (V W : Type) where
  CodecEncodeSelf : V → Option W
  CodecDecodeSelf : V → W → V

variable {W : Type}

/-- The tokens `val.Value.CodecEncodeSelf(encoder)` writes. -/
def encodeValue (codec : StringSetCodec V W) (v : V) : List (Token W) :=
  match codec.CodecEncodeSelf v with
  | none => [Token.null]
  | some w => [Token.value w]

/-- `Sets.CodecEncodeSelf`; the value is what is written to the stream. -/
def Sets.CodecEncodeSelf (codec : StringSetCodec V W) (m : Sets V) : List (Token W) :=
  match m with
  | Sets.nil => [Token.null]
  | Sets.slice es =>
    let out := [Token.mapStart (es.length : Int)]
    let out := es.foldl (fun out val =>
      out ++ [Token.state containerState.containerMapKey] ++ [Token.string val.key] ++
        [Token.state containerState.containerMapValue] ++ encodeValue codec val.Value) out
    out ++ [Token.state containerState.containerMapEnd]

/-- `r.TryDecodeAsNil()`: whether the next token is the nil marker, which is
then consumed. -/
def TryDecodeAsNil (toks : List (Token W)) : Bool × List (Token W) :=
  match toks with
  | Token.null :: rest => (true, rest)
  | _ => (false, toks)

/-- `r.ReadMapStart()`: the length of the map that starts here. -/
def ReadMapStart (toks : List (Token W)) : Option (Int × List (Token W)) :=
  match toks with
  | Token.mapStart length :: rest => some (length, rest)
  | _ => none

/-- `r.CheckBreak()`: whether the next token is the break, which is then
consumed. -/
def CheckBreak (toks : List (Token W)) : Bool × List (Token W) :=
  match toks with
  | Token.breakMark :: rest => (true, rest)
  | _ => (false, toks)

/-- `r.DecodeString()`. -/
def DecodeString (toks : List (Token W)) : Option (String × List (Token W)) :=
  match toks with
  | Token.string s :: rest => some (s, rest)
  | _ => none

/-- `z.DecSendContainerState(c)`: the decoder moves past the state `c`. -/
def DecSendContainerState (c : containerState) (toks : List (Token W)) :
    Option (List (Token W)) :=
  match toks with
  | Token.state c2 :: rest => if c = c2 then some rest else none
  | _ => none

/-- `(*m)[j].Value.CodecDecodeSelf(decoder)`: the new value of the receiver
`recv`. -/
def decodeValue (codec : StringSetCodec V W) (recv : V) (toks : List (Token W)) :
    Option (V × List (Token W)) :=
  match toks with
  | Token.value w :: rest => some (codec.CodecDecodeSelf recv w, rest)
  | _ => none

/-- The statements of the loop body of `Sets.CodecDecodeSelf` from
`j := m.locate(key)` to `(*m)[j].key = key`: the entries of `*m` afterwards,
and `j`. A store into `(*m)[j]` is in range only in a non-nil `*m`. -/
def Sets.CodecDecodeSelf.slot (ops : StringSetOps V) (m : Sets V) (key : String) :
    Option (List (stringSetEntry V) × Nat) := do
  let j ← m.locate key
  let missing ←
    if j = m.entries.length then pure true
    else do
      let mj ← goIndex m.entries j
      pure (decide (mj.key ≠ key))
  let es ←
    if missing then do
      let es := m.entries ++ [zeroEntry ops]
      let src ← goSliceFrom es j
      let es ← goCopyInto es (j + 1) src
      goStore es j (zeroEntry ops)
    else pure m.entries
  let mj ← goIndex es j
  let es ← goStore es j ⟨key, mj.Value⟩
  pure (es, j)

/-- The body of the loop of `Sets.CodecDecodeSelf` after the test for the break:
one key and one value are read into `*m`, which is not nil afterwards. -/
def Sets.CodecDecodeSelf.step (ops : StringSetOps V) (codec : StringSetCodec V W)
    (m : Sets V) (toks : List (Token W)) : Option (Sets V × List (Token W)) := do
  let toks ← DecSendContainerState containerState.containerMapKey toks
  let (isNil, toks) := TryDecodeAsNil toks
  let (key, toks) ← if !isNil then DecodeString toks else pure ("", toks)
  let (es, j) ← Sets.CodecDecodeSelf.slot ops m key
  let toks ← DecSendContainerState containerState.containerMapValue toks
  let (isNil, toks) := TryDecodeAsNil toks
  if !isNil then do
    let mj ← goIndex es j
    let (v, toks) ← decodeValue codec mj.Value toks
    let es ← goStore es j ⟨mj.key, v⟩
    pure (Sets.slice es, toks)
  else pure (Sets.slice es, toks)

/-- The loop of `Sets.CodecDecodeSelf`: `for i := 0; length < 0 || i < length; i++
{ if length < 0 && r.CheckBreak() { break }; ... }`, from the state `(i, *m)`. -/
def Sets.CodecDecodeSelf.loop (ops : StringSetOps V) (codec : StringSetCodec V W)
    (length : Int) : Nat → Int → Sets V → List (Token W) → Option (Sets V × List (Token W))
  | 0, i, m, toks =>
    if length < 0 ∨ i < length then
      let (stop, toks) := if length < 0 then CheckBreak toks else (false, toks)
      if stop then some (m, toks) else none
    else some (m, toks)
  | fuel + 1, i, m, toks =>
    if length < 0 ∨ i < length then
      let (stop, toks) := if length < 0 then CheckBreak toks else (false, toks)
      if stop then some (m, toks)
      else do
        let (m, toks) ← Sets.CodecDecodeSelf.step ops codec m toks
        Sets.CodecDecodeSelf.loop ops codec length fuel (i + 1) m toks
    else some (m, toks)

/-- `Sets.CodecDecodeSelf`: the value is the decoded `*m` and what is left of the
stream. Every pass of the loop consumes tokens, so the loop makes no more
passes than the stream has tokens. -/
def Sets.CodecDecodeSelf (ops : StringSetOps V) (codec : StringSetCodec V W)
    (toks : List (Token W)) : Option (Sets V × List (Token W)) :=
  let m : Sets V := Sets.nil
  let (isNil, toks) := TryDecodeAsNil toks
  if isNil then some (m, toks)
  else do
    let (length, toks) ← ReadMapStart toks
    let m := if length > 0 then Sets.slice [] else m
    let (m, toks) ← Sets.CodecDecodeSelf.loop ops codec length toks.length 0 m toks
    let toks ← DecSendContainerState containerState.containerMapEnd toks
    pure (m, toks)

/-- The tokens of one key/value pair of a stream; the value is the nil marker
(`none`) or a value `w` of the value type. -/
def encodePair (p : String × Option W) : List (Token W) :=
  [Token.state containerState.containerMapKey, Token.string p.1,
    Token.state containerState.containerMapValue,
    match p.2 with
    | none => Token.null
    | some w => Token.value w]

/-- The tokens of a sequence of key/value pairs. -/
def encodePairs : List (String × Option W) → List (Token W)
  | [] => []
  | p :: ps => encodePair p ++ encodePairs ps

/-- An encoded stream of key/value pairs (spec section 6: `MAP_START(n)
(KEY VALUE)* MAP_END`): with the number of pairs in the map-start, or with an
unknown length and a break after the last pair. -/
def encodeStream (lengthKnown : Bool) (pairs : List (String × Option W)) : List (Token W) :=
  if lengthKnown then
    Token.mapStart (pairs.length : Int) :: (encodePairs pairs ++
      [Token.state containerState.containerMapEnd])
  else
    Token.mapStart (-1) :: (encodePairs pairs ++
      [Token.breakMark, Token.state containerState.containerMapEnd])

/-- What decoding a value does to the receiver `recv`: nothing for the nil
marker, the value type's `CodecDecodeSelf` otherwise. -/
def applyPayload (codec : StringSetCodec V W) (recv : V) : Option W → V
  | none => recv
  | some w => codec.CodecDecodeSelf recv w

/-- One pass of the decode loop on the entry sequence, from the index `i` that
`locate` returned: the entry at `i` gets the value `g (some old)` when it has
the key, and otherwise an entry with the value `g none` is inserted at `i`. -/
def upsertL (l : List (stringSetEntry V)) (i : Nat) (key : String) (g : Option V → V) :
    List (stringSetEntry V) :=
  match l.drop i with
  | [] => l.take i ++ [⟨key, g none⟩]
  | e :: rest =>
    if e.key = key then l.take i ++ ⟨key, g (some e.Value)⟩ :: rest
    else l.take i ++ ⟨key, g none⟩ :: e :: rest

/-- The value that a pass of the decode loop stores: decoded into the old value
of the entry, or into the zero value of a fresh entry. -/
def decodedValue (ops : StringSetOps V) (codec : StringSetCodec V W) (p : Option W) :
    Option V → V
  | none => applyPayload codec ops.zero p
  | some old => applyPayload codec old p

/-- The value under the key `k` after decoding the pairs, from the value `acc`
under it before. -/
def valueAfter (ops : StringSetOps V) (codec : StringSetCodec V W) (k : String) :
    List (String × Option W) → Option V → Option V
  | [], acc => acc
  | p :: ps, acc =>
    valueAfter ops codec k ps (if p.1 = k then some (decodedValue ops codec p.2 acc) else acc)

/-- The pair that `Sets.CodecEncodeSelf` writes for an entry. -/
def wirePair (codec : StringSetCodec V W) (e : stringSetEntry V) : String × Option W :=
  (e.key, codec.CodecEncodeSelf e.Value)

/-- The values of the pairs of a stream that have the key `k`, in the order of
the stream. -/
def payloadsOf (k : String) (pairs : List (String × Option W)) : List (Option W) :=
  (pairs.filter (fun p => decide (p.1 = k))).map Prod.snd

/-- The last value of a sequence that is not the nil marker, if there is one. -/
def lastPayload : List (Option W) → Option W
  | [] => none
  | p :: ps =>
    match lastPayload ps with
    | some w => some w
    | none => p

/-! ## The operations on backing arrays

`Add`, `Delete` and `Merge` once more, with the backing arrays of the slices
explicit: a slice is a window on a backing array in memory, `make` and a growing
`append` add a backing array, and `copy`, `s[i] = x` and `append` within the
capacity write into one. -/

/-- A Go slice value: whether it is nil, its backing array, and the offset,
length and capacity of its window on the array. -/
structure sliceValue where
  isNil : Bool
  array : Nat
  offset : Nat
  len : Nat
  cap : Nat
deriving DecidableEq

/-- The nil slice. -/
def nilSlice : sliceValue := ⟨true, 0, 0, 0, 0⟩

/-- The backing arrays, by address. -/
abbrev Memory (V : Type) := List (List (stringSetEntry V))

/-- The entries a slice holds in a memory. -/
def Memory.entries (mem : Memory V) (s : sliceValue) : Option (List (stringSetEntry V)) :=
  if s.len = 0 then some []
  else
    match mem.get? s.array with
    | none => none
    | some arr =>
      if s.offset + s.len ≤ arr.length then some ((arr.drop s.offset).take s.len) else none

/-- Go's `make([]T, len, cap)`: a new backing array of `cap` zero values. -/
def memMake (z : stringSetEntry V) (len cap : Nat) (mem : Memory V) : sliceValue × Memory V :=
  (⟨false, mem.length, 0, len, cap⟩, mem ++ [List.replicate cap z])

/-- Go's `s[i]`. -/
def memIndex (mem : Memory V) (s : sliceValue) (i : Nat) : Option (stringSetEntry V) :=
  if i < s.len then (mem.get? s.array).bind (fun arr => arr.get? (s.offset + i)) else none

/-- Go's `s[i] = x`: a write into the backing array of `s`. -/
def memStore (mem : Memory V) (s : sliceValue) (i : Nat) (x : stringSetEntry V) :
    Option (Memory V) :=
  if i < s.len then
    match mem.get? s.array with
    | none => none
    | some arr =>
      if s.offset + i < arr.length then some (mem.set s.array (arr.set (s.offset + i) x))
      else none
  else none

/-- Go's `s[:hi]`, in range up to the capacity. -/
def memSliceTo (s : sliceValue) (hi : Nat) : Option sliceValue :=
  if hi ≤ s.cap then some { s with len := hi } else none

/-- Go's `s[lo:]`. -/
def memSliceFrom (s : sliceValue) (lo : Nat) : Option sliceValue :=
  if lo ≤ s.len then
    some { s with offset := s.offset + lo, len := s.len - lo, cap := s.cap - lo }
  else none

/-- Go's `copy(dst, src)`: the first `min (len dst) (len src)` elements of `src`
are read and then written into the backing array of `dst`. -/
def memCopy (mem : Memory V) (dst src : sliceValue) : Option (Memory V) :=
  let n := min dst.len src.len
  if n = 0 then some mem
  else
    match mem.get? src.array, mem.get? dst.array with
    | some srcArr, some dstArr =>
      if src.offset + n ≤ srcArr.length ∧ dst.offset + n ≤ dstArr.length then
        some (mem.set dst.array
          (dstArr.take dst.offset ++ (srcArr.drop src.offset).take n ++
            dstArr.drop (dst.offset + n)))
      else none
    | _, _ => none

/-- Go's `append(s, x)`: within the capacity a write into the backing array of
`s`, and otherwise a new backing array with the elements of `s` and `x` (its
capacity, which Go chooses, is not observed by `sets.go`). -/
def memAppend (z : stringSetEntry V) (mem : Memory V) (s : sliceValue) (x : stringSetEntry V) :
    Option (sliceValue × Memory V) :=
  if s.len < s.cap then
    match mem.get? s.array with
    | none => none
    | some arr =>
      if s.offset + s.len < arr.length then
        some ({ s with len := s.len + 1 }, mem.set s.array (arr.set (s.offset + s.len) x))
      else none
  else
    match Memory.entries mem s with
    | none => none
    | some old =>
      some (⟨false, mem.length, 0, s.len + 1, 2 * s.cap + 1⟩,
        mem ++ [old ++ x :: List.replicate (2 * s.cap - s.len) z])

/-- `Sets.locate` on a slice in memory. -/
def memLocate (mem : Memory V) (s : sliceValue) (key : String) : Option Nat :=
  Search s.len (fun i => (memIndex mem s i).map (fun e => !strLess e.key key))

/-- `Sets.Add` on a slice in memory: the slice returned and the memory after the
call. -/
def memAdd (ops : StringSetOps V) (mem : Memory V) (s : sliceValue) (key : String) (value : V) :
    Option (sliceValue × Memory V) := do
  let i ← memLocate mem s key
  let oldEntries := s
  if i = s.len then
    let (s1, mem) := memMake (zeroEntry ops) (oldEntries.len + 1) (oldEntries.len + 1) mem
    let mem ← memCopy mem s1 oldEntries
    let mem ← memStore mem s1 i ⟨key, value⟩
    pure (s1, mem)
  else
    let si ← memIndex mem s i
    if si.key = key then
      let value := ops.Merge value si.Value
      let (s1, mem) := memMake (zeroEntry ops) oldEntries.len oldEntries.len mem
      let mem ← memCopy mem s1 oldEntries
      let mem ← memStore mem s1 i ⟨key, value⟩
      pure (s1, mem)
    else
      let (s1, mem) := memMake (zeroEntry ops) (oldEntries.len + 1) (oldEntries.len + 1) mem
      let head ← memSliceTo oldEntries i
      let mem ← memCopy mem s1 head
      let dst ← memSliceFrom s1 (i + 1)
      let tail ← memSliceFrom oldEntries i
      let mem ← memCopy mem dst tail
      let mem ← memStore mem s1 i ⟨key, value⟩
      pure (s1, mem)

/-- `Sets.Delete` on a slice in memory. -/
def memDelete (ops : StringSetOps V) (mem : Memory V) (s : sliceValue) (key : String) :
    Option (sliceValue × Memory V) := do
  let i ← memLocate mem s key
  let notFound ←
    if i = s.len then pure true
    else do
      let si ← memIndex mem s i
      pure (decide (si.key ≠ key))
  if notFound then pure (s, mem)
  else
    let (result, mem) := memMake (zeroEntry ops) (s.len - 1) (s.len - 1) mem
    let mem ←
      if i > 0 then do
        let head ← memSliceTo s (i - 1)
        memCopy mem result head
      else pure mem
    let dst ← memSliceFrom result i
    let tail ← memSliceFrom s (i + 1)
    let mem ← memCopy mem dst tail
    pure (result, mem)

/-- The first loop of `Sets.Merge` on slices in memory, from the state
`(i, j, out)`. -/
def memMerge.loop (ops : StringSetOps V) (m n : sliceValue) :
    Nat → Nat → Nat → sliceValue → Memory V → Option (Nat × sliceValue × Memory V)
  | 0, i, j, out, mem => if i < m.len then none else some (j, out, mem)
  | fuel + 1, i, j, out, mem =>
    if i < m.len then do
      let first ←
        if j ≥ n.len then pure true
        else do
          let mi ← memIndex mem m i
          let nj ← memIndex mem n j
          pure (strLess mi.key nj.key)
      if first then
        let mi ← memIndex mem m i
        let (out, mem) ← memAppend (zeroEntry ops) mem out mi
        memMerge.loop ops m n fuel (i + 1) j out mem
      else
        let mi ← memIndex mem m i
        let nj ← memIndex mem n j
        if mi.key = nj.key then
          let newValue := ops.Merge mi.Value nj.Value
          let (out, mem) ← memAppend (zeroEntry ops) mem out ⟨mi.key, newValue⟩
          memMerge.loop ops m n fuel (i + 1) (j + 1) out mem
        else
          let (out, mem) ← memAppend (zeroEntry ops) mem out nj
          memMerge.loop ops m n fuel i (j + 1) out mem
    else some (j, out, mem)

/-- The second loop of `Sets.Merge` on slices in memory. -/
def memMerge.rest (ops : StringSetOps V) (n : sliceValue) :
    Nat → Nat → sliceValue → Memory V → Option (sliceValue × Memory V)
  | 0, j, out, mem => if j < n.len then none else some (out, mem)
  | fuel + 1, j, out, mem =>
    if j < n.len then do
      let nj ← memIndex mem n j
      let (out, mem) ← memAppend (zeroEntry ops) mem out nj
      memMerge.rest ops n fuel (j + 1) out mem
    else some (out, mem)

/-- `Sets.Merge` on slices in memory. -/
def memMerge (ops : StringSetOps V) (mem : Memory V) (m n : sliceValue) :
    Option (sliceValue × Memory V) :=
  if m.isNil then some (n, mem)
  else if n.isNil then some (m, mem)
  else do
    let l := if n.len > m.len then n.len else m.len
    let (out, mem) := memMake (zeroEntry ops) 0 (l + 1) mem
    let (j, out, mem) ← memMerge.loop ops m n (m.len + n.len) 0 0 out mem
    memMerge.rest ops n n.len j out mem

/-- No backing array of the first `n0` is written between `mem` and `mem2`, and
none is lost. -/
def Memory.keeps (n0 : Nat) (mem mem2 : Memory V) : Prop :=
  mem.length ≤ mem2.length ∧ ∀ a, a < n0 → mem2.get? a = mem.get? a

/-- A slice is in range in a memory: its length is within its capacity and its
window lies within its backing array. -/
def Memory.holds (mem : Memory V) (s : sliceValue) : Prop :=
  s.len ≤ s.cap ∧
    (0 < s.len → ∃ arr, mem.get? s.array = some arr ∧ s.offset + s.len ≤ arr.length)

/-- A slice has its whole capacity within its backing array. -/
def Memory.room (mem : Memory V) (s : sliceValue) : Prop :=
  s.len ≤ s.cap ∧ ∃ arr, mem.get? s.array = some arr ∧ s.offset + s.cap ≤ arr.length

/-- Every backing array of `mem` is a backing array of `mem2`, of the same
length. -/
def Memory.grows (mem mem2 : Memory V) : Prop :=
  ∀ a arr, mem.get? a = some arr → ∃ arr2, mem2.get? a = some arr2 ∧ arr2.length = arr.length

/-! ## Value types and inputs to evaluate the operations on -/

/-- Modelled from the spec: `StringSet` as a set of strings whose `Merge` is the
union of the two sets, with the empty set for `MakeStringSet()` and for the
zero value. -/
def unionOps : StringSetOps (Finset String) := ⟨fun s other => s ∪ other, ∅, ∅⟩

/-- The map `{a: {1}, b: {2}}`. -/
def mapAB : Sets (Finset String) := Sets.slice [⟨"a", {"1"}⟩, ⟨"b", {"2"}⟩]

/-- The map `{a: {3}, c: {2}}`. -/
def mapAC : Sets (Finset String) := Sets.slice [⟨"a", {"3"}⟩, ⟨"c", {"2"}⟩]

/-- The map `{b: {4}, d: {5}}`. -/
def mapBD : Sets (Finset String) := Sets.slice [⟨"b", {"4"}⟩, ⟨"d", {"5"}⟩]

/-- The map `{a: {1}}`. -/
def mapA : Sets (Finset String) := Sets.slice [⟨"a", {"1"}⟩]

/-- The map `{a: {1}, b: {2}, b: {3}, c: {4}}`, with the key `b` twice. -/
def mapRepeated : Sets (Finset String) :=
  Sets.slice [⟨"a", {"1"}⟩, ⟨"b", {"2"}⟩, ⟨"b", {"3"}⟩, ⟨"c", {"4"}⟩]

/-- Modelled from the spec: a codec of sets of strings. The empty set is written
as the nil marker and any other set as itself; decoding replaces the receiver
by the set that was written. -/
def setCodec : StringSetCodec (Finset String) (Finset String) :=
  ⟨fun s => if s = ∅ then none else some s, fun _ w => w⟩

/-- The stream pairs `x -> {1}`, `x -> {2}`: the key `x` twice. -/
def pairsTwice : List (String × Option (Finset String)) :=
  [("x", some {"1"}), ("x", some {"2"})]

/-- The entries `x -> {1}`, `x -> {}`: the key `x` twice, the second time with
the empty (nil) set, which `setCodec` writes as the nil marker. -/
def entriesNilLast : List (stringSetEntry (Finset String)) :=
  [⟨"x", {"1"}⟩, ⟨"x", ∅⟩]

/-- The stream pairs `b -> {2}`, `a -> {1}`, `b -> {3}`: not in order, and the
key `b` twice. -/
def pairsUnsorted : List (String × Option (Finset String)) :=
  [("b", some {"2"}), ("a", some {"1"}), ("b", some {"3"})]

/-- A memory with the backing arrays of `A = {a: {1}}` (address 0) and of
`B = {a: {2}}` (address 1). -/
def memoryAB : Memory (Finset String) := [[⟨"a", {"1"}⟩], [⟨"a", {"2"}⟩]]

/-- The slice `A = {a: {1}}` in `memoryAB`. -/
def sliceA : sliceValue := ⟨false, 0, 0, 1, 1⟩

/-- The slice `B = {a: {2}}` in `memoryAB`. -/
def sliceB : sliceValue := ⟨false, 1, 0, 1, 1⟩

/-! ## Strings and binary search -/

theorem strLess_iff (a b : String) : strLess a b = true ↔ a < b := by
  simp [strLess, String.lt_iff_toList_lt]

theorem strLess_eq_false_iff (a b : String) : strLess a b = false ↔ b ≤ a := by
  rw [← Bool.not_eq_true, strLess_iff, not_lt]

theorem goIndex_lt {α : Type} (s : List α) (i : Nat) (h : i < s.length) :
    goIndex s i = some s[i] := by
  simp [goIndex, List.getElem?_eq_getElem h]

/-- The binary search loop on a monotone predicate keeps "false below `i`, true
from `j` on" and ends, within `j - i` steps, at the boundary. -/
theorem Search.loop_sorted (f : Nat → Option Bool) (p : Nat → Bool) (n : Nat)
    (hf : ∀ h, h < n → f h = some (p h))
    (hmono : ∀ a b, a ≤ b → b < n → p a = true → p b = true) :
    ∀ fuel i j, i ≤ j → j ≤ n → j - i ≤ fuel →
      (∀ k, k < i → p k = false) → (∀ k, j ≤ k → k < n → p k = true) →
      ∃ r, Search.loop f fuel i j = some r ∧ r ≤ n ∧
        (∀ k, k < r → p k = false) ∧ (∀ k, r ≤ k → k < n → p k = true) := by
  intro fuel
  induction fuel with
  | zero =>
    intro i j hij hjn hfuel hlo hhi
    have : i = j := by omega
    subst this
    exact ⟨i, by simp [Search.loop], hjn, hlo, hhi⟩
  | succ fuel ih =>
    intro i j hij hjn hfuel hlo hhi
    by_cases hlt : i < j
    · have hh1 : i ≤ (i + j) / 2 := by omega
      have hh2 : (i + j) / 2 < j := by omega
      have hfh := hf ((i + j) / 2) (by omega)
      cases hp : p ((i + j) / 2) with
      | false =>
        have hlo2 : ∀ k, k < (i + j) / 2 + 1 → p k = false := by
          intro k hk
          by_contra hc
          have hk2 : p k = true := by simpa using hc
          have := hmono k ((i + j) / 2) (by omega) (by omega) hk2
          simp [hp] at this
        have := ih ((i + j) / 2 + 1) j (by omega) hjn (by omega) hlo2 hhi
        simpa [Search.loop, hlt, hfh, hp] using this
      | true =>
        have hhi2 : ∀ k, (i + j) / 2 ≤ k → k < n → p k = true :=
          fun k hk hkn => hmono _ k hk hkn hp
        have := ih i ((i + j) / 2) hh1 (by omega) (by omega) hlo hhi2
        simpa [Search.loop, hlt, hfh, hp] using this
    · have : i = j := by omega
      subst this
      exact ⟨i, by simp [Search.loop], hjn, hlo, hhi⟩

/-- On keys in non-decreasing order `locate` returns an index that splits the
entries into those with a key below `key` and those with a key at or above it. -/
theorem Sets.locate_split (s : Sets V) (key : String)
    (hs : s.entries.Pairwise (fun a b => a.key ≤ b.key)) :
    ∃ r, s.locate key = some r ∧ r ≤ s.entries.length ∧
      (∀ e ∈ s.entries.take r, e.key < key) ∧ (∀ e ∈ s.entries.drop r, key ≤ e.key) := by
  set l := s.entries with hl
  let p : Nat → Bool := fun h => ((l.get? h).map (fun e => !strLess e.key key)).getD true
  have hf : ∀ h, h < l.length →
      (fun i => (goIndex l i).map (fun e => !strLess e.key key)) h = some (p h) := by
    intro h hh
    simp [p, goIndex, List.getElem?_eq_getElem hh]
  have hmono : ∀ a b, a ≤ b → b < l.length → p a = true → p b = true := by
    intro a b hab hb hpa
    have ha : a < l.length := by omega
    simp only [p, List.get?_eq_getElem?, List.getElem?_eq_getElem ha,
      List.getElem?_eq_getElem hb, Option.map_some', Option.getD_some,
      Bool.not_eq_true', strLess_eq_false_iff] at hpa ⊢
    rcases Nat.eq_or_lt_of_le hab with rfl | hlt
    · exact hpa
    · exact le_trans hpa (List.pairwise_iff_getElem.mp hs a b ha hb hlt)
  obtain ⟨r, hr, hrn, hlo, hhi⟩ := Search.loop_sorted _ p l.length hf hmono l.length 0 l.length
    (Nat.zero_le _) (Nat.le_refl _) (by omega) (by intro k hk; omega) (by intro k hk hk2; omega)
  refine ⟨r, hr, hrn, ?_, ?_⟩
  · intro e he
    obtain ⟨i, hi, rfl⟩ := List.mem_iff_getElem.mp he
    simp only [List.length_take] at hi
    have hil : i < l.length := by omega
    have := hlo i (by omega)
    simp only [p, List.get?_eq_getElem?, List.getElem?_eq_getElem hil, Option.map_some',
      Option.getD_some, Bool.not_eq_false', strLess_iff] at this
    simpa using this
  · intro e he
    obtain ⟨i, hi, rfl⟩ := List.mem_iff_getElem.mp he
    simp only [List.length_drop] at hi
    have hil : r + i < l.length := by omega
    have := hhi (r + i) (by omega) hil
    simp only [p, List.get?_eq_getElem?, List.getElem?_eq_getElem hil, Option.map_some',
      Option.getD_some, Bool.not_eq_true', strLess_eq_false_iff] at this
    simpa using this

/-! ## Lookup by key in an entry sequence -/

theorem strictKeys_lt {l : List (stringSetEntry V)} (h : StrictKeys l) :
    l.Pairwise (fun a b => a.key < b.key) :=
  List.Pairwise.imp (fun hab => (strLess_iff _ _).mp hab) h

theorem strictKeys_le {l : List (stringSetEntry V)} (h : StrictKeys l) :
    l.Pairwise (fun a b => a.key ≤ b.key) :=
  List.Pairwise.imp (fun hab => le_of_lt ((strLess_iff _ _).mp hab)) h

theorem lookupL_cons (e : stringSetEntry V) (l : List (stringSetEntry V)) (k : String) :
    lookupL (e :: l) k = if e.key = k then some e.Value else lookupL l k := by
  by_cases h : e.key = k <;> simp [lookupL, List.find?_cons, h]

theorem lookupL_eq_none {l : List (stringSetEntry V)} {k : String}
    (h : ∀ e ∈ l, e.key ≠ k) : lookupL l k = none := by
  induction l with
  | nil => rfl
  | cons e l ih =>
    rw [lookupL_cons, if_neg (h e (List.mem_cons_self _ _))]
    exact ih (fun x hx => h x (List.mem_cons_of_mem _ hx))

theorem lookupL_append_right {l₁ : List (stringSetEntry V)} (l₂ : List (stringSetEntry V))
    {k : String} (h : ∀ e ∈ l₁, e.key ≠ k) : lookupL (l₁ ++ l₂) k = lookupL l₂ k := by
  induction l₁ with
  | nil => rfl
  | cons e l ih =>
    rw [List.cons_append, lookupL_cons, if_neg (h e (List.mem_cons_self _ _))]
    exact ih (fun x hx => h x (List.mem_cons_of_mem _ hx))

theorem lookupL_of_mem {l : List (stringSetEntry V)} (hl : StrictKeys l) {k : String} {v : V}
    (h : (⟨k, v⟩ : stringSetEntry V) ∈ l) : lookupL l k = some v := by
  induction l with
  | nil => simp at h
  | cons e l ih =>
    rw [lookupL_cons]
    rcases List.mem_cons.mp h with rfl | hmem
    · simp
    · have hlt := (List.pairwise_cons.mp (strictKeys_lt hl)).1 _ hmem
      have hne : e.key ≠ k := ne_of_lt hlt
      rw [if_neg hne]
      exact ih (List.pairwise_cons.mp hl).2 hmem

theorem mem_of_lookupL {l : List (stringSetEntry V)} {k : String} {v : V}
    (h : lookupL l k = some v) : (⟨k, v⟩ : stringSetEntry V) ∈ l := by
  induction l with
  | nil => simp [lookupL] at h
  | cons e l ih =>
    rw [lookupL_cons] at h
    by_cases hk : e.key = k
    · rw [if_pos hk] at h
      cases e
      simp only [Option.some.injEq] at h hk
      subst h; subst hk
      exact List.mem_cons_self _ _
    · rw [if_neg hk] at h
      exact List.mem_cons_of_mem _ (ih h)

theorem lookupL_none_iff {l : List (stringSetEntry V)} {k : String} :
    lookupL l k = none ↔ ∀ e ∈ l, e.key ≠ k := by
  constructor
  · intro h e he hk
    induction l with
    | nil => simp at he
    | cons x l ih =>
      rw [lookupL_cons] at h
      by_cases hx : x.key = k
      · rw [if_pos hx] at h; simp at h
      · rw [if_neg hx] at h
        rcases List.mem_cons.mp he with rfl | hmem
        · exact hx hk
        · exact ih h hmem
  · exact lookupL_eq_none

/-- On keys in non-decreasing order `Lookup` returns the value of the first
entry with the key, or the empty value and `false`. -/
theorem Sets.Lookup_eq (ops : StringSetOps V) (s : Sets V) (k : String)
    (hs : s.entries.Pairwise (fun a b => a.key ≤ b.key)) :
    s.Lookup ops k = some (lookupResult ops (lookupL s.entries k)) := by
  obtain ⟨r, hr, hrn, hlo, hhi⟩ := s.locate_split k hs
  have hsplit : s.entries = s.entries.take r ++ s.entries.drop r := (List.take_append_drop r _).symm
  have hpre : ∀ e ∈ s.entries.take r, e.key ≠ k := fun e he => ne_of_lt (hlo e he)
  have hlook : lookupL s.entries k = lookupL (s.entries.drop r) k := by
    conv_lhs => rw [hsplit]
    exact lookupL_append_right _ hpre
  by_cases hlt : r < s.entries.length
  · have hdrop : s.entries.drop r = s.entries[r] :: s.entries.drop (r + 1) :=
      List.drop_eq_getElem_cons hlt
    by_cases hk : s.entries[r].key = k
    · have : lookupL s.entries k = some s.entries[r].Value := by
        rw [hlook, hdrop, lookupL_cons, if_pos hk]
      simp [Sets.Lookup, hr, hlt, goIndex_lt _ _ hlt, hk, this, lookupResult]
    · have hgt : k < s.entries[r].key :=
        lt_of_le_of_ne (hhi _ (by rw [hdrop]; exact List.mem_cons_self _ _)) (Ne.symm hk)
      have hrest : ∀ e ∈ s.entries.drop (r + 1), e.key ≠ k := by
        intro e he
        have hpw : (s.entries.drop r).Pairwise (fun a b => a.key ≤ b.key) :=
          List.Pairwise.sublist (List.drop_sublist r _) hs
        rw [hdrop] at hpw
        have := (List.pairwise_cons.mp hpw).1 e he
        exact fun heq => absurd (heq ▸ this) (not_le_of_lt hgt)
      have : lookupL s.entries k = none := by
        rw [hlook, hdrop, lookupL_cons, if_neg hk]
        exact lookupL_eq_none hrest
      simp [Sets.Lookup, hr, hlt, goIndex_lt _ _ hlt, hk, this, lookupResult]
  · have hnil : s.entries.drop r = [] := List.drop_eq_nil_of_le (by omega)
    have : lookupL s.entries k = none := by rw [hlook, hnil]; rfl
    simp [Sets.Lookup, hr, hlt, this, lookupResult]

/-! ## Merge and DeepEqual as functions on the entry sequence -/

theorem mergeL_nil_left (ops : StringSetOps V) (ys : List (stringSetEntry V)) :
    mergeL ops [] ys = ys := by
  rw [mergeL]

theorem mergeL_nil_right (ops : StringSetOps V) (xs : List (stringSetEntry V)) :
    mergeL ops xs [] = xs := by
  cases xs with
  | nil => rw [mergeL]
  | cons x xs => rw [mergeL]

theorem mergeL_cons_cons (ops : StringSetOps V) (x y : stringSetEntry V)
    (xs ys : List (stringSetEntry V)) :
    mergeL ops (x :: xs) (y :: ys) =
      if strLess x.key y.key then x :: mergeL ops xs (y :: ys)
      else if x.key = y.key then ⟨x.key, ops.Merge x.Value y.Value⟩ :: mergeL ops xs ys
      else y :: mergeL ops (x :: xs) ys := by
  rw [mergeL]

theorem Sets.Merge.rest_eq (n : List (stringSetEntry V)) :
    ∀ fuel j out, j ≤ n.length → n.length - j ≤ fuel →
      Sets.Merge.rest n fuel j out = some (out ++ n.drop j) := by
  intro fuel
  induction fuel with
  | zero =>
    intro j out hj hfuel
    have hnil : n.drop j = [] := List.drop_eq_nil_of_le (by omega)
    have : ¬ j < n.length := by omega
    simp [Sets.Merge.rest, this, hnil]
  | succ fuel ih =>
    intro j out hj hfuel
    by_cases hlt : j < n.length
    · have := ih (j + 1) (out ++ [n[j]]) (by omega) (by omega)
      simp [Sets.Merge.rest, hlt, goIndex_lt _ _ hlt, this]
    · have hnil : n.drop j = [] := List.drop_eq_nil_of_le (by omega)
      simp [Sets.Merge.rest, hlt, hnil]

theorem Sets.Merge.loop_merges (ops : StringSetOps V) (m n : List (stringSetEntry V)) :
    ∀ fuel i j out, i ≤ m.length → j ≤ n.length → (m.length - i) + (n.length - j) ≤ fuel →
      ∃ j2 out2, Sets.Merge.loop ops m n fuel i j out = some (j2, out2) ∧ j2 ≤ n.length ∧
        out2 ++ n.drop j2 = out ++ mergeL ops (m.drop i) (n.drop j) := by
  intro fuel
  induction fuel with
  | zero =>
    intro i j out hi hj hfuel
    have hnil : m.drop i = [] := List.drop_eq_nil_of_le (by omega)
    have : ¬ i < m.length := by omega
    exact ⟨j, out, by simp [Sets.Merge.loop, this], hj, by rw [hnil, mergeL_nil_left]⟩
  | succ fuel ih =>
    intro i j out hi hj hfuel
    by_cases hlt : i < m.length
    · have hmi := List.drop_eq_getElem_cons hlt
      by_cases hjn : j < n.length
      · have hnj := List.drop_eq_getElem_cons hjn
        have hjn2 : ¬ n.length ≤ j := by omega
        rw [hmi, hnj, mergeL_cons_cons]
        cases hless : strLess m[i].key n[j].key with
        | true =>
          obtain ⟨j2, out2, h1, h2, h3⟩ := ih (i + 1) j (out ++ [m[i]]) (by omega) hj (by omega)
          refine ⟨j2, out2, ?_, h2, ?_⟩
          · simp [Sets.Merge.loop, hlt, hjn2, goIndex_lt _ _ hlt, goIndex_lt _ _ hjn, hless, h1]
          · rw [h3, hnj]; simp
        | false =>
          by_cases hkey : m[i].key = n[j].key
          · obtain ⟨j2, out2, h1, h2, h3⟩ :=
              ih (i + 1) (j + 1) (out ++ [⟨m[i].key, ops.Merge m[i].Value n[j].Value⟩])
                (by omega) (by omega) (by omega)
            have hless2 : strLess n[j].key n[j].key = false := hkey ▸ hless
            have hstep : Sets.Merge.loop ops m n (fuel + 1) i j out =
                Sets.Merge.loop ops m n fuel (i + 1) (j + 1)
                  (out ++ [⟨m[i].key, ops.Merge m[i].Value n[j].Value⟩]) := by
              simp [Sets.Merge.loop, hlt, hjn2, goIndex_lt _ _ hlt, goIndex_lt _ _ hjn, hless2,
                hkey]
            refine ⟨j2, out2, by rw [hstep, h1], h2, ?_⟩
            rw [h3]; simp [hkey]
          · obtain ⟨j2, out2, h1, h2, h3⟩ := ih i (j + 1) (out ++ [n[j]]) hi (by omega) (by omega)
            refine ⟨j2, out2, ?_, h2, ?_⟩
            · simp [Sets.Merge.loop, hlt, hjn2, goIndex_lt _ _ hlt, goIndex_lt _ _ hjn, hless,
                hkey, h1]
            · rw [h3, hmi]; simp [hkey]
      · have hnil : n.drop j = [] := List.drop_eq_nil_of_le (by omega)
        have hjn2 : n.length ≤ j := by omega
        obtain ⟨j2, out2, h1, h2, h3⟩ := ih (i + 1) j (out ++ [m[i]]) (by omega) hj (by omega)
        refine ⟨j2, out2, ?_, h2, ?_⟩
        · simp [Sets.Merge.loop, hlt, hjn2, goIndex_lt _ _ hlt, h1]
        · rw [h3, hnil, mergeL_nil_right, mergeL_nil_right, hmi]; simp
    · have hnil : m.drop i = [] := List.drop_eq_nil_of_le (by omega)
      exact ⟨j, out, by simp [Sets.Merge.loop, hlt], hj, by rw [hnil, mergeL_nil_left]⟩

/-- `Merge` on two non-nil maps returns, and returns the merge of the two entry
sequences. -/
theorem Sets.Merge_slice (ops : StringSetOps V) (ms ns : List (stringSetEntry V)) :
    (Sets.slice ms).Merge ops (Sets.slice ns) = some (Sets.slice (mergeL ops ms ns)) := by
  obtain ⟨j2, out2, h1, h2, h3⟩ :=
    Sets.Merge.loop_merges ops ms ns (ms.length + ns.length) 0 0 [] (Nat.zero_le _) (Nat.zero_le _)
      (by omega)
  have h4 := Sets.Merge.rest_eq ns ns.length j2 out2 h2 (by omega)
  simp only [List.drop_zero, List.nil_append] at h3
  simp [Sets.Merge, h1, h4, h3]

/-- `Merge` always returns, and the entries of what it returns are the merge of
the two entry sequences. -/
theorem Sets.Merge_entries (ops : StringSetOps V) (m n : Sets V) :
    ∃ r, m.Merge ops n = some r ∧ r.entries = mergeL ops m.entries n.entries := by
  cases m with
  | nil => exact ⟨n, by simp [Sets.Merge], by simp [Sets.entries, mergeL_nil_left]⟩
  | slice ms =>
    cases n with
    | nil => exact ⟨Sets.slice ms, by simp [Sets.Merge], by simp [Sets.entries, mergeL_nil_right]⟩
    | slice ns => exact ⟨_, Sets.Merge_slice ops ms ns, rfl⟩

theorem Sets.DeepEqual.loop_decides [DecidableEq V] (s t : List (stringSetEntry V))
    (hlen : s.length = t.length) :
    ∀ fuel i, i ≤ s.length → s.length - i ≤ fuel →
      Sets.DeepEqual.loop s t fuel i = some (decide (s.drop i = t.drop i)) := by
  intro fuel
  induction fuel with
  | zero =>
    intro i hi hfuel
    have h1 : s.drop i = [] := List.drop_eq_nil_of_le (by omega)
    have h2 : t.drop i = [] := List.drop_eq_nil_of_le (by omega)
    have : ¬ i < s.length := by omega
    simp [Sets.DeepEqual.loop, this, h1, h2]
  | succ fuel ih =>
    intro i hi hfuel
    by_cases hlt : i < s.length
    · have hlt2 : i < t.length := by omega
      have := ih (i + 1) (by omega) (by omega)
      have hcons : s.drop i = t.drop i ↔ s[i] = t[i] ∧ s.drop (i + 1) = t.drop (i + 1) := by
        rw [List.drop_eq_getElem_cons hlt, List.drop_eq_getElem_cons hlt2, List.cons.injEq]
      by_cases heq : s[i] = t[i]
      · simp [Sets.DeepEqual.loop, hlt, goIndex_lt _ _ hlt, goIndex_lt _ _ hlt2, heq, this, hcons]
      · simp [Sets.DeepEqual.loop, hlt, goIndex_lt _ _ hlt, goIndex_lt _ _ hlt2, heq, hcons]
    · have h1 : s.drop i = [] := List.drop_eq_nil_of_le (by omega)
      have h2 : t.drop i = [] := List.drop_eq_nil_of_le (by omega)
      simp [Sets.DeepEqual.loop, hlt, h1, h2]

/-- `DeepEqual` always returns, and returns whether the two entry sequences are
the same. -/
theorem Sets.DeepEqual_eq [DecidableEq V] (s t : Sets V) :
    s.DeepEqual t = some (decide (s.entries = t.entries)) := by
  by_cases hlen : s.entries.length = t.entries.length
  · have := Sets.DeepEqual.loop_decides s.entries t.entries hlen s.entries.length 0 (Nat.zero_le _)
      (by omega)
    simpa [Sets.DeepEqual, Sets.Size, hlen] using this
  · have hne : s.entries ≠ t.entries := fun h => hlen (by rw [h])
    simp [Sets.DeepEqual, Sets.Size, hlen, hne]

/-! ## The merge of two entry sequences -/

theorem strictKeys_head_lt {x : stringSetEntry V} {xs : List (stringSetEntry V)}
    (h : StrictKeys (x :: xs)) : ∀ e ∈ xs, x.key < e.key :=
  (List.pairwise_cons.mp (strictKeys_lt h)).1

theorem strictKeys_tail {x : stringSetEntry V} {xs : List (stringSetEntry V)}
    (h : StrictKeys (x :: xs)) : StrictKeys xs :=
  (List.pairwise_cons.mp h).2

theorem lookupL_none_of_lt_head {y : stringSetEntry V} {ys : List (stringSetEntry V)}
    (h : StrictKeys (y :: ys)) {k : String} (hk : k < y.key) : lookupL (y :: ys) k = none := by
  apply lookupL_eq_none
  intro e he
  rcases List.mem_cons.mp he with rfl | hmem
  · exact ne_of_gt hk
  · exact ne_of_gt (lt_trans hk (strictKeys_head_lt h e hmem))

theorem lookupL_tail_none {x : stringSetEntry V} {xs : List (stringSetEntry V)}
    (h : StrictKeys (x :: xs)) : lookupL xs x.key = none :=
  lookupL_eq_none (fun e he => ne_of_gt (strictKeys_head_lt h e he))

/-- Every key of a merge is a key of one of the two inputs. -/
theorem mergeL_keys (ops : StringSetOps V) :
    ∀ (xs ys : List (stringSetEntry V)) (e : stringSetEntry V), e ∈ mergeL ops xs ys →
      (∃ x ∈ xs, x.key = e.key) ∨ (∃ y ∈ ys, y.key = e.key) := by
  intro xs
  induction xs with
  | nil =>
    intro ys e he
    rw [mergeL_nil_left] at he
    exact Or.inr ⟨e, he, rfl⟩
  | cons x xs ihx =>
    intro ys
    induction ys with
    | nil =>
      intro e he
      rw [mergeL_nil_right] at he
      exact Or.inl ⟨e, he, rfl⟩
    | cons y ys ihy =>
      intro e he
      rw [mergeL_cons_cons] at he
      by_cases hless : strLess x.key y.key = true
      · rw [if_pos hless] at he
        rcases List.mem_cons.mp he with rfl | hmem
        · exact Or.inl ⟨e, List.mem_cons_self _ _, rfl⟩
        · rcases ihx (y :: ys) e hmem with ⟨a, ha, hae⟩ | hr
          · exact Or.inl ⟨a, List.mem_cons_of_mem _ ha, hae⟩
          · exact Or.inr hr
      · rw [if_neg hless] at he
        by_cases hkey : x.key = y.key
        · rw [if_pos hkey] at he
          rcases List.mem_cons.mp he with rfl | hmem
          · exact Or.inl ⟨x, List.mem_cons_self _ _, rfl⟩
          · rcases ihx ys e hmem with ⟨a, ha, hae⟩ | ⟨b, hb, hbe⟩
            · exact Or.inl ⟨a, List.mem_cons_of_mem _ ha, hae⟩
            · exact Or.inr ⟨b, List.mem_cons_of_mem _ hb, hbe⟩
        · rw [if_neg hkey] at he
          rcases List.mem_cons.mp he with rfl | hmem
          · exact Or.inr ⟨e, List.mem_cons_self _ _, rfl⟩
          · rcases ihy e hmem with hl | ⟨b, hb, hbe⟩
            · exact Or.inl hl
            · exact Or.inr ⟨b, List.mem_cons_of_mem _ hb, hbe⟩

/-- The merge of two sequences with strictly increasing keys has strictly
increasing keys. -/
theorem mergeL_strictKeys (ops : StringSetOps V) :
    ∀ (xs ys : List (stringSetEntry V)), StrictKeys xs → StrictKeys ys →
      StrictKeys (mergeL ops xs ys) := by
  intro xs
  induction xs with
  | nil => intro ys _ hys; rw [mergeL_nil_left]; exact hys
  | cons x xs ihx =>
    intro ys
    induction ys with
    | nil => intro hxs _; rw [mergeL_nil_right]; exact hxs
    | cons y ys ihy =>
      intro hxs hys
      rw [mergeL_cons_cons]
      by_cases hless : strLess x.key y.key = true
      · rw [if_pos hless]
        have hxy : x.key < y.key := (strLess_iff _ _).mp hless
        refine List.pairwise_cons.mpr ⟨?_, ihx (y :: ys) (strictKeys_tail hxs) hys⟩
        intro e he
        rw [strLess_iff]
        rcases mergeL_keys ops xs (y :: ys) e he with ⟨a, ha, hae⟩ | ⟨b, hb, hbe⟩
        · exact hae ▸ strictKeys_head_lt hxs a ha
        · rcases List.mem_cons.mp hb with rfl | hmem
          · exact hbe ▸ hxy
          · exact hbe ▸ lt_trans hxy (strictKeys_head_lt hys b hmem)
      · rw [if_neg hless]
        have hyx : y.key ≤ x.key := (strLess_eq_false_iff _ _).mp (by simpa using hless)
        by_cases hkey : x.key = y.key
        · rw [if_pos hkey]
          refine List.pairwise_cons.mpr ⟨?_, ihx ys (strictKeys_tail hxs) (strictKeys_tail hys)⟩
          intro e he
          rw [strLess_iff]
          rcases mergeL_keys ops xs ys e he with ⟨a, ha, hae⟩ | ⟨b, hb, hbe⟩
          · exact hae ▸ strictKeys_head_lt hxs a ha
          · exact hbe ▸ hkey ▸ strictKeys_head_lt hys b hb
        · rw [if_neg hkey]
          have hlt : y.key < x.key := lt_of_le_of_ne hyx (Ne.symm hkey)
          refine List.pairwise_cons.mpr ⟨?_, ihy hxs (strictKeys_tail hys)⟩
          intro e he
          rw [strLess_iff]
          rcases mergeL_keys ops (x :: xs) ys e he with ⟨a, ha, hae⟩ | ⟨b, hb, hbe⟩
          · rcases List.mem_cons.mp ha with rfl | hmem
            · exact hae ▸ hlt
            · exact hae ▸ lt_trans hlt (strictKeys_head_lt hxs a hmem)
          · exact hbe ▸ strictKeys_head_lt hys b hb

theorem mergeValue_none_left (ops : StringSetOps V) (b : Option V) :
    mergeValue ops none b = b := by
  cases b <;> rfl

theorem mergeValue_none_right (ops : StringSetOps V) (a : Option V) :
    mergeValue ops a none = a := by
  cases a <;> rfl

/-- The value under `k` in a merge is the merged value of the two inputs. -/
theorem lookupL_mergeL (ops : StringSetOps V) (k : String) :
    ∀ (xs ys : List (stringSetEntry V)), StrictKeys xs → StrictKeys ys →
      lookupL (mergeL ops xs ys) k = mergeValue ops (lookupL xs k) (lookupL ys k) := by
  intro xs
  induction xs with
  | nil =>
    intro ys _ _
    rw [mergeL_nil_left]
    exact (mergeValue_none_left ops _).symm
  | cons x xs ihx =>
    intro ys
    induction ys with
    | nil =>
      intro _ _
      rw [mergeL_nil_right]
      exact (mergeValue_none_right ops _).symm
    | cons y ys ihy =>
      intro hxs hys
      rw [mergeL_cons_cons]
      by_cases hless : strLess x.key y.key = true
      · rw [if_pos hless, lookupL_cons, lookupL_cons x xs]
        have hxy : x.key < y.key := (strLess_iff _ _).mp hless
        by_cases hk : x.key = k
        · rw [if_pos hk, if_pos hk, lookupL_none_of_lt_head hys (hk ▸ hxy)]
          rfl
        · rw [if_neg hk, if_neg hk]
          exact ihx (y :: ys) (strictKeys_tail hxs) hys
      · rw [if_neg hless]
        have hyx : y.key ≤ x.key := (strLess_eq_false_iff _ _).mp (by simpa using hless)
        by_cases hkey : x.key = y.key
        · rw [if_pos hkey, lookupL_cons, lookupL_cons x xs, lookupL_cons y ys]
          by_cases hk : x.key = k
          · rw [if_pos hk, if_pos hk, if_pos (hkey ▸ hk)]
            rfl
          · rw [if_neg hk, if_neg hk, if_neg (hkey ▸ hk)]
            exact ihx ys (strictKeys_tail hxs) (strictKeys_tail hys)
        · rw [if_neg hkey, lookupL_cons, lookupL_cons y ys]
          have hlt : y.key < x.key := lt_of_le_of_ne hyx (Ne.symm hkey)
          by_cases hk : y.key = k
          · rw [if_pos hk, if_pos hk, lookupL_none_of_lt_head hxs (hk ▸ hlt)]
            rfl
          · rw [if_neg hk, if_neg hk]
            exact ihy hxs (strictKeys_tail hys)

/-- Two sequences with strictly increasing keys that hold the same value under
every key are the same sequence. -/
theorem strictKeys_ext :
    ∀ (l₁ l₂ : List (stringSetEntry V)), StrictKeys l₁ → StrictKeys l₂ →
      (∀ k, lookupL l₁ k = lookupL l₂ k) → l₁ = l₂ := by
  intro l₁
  induction l₁ with
  | nil =>
    intro l₂ _ _ h
    cases l₂ with
    | nil => rfl
    | cons y ys =>
      have := h y.key
      rw [lookupL_cons, if_pos rfl] at this
      simp [lookupL] at this
  | cons x xs ih =>
    intro l₂ h1 h2 h
    cases l₂ with
    | nil =>
      have := h x.key
      rw [lookupL_cons, if_pos rfl] at this
      simp [lookupL] at this
    | cons y ys =>
      have hkey : x.key = y.key := by
        rcases lt_trichotomy x.key y.key with hlt | heq | hgt
        · have := h x.key
          rw [lookupL_cons, if_pos rfl, lookupL_none_of_lt_head h2 hlt] at this
          simp at this
        · exact heq
        · have := h y.key
          rw [lookupL_cons y ys, if_pos rfl, lookupL_none_of_lt_head h1 hgt] at this
          simp at this
      have hval : x.Value = y.Value := by
        have := h x.key
        rw [lookupL_cons, if_pos rfl, lookupL_cons, if_pos hkey.symm] at this
        exact Option.some.inj this
      have hxy : x = y := by
        cases x; cases y
        simp only [stringSetEntry.mk.injEq]
        exact ⟨hkey, hval⟩
      subst hxy
      congr 1
      apply ih ys (strictKeys_tail h1) (strictKeys_tail h2)
      intro k
      by_cases hk : x.key = k
      · subst hk
        rw [lookupL_tail_none h1, lookupL_tail_none h2]
      · have := h k
        rwa [lookupL_cons, if_neg hk, lookupL_cons, if_neg hk] at this

/-- The merge of entry sequences commutes when the values' `Merge` does. -/
theorem mergeL_comm (ops : StringSetOps V) (hcomm : ∀ a b, ops.Merge a b = ops.Merge b a) :
    ∀ (xs ys : List (stringSetEntry V)), mergeL ops xs ys = mergeL ops ys xs := by
  intro xs
  induction xs with
  | nil => intro ys; rw [mergeL_nil_left, mergeL_nil_right]
  | cons x xs ihx =>
    intro ys
    induction ys with
    | nil => rw [mergeL_nil_left, mergeL_nil_right]
    | cons y ys ihy =>
      rw [mergeL_cons_cons, mergeL_cons_cons]
      rcases lt_trichotomy x.key y.key with hlt | heq | hgt
      · have h1 : strLess x.key y.key = true := (strLess_iff _ _).mpr hlt
        have h2 : ¬ strLess y.key x.key = true := fun h =>
          lt_asymm hlt ((strLess_iff _ _).mp h)
        rw [if_pos h1, if_neg h2, if_neg (ne_of_gt hlt), ihx (y :: ys)]
      · have h1 : ¬ strLess x.key y.key = true := fun h =>
          ne_of_lt ((strLess_iff _ _).mp h) heq
        have h2 : ¬ strLess y.key x.key = true := fun h =>
          ne_of_gt ((strLess_iff _ _).mp h) heq
        rw [if_neg h1, if_pos heq, if_neg h2, if_pos heq.symm, ihx ys, hcomm, heq]
      · have h1 : ¬ strLess x.key y.key = true := fun h =>
          lt_asymm hgt ((strLess_iff _ _).mp h)
        have h2 : strLess y.key x.key = true := (strLess_iff _ _).mpr hgt
        rw [if_neg h1, if_neg (ne_of_gt hgt), if_pos h2, ihy]

/-- The merge of an entry sequence with itself is that sequence when the values'
`Merge` is idempotent. -/
theorem mergeL_self (ops : StringSetOps V) (hidem : ∀ a, ops.Merge a a = a) :
    ∀ (xs : List (stringSetEntry V)), mergeL ops xs xs = xs := by
  intro xs
  induction xs with
  | nil => rw [mergeL_nil_left]
  | cons x xs ih =>
    have h1 : ¬ strLess x.key x.key = true := fun h => lt_irrefl _ ((strLess_iff _ _).mp h)
    rw [mergeL_cons_cons, if_neg h1, if_pos rfl, ih, hidem]

theorem mergeValue_assoc (ops : StringSetOps V)
    (hassoc : ∀ a b c, ops.Merge (ops.Merge a b) c = ops.Merge a (ops.Merge b c))
    (a b c : Option V) :
    mergeValue ops (mergeValue ops a b) c = mergeValue ops a (mergeValue ops b c) := by
  cases a <;> cases b <;> cases c <;> simp [mergeValue, hassoc]

/-- The merge of entry sequences with strictly increasing keys is associative
when the values' `Merge` is. -/
theorem mergeL_assoc (ops : StringSetOps V)
    (hassoc : ∀ a b c, ops.Merge (ops.Merge a b) c = ops.Merge a (ops.Merge b c))
    (xs ys zs : List (stringSetEntry V)) (hx : StrictKeys xs) (hy : StrictKeys ys)
    (hz : StrictKeys zs) :
    mergeL ops (mergeL ops xs ys) zs = mergeL ops xs (mergeL ops ys zs) := by
  have hxy := mergeL_strictKeys ops xs ys hx hy
  have hyz := mergeL_strictKeys ops ys zs hy hz
  apply strictKeys_ext _ _ (mergeL_strictKeys ops _ zs hxy hz) (mergeL_strictKeys ops xs _ hx hyz)
  intro k
  rw [lookupL_mergeL ops k _ _ hxy hz, lookupL_mergeL ops k _ _ hx hy,
    lookupL_mergeL ops k _ _ hx hyz, lookupL_mergeL ops k _ _ hy hz, mergeValue_assoc ops hassoc]

/-! ## Merge: lookup, algebra and ordering -/

/-- C1: for maps `A` and `B` with strictly increasing keys (non-nil, and nil as
well) and every key `k`, `Merge(A, B)` returns a map `M` on which `Lookup(M, k)`
returns `(a.Merge(b), true)` when `k` is in `A` with value `a` and in `B` with
value `b`, `(a, true)` when `k` is only in `A`, `(b, true)` when `k` is only in
`B`, and `(MakeStringSet(), false)` when `k` is in neither. -/
theorem Merge_then_Lookup (ops : StringSetOps V) (A B : Sets V)
    (hA : A.StrictlyIncreasing) (hB : B.StrictlyIncreasing) (k : String) :
    ∃ M, A.Merge ops B = some M ∧
      (∀ a b, (⟨k, a⟩ : stringSetEntry V) ∈ A.entries → (⟨k, b⟩ : stringSetEntry V) ∈ B.entries →
        M.Lookup ops k = some (ops.Merge a b, true)) ∧
      (∀ a, (⟨k, a⟩ : stringSetEntry V) ∈ A.entries → (∀ e ∈ B.entries, e.key ≠ k) →
        M.Lookup ops k = some (a, true)) ∧
      (∀ b, (∀ e ∈ A.entries, e.key ≠ k) → (⟨k, b⟩ : stringSetEntry V) ∈ B.entries →
        M.Lookup ops k = some (b, true)) ∧
      ((∀ e ∈ A.entries, e.key ≠ k) → (∀ e ∈ B.entries, e.key ≠ k) →
        M.Lookup ops k = some (ops.MakeStringSet, false)) := by
  obtain ⟨M, hM, hent⟩ := Sets.Merge_entries ops A B
  have hsorted : StrictKeys M.entries := hent ▸ mergeL_strictKeys ops _ _ hA hB
  have hlook : M.Lookup ops k =
      some (lookupResult ops (mergeValue ops (lookupL A.entries k) (lookupL B.entries k))) := by
    rw [Sets.Lookup_eq ops M k (strictKeys_le hsorted), hent, lookupL_mergeL ops k _ _ hA hB]
  refine ⟨M, hM, ?_, ?_, ?_, ?_⟩
  · intro a b ha hb
    rw [hlook, lookupL_of_mem hA ha, lookupL_of_mem hB hb]
    rfl
  · intro a ha hb
    rw [hlook, lookupL_of_mem hA ha, lookupL_eq_none hb]
    rfl
  · intro b ha hb
    rw [hlook, lookupL_eq_none ha, lookupL_of_mem hB hb]
    rfl
  · intro ha hb
    rw [hlook, lookupL_eq_none ha, lookupL_eq_none hb]
    rfl

/-- C1 at `A = {a: {1}, b: {2}}`, `B = {a: {3}, c: {2}}` and the key `a`. -/
theorem Merge_then_Lookup_witness :
    mapAB.StrictlyIncreasing ∧ mapAC.StrictlyIncreasing ∧
    ∃ M, mapAB.Merge unionOps mapAC = some M ∧
      (∀ a b, (⟨"a", a⟩ : stringSetEntry (Finset String)) ∈ mapAB.entries →
        (⟨"a", b⟩ : stringSetEntry (Finset String)) ∈ mapAC.entries →
        M.Lookup unionOps "a" = some (unionOps.Merge a b, true)) ∧
      (∀ a, (⟨"a", a⟩ : stringSetEntry (Finset String)) ∈ mapAB.entries →
        (∀ e ∈ mapAC.entries, e.key ≠ "a") → M.Lookup unionOps "a" = some (a, true)) ∧
      (∀ b, (∀ e ∈ mapAB.entries, e.key ≠ "a") →
        (⟨"a", b⟩ : stringSetEntry (Finset String)) ∈ mapAC.entries →
        M.Lookup unionOps "a" = some (b, true)) ∧
      ((∀ e ∈ mapAB.entries, e.key ≠ "a") → (∀ e ∈ mapAC.entries, e.key ≠ "a") →
        M.Lookup unionOps "a" = some (unionOps.MakeStringSet, false)) :=
  ⟨by decide, by decide, Merge_then_Lookup unionOps mapAB mapAC (by decide) (by decide) "a"⟩

/-- C2: for maps `A` and `B` with strictly increasing keys (the nil map and the
empty map included), if the value type's `Merge` is commutative then
`Merge(A, B)` and `Merge(B, A)` both return and are `DeepEqual`. The ordering of
the keys is not used by the proof. -/
theorem Merge_commutative [DecidableEq V] (ops : StringSetOps V) (A B : Sets V)
    (_hA : A.StrictlyIncreasing) (_hB : B.StrictlyIncreasing)
    (hcomm : ∀ a b, ops.Merge a b = ops.Merge b a) :
    ∃ x y, A.Merge ops B = some x ∧ B.Merge ops A = some y ∧ x.DeepEqual y = some true := by
  obtain ⟨x, hx, hxe⟩ := Sets.Merge_entries ops A B
  obtain ⟨y, hy, hye⟩ := Sets.Merge_entries ops B A
  refine ⟨x, y, hx, hy, ?_⟩
  rw [Sets.DeepEqual_eq, hxe, hye, mergeL_comm ops hcomm]
  simp

/-- C2 at `A = {a: {1}, b: {2}}` and `B = {a: {3}, c: {2}}` under set union. -/
theorem Merge_commutative_witness :
    mapAB.StrictlyIncreasing ∧ mapAC.StrictlyIncreasing ∧
    (∀ a b : Finset String, unionOps.Merge a b = unionOps.Merge b a) ∧
    ∃ x y, mapAB.Merge unionOps mapAC = some x ∧ mapAC.Merge unionOps mapAB = some y ∧
      x.DeepEqual y = some true :=
  ⟨by decide, by decide, fun a b => Finset.union_comm a b,
    Merge_commutative unionOps mapAB mapAC (by decide) (by decide)
      (fun a b => Finset.union_comm a b)⟩

/-- C3: for maps `A`, `B` and `C` with strictly increasing keys (the nil map and
the empty map included), if the value type's `Merge` is associative then
`Merge(Merge(A, B), C)` and `Merge(A, Merge(B, C))` both return and are
`DeepEqual`. -/
theorem Merge_associative [DecidableEq V] (ops : StringSetOps V) (A B C : Sets V)
    (hA : A.StrictlyIncreasing) (hB : B.StrictlyIncreasing) (hC : C.StrictlyIncreasing)
    (hassoc : ∀ a b c, ops.Merge (ops.Merge a b) c = ops.Merge a (ops.Merge b c)) :
    ∃ ab abc bc abc2, A.Merge ops B = some ab ∧ ab.Merge ops C = some abc ∧
      B.Merge ops C = some bc ∧ A.Merge ops bc = some abc2 ∧
      abc.DeepEqual abc2 = some true := by
  obtain ⟨ab, hab, habe⟩ := Sets.Merge_entries ops A B
  obtain ⟨abc, habc, habce⟩ := Sets.Merge_entries ops ab C
  obtain ⟨bc, hbc, hbce⟩ := Sets.Merge_entries ops B C
  obtain ⟨abc2, habc2, habc2e⟩ := Sets.Merge_entries ops A bc
  refine ⟨ab, abc, bc, abc2, hab, habc, hbc, habc2, ?_⟩
  rw [Sets.DeepEqual_eq, habce, habe, habc2e, hbce, mergeL_assoc ops hassoc _ _ _ hA hB hC]
  simp

/-- C3 at `{a: {1}, b: {2}}`, `{a: {3}, c: {2}}` and `{b: {4}, d: {5}}` under
set union. -/
theorem Merge_associative_witness :
    mapAB.StrictlyIncreasing ∧ mapAC.StrictlyIncreasing ∧ mapBD.StrictlyIncreasing ∧
    (∀ a b c : Finset String,
      unionOps.Merge (unionOps.Merge a b) c = unionOps.Merge a (unionOps.Merge b c)) ∧
    ∃ ab abc bc abc2, mapAB.Merge unionOps mapAC = some ab ∧ ab.Merge unionOps mapBD = some abc ∧
      mapAC.Merge unionOps mapBD = some bc ∧ mapAB.Merge unionOps bc = some abc2 ∧
      abc.DeepEqual abc2 = some true :=
  ⟨by decide, by decide, by decide, fun a b c => Finset.union_assoc a b c,
    Merge_associative unionOps mapAB mapAC mapBD (by decide) (by decide) (by decide)
      (fun a b c => Finset.union_assoc a b c)⟩

/-- C4: the empty map `MakeSets()` and the nil map are identity elements of
`Merge` on either side. For every map `A` (whatever the order of its keys),
`Merge(Empty, A)` and `Merge(A, Empty)` return a map `DeepEqual` to `A`, and
`Merge(nil, A)` and `Merge(A, nil)` return `A` itself, which is `DeepEqual` to
`A`. -/
theorem Merge_identity [DecidableEq V] (ops : StringSetOps V) (A : Sets V) :
    (∃ x, MakeSets.Merge ops A = some x ∧ x.DeepEqual A = some true) ∧
    (∃ x, A.Merge ops MakeSets = some x ∧ x.DeepEqual A = some true) ∧
    Sets.nil.Merge ops A = some A ∧
    A.Merge ops Sets.nil = some A ∧
    A.DeepEqual A = some true := by
  refine ⟨?_, ?_, ?_, ?_, ?_⟩
  · obtain ⟨x, hx, hxe⟩ := Sets.Merge_entries ops MakeSets A
    refine ⟨x, hx, ?_⟩
    rw [Sets.DeepEqual_eq, hxe]
    simp [MakeSets, Sets.entries, mergeL_nil_left]
  · obtain ⟨x, hx, hxe⟩ := Sets.Merge_entries ops A MakeSets
    refine ⟨x, hx, ?_⟩
    rw [Sets.DeepEqual_eq, hxe]
    simp [MakeSets, Sets.entries, mergeL_nil_right]
  · simp [Sets.Merge]
  · cases A <;> simp [Sets.Merge]
  · rw [Sets.DeepEqual_eq]
    simp

/-- C5: for every map `A` with strictly increasing keys, if the value type's
`Merge` is idempotent then `Merge(A, A)` returns a map `DeepEqual` to `A`. The
ordering of the keys is not used by the proof. -/
theorem Merge_idempotent [DecidableEq V] (ops : StringSetOps V) (A : Sets V)
    (_hA : A.StrictlyIncreasing) (hidem : ∀ v, ops.Merge v v = v) :
    ∃ x, A.Merge ops A = some x ∧ x.DeepEqual A = some true := by
  obtain ⟨x, hx, hxe⟩ := Sets.Merge_entries ops A A
  refine ⟨x, hx, ?_⟩
  rw [Sets.DeepEqual_eq, hxe, mergeL_self ops hidem]
  simp

/-- C5 at `A = {a: {1}, b: {2}}` under set union. -/
theorem Merge_idempotent_witness :
    mapAB.StrictlyIncreasing ∧ (∀ v : Finset String, unionOps.Merge v v = v) ∧
    ∃ x, mapAB.Merge unionOps mapAB = some x ∧ x.DeepEqual mapAB = some true :=
  ⟨by decide, fun v => Finset.union_self v,
    Merge_idempotent unionOps mapAB (by decide) (fun v => Finset.union_self v)⟩

/-- C6: for maps `A` and `B` with strictly increasing keys, `Merge(A, B)`
returns a map whose keys are strictly increasing: sorted by key, no key twice. -/
theorem Merge_strictly_increasing (ops : StringSetOps V) (A B : Sets V)
    (hA : A.StrictlyIncreasing) (hB : B.StrictlyIncreasing) :
    ∃ M, A.Merge ops B = some M ∧ M.StrictlyIncreasing := by
  obtain ⟨M, hM, hent⟩ := Sets.Merge_entries ops A B
  exact ⟨M, hM, by
    show StrictKeys M.entries
    rw [hent]
    exact mergeL_strictKeys ops _ _ hA hB⟩

/-- C6 at `A = {a: {1}, b: {2}}` and `B = {b: {4}, d: {5}}`. -/
theorem Merge_strictly_increasing_witness :
    mapAB.StrictlyIncreasing ∧ mapBD.StrictlyIncreasing ∧
    ∃ M, mapAB.Merge unionOps mapBD = some M ∧ M.StrictlyIncreasing :=
  ⟨by decide, by decide, Merge_strictly_increasing unionOps mapAB mapBD (by decide) (by decide)⟩

/-! ## Add -/

theorem goCopy_make {α : Type} (z : α) (n : Nat) (src : List α) (h : src.length ≤ n) :
    goCopy (goMake z n) src = src ++ goMake z (n - src.length) := by
  simp [goCopy, goMake, List.take_of_length_le h]

theorem goStore_mid {α : Type} (pre suf : List α) (x y : α) (i : Nat) (hi : pre.length = i) :
    goStore (pre ++ x :: suf) i y = some (pre ++ y :: suf) := by
  subst hi
  simp [goStore]

theorem goCopyInto_fill {α : Type} (pre zs src : List α) (i : Nat) (hi : pre.length = i)
    (h : zs.length = src.length) : goCopyInto (pre ++ zs) i src = some (pre ++ src) := by
  subst hi
  simp [goCopyInto, goCopy, h]

/-- `Add` returns once `locate` has returned an index within the slice, and
returns the entries `addL` describes. -/
theorem Sets.Add_of_locate (ops : StringSetOps V) (s : Sets V) (k : String) (v : V) (i : Nat)
    (hloc : s.locate k = some i) (hi : i ≤ s.entries.length) :
    s.Add ops k v = some (Sets.slice (addL ops s.entries i k v)) := by
  have hlen : (s.entries.take i).length = i := by simp [hi]
  by_cases hlt : i < s.entries.length
  · have hdrop : s.entries.drop i = s.entries[i] :: s.entries.drop (i + 1) :=
      List.drop_eq_getElem_cons hlt
    have hsplit : s.entries.take i ++ s.entries[i] :: s.entries.drop (i + 1) = s.entries := by
      rw [← hdrop, List.take_append_drop]
    by_cases hk : s.entries[i].key = k
    · have h1 : goCopy (goMake (zeroEntry ops) s.entries.length) s.entries = s.entries := by
        rw [goCopy_make _ _ _ (Nat.le_refl _)]
        simp [goMake]
      have h2 : goStore s.entries i ⟨k, ops.Merge v s.entries[i].Value⟩ =
          some (s.entries.take i ++ ⟨k, ops.Merge v s.entries[i].Value⟩ :: s.entries.drop (i + 1)) := by
        simp [goStore, hlt, List.set_eq_take_append_cons_drop]
      have h3 : addL ops s.entries i k v =
          s.entries.take i ++ ⟨k, ops.Merge v s.entries[i].Value⟩ :: s.entries.drop (i + 1) := by
        simp only [addL, hdrop, if_pos hk]
      simp [Sets.Add, hloc, Nat.ne_of_lt hlt, goIndex_lt _ _ hlt, hk, h1, h2, h3]
    · have h1 : goCopy (goMake (zeroEntry ops) (s.entries.length + 1)) (s.entries.take i) =
          s.entries.take i ++ zeroEntry ops :: goMake (zeroEntry ops) (s.entries.length - i) := by
        rw [goCopy_make _ _ _ (by rw [hlen]; omega), hlen]
        have : s.entries.length + 1 - i = (s.entries.length - i) + 1 := by omega
        rw [this]
        simp [goMake, List.replicate_succ]
      have h2 : goCopyInto (s.entries.take i ++
            zeroEntry ops :: goMake (zeroEntry ops) (s.entries.length - i)) (i + 1)
            (s.entries.drop i) =
          some (s.entries.take i ++ zeroEntry ops :: s.entries.drop i) := by
        have := goCopyInto_fill (s.entries.take i ++ [zeroEntry ops])
          (goMake (zeroEntry ops) (s.entries.length - i)) (s.entries.drop i) (i + 1)
          (by simp [hi]) (by simp [goMake])
        simpa using this
      have h3 : goStore (s.entries.take i ++ zeroEntry ops :: s.entries.drop i) i ⟨k, v⟩ =
          some (s.entries.take i ++ ⟨k, v⟩ :: s.entries.drop i) :=
        goStore_mid _ _ _ _ i hlen
      have h4 : addL ops s.entries i k v = s.entries.take i ++ ⟨k, v⟩ :: s.entries.drop i := by
        simp only [addL, hdrop, if_neg hk]
      simp [Sets.Add, hloc, Nat.ne_of_lt hlt, goIndex_lt _ _ hlt, hk, goSliceTo, goSliceFrom, hi,
        h1, h2, h3, h4]
  · have hil : i = s.entries.length := by omega
    subst hil
    have hnil : s.entries.drop s.entries.length = [] := List.drop_eq_nil_of_le (Nat.le_refl _)
    have htake : s.entries.take s.entries.length = s.entries :=
      List.take_of_length_le (Nat.le_refl _)
    have h1 : goCopy (goMake (zeroEntry ops) (s.entries.length + 1)) s.entries =
        s.entries ++ [zeroEntry ops] := by
      rw [goCopy_make _ _ _ (by omega)]
      simp [goMake]
    have h2 : goStore (s.entries ++ [zeroEntry ops]) s.entries.length ⟨k, v⟩ =
        some (s.entries ++ [⟨k, v⟩]) :=
      goStore_mid _ _ _ _ _ rfl
    have h3 : addL ops s.entries s.entries.length k v = s.entries ++ [⟨k, v⟩] := by
      simp only [addL, hnil, htake]
    simp [Sets.Add, hloc, h1, h2, h3]

theorem strictKeys_insert {pre suf : List (stringSetEntry V)} (h : StrictKeys (pre ++ suf))
    (k : String) (v : V) (hpre : ∀ e ∈ pre, e.key < k) (hsuf : ∀ e ∈ suf, k < e.key) :
    StrictKeys (pre ++ ⟨k, v⟩ :: suf) := by
  unfold StrictKeys at h ⊢
  rw [List.pairwise_append] at h ⊢
  obtain ⟨h1, h2, h3⟩ := h
  refine ⟨h1, List.pairwise_cons.mpr ⟨fun e he => (strLess_iff _ _).mpr (hsuf e he), h2⟩, ?_⟩
  intro a ha b hb
  rcases List.mem_cons.mp hb with rfl | hmem
  · exact (strLess_iff _ _).mpr (hpre a ha)
  · exact h3 a ha b hmem

theorem strictKeys_replace {pre suf : List (stringSetEntry V)} {e : stringSetEntry V}
    (h : StrictKeys (pre ++ e :: suf)) (w : V) : StrictKeys (pre ++ ⟨e.key, w⟩ :: suf) := by
  unfold StrictKeys at h ⊢
  rw [List.pairwise_append, List.pairwise_cons] at h ⊢
  obtain ⟨h1, ⟨h2, h3⟩, h4⟩ := h
  refine ⟨h1, ⟨h2, h3⟩, ?_⟩
  intro a ha b hb
  rcases List.mem_cons.mp hb with rfl | hmem
  · exact h4 a ha e (List.mem_cons_self _ _)
  · exact h4 a ha b (List.mem_cons_of_mem _ hmem)

/-- `Add` on a map with strictly increasing keys, for a key the map does not
hold: the entry is inserted and the keys stay strictly increasing. -/
theorem Sets.Add_absent (ops : StringSetOps V) (s : Sets V) (k : String) (v : V)
    (hs : s.StrictlyIncreasing) (habs : ∀ e ∈ s.entries, e.key ≠ k) :
    ∃ pre suf, s.entries = pre ++ suf ∧ StrictKeys (pre ++ ⟨k, v⟩ :: suf) ∧
      s.Add ops k v = some (Sets.slice (pre ++ ⟨k, v⟩ :: suf)) := by
  obtain ⟨i, hloc, hi, hlo, hhi⟩ := s.locate_split k (strictKeys_le hs)
  have hsplit : s.entries = s.entries.take i ++ s.entries.drop i := (List.take_append_drop i _).symm
  have hsuf : ∀ e ∈ s.entries.drop i, k < e.key := fun e he =>
    lt_of_le_of_ne (hhi e he) (Ne.symm (habs e (List.mem_of_mem_drop he)))
  have hsorted : StrictKeys (s.entries.take i ++ s.entries.drop i) := by
    rw [← hsplit]; exact hs
  refine ⟨s.entries.take i, s.entries.drop i, hsplit, strictKeys_insert hsorted k v hlo hsuf, ?_⟩
  rw [Sets.Add_of_locate ops s k v i hloc hi]
  congr 2
  unfold addL
  cases hd : s.entries.drop i with
  | nil => rfl
  | cons e rest =>
    have : e.key ≠ k := habs e (List.mem_of_mem_drop (by rw [hd]; exact List.mem_cons_self _ _))
    simp [this]

/-- `Add` on a map with strictly increasing keys, for a key the map holds with
value `v0`: the entry is replaced by one with the value `value.Merge(v0)`. -/
theorem Sets.Add_present (ops : StringSetOps V) (s : Sets V) (k : String) (v v0 : V)
    (hs : s.StrictlyIncreasing) (hmem : (⟨k, v0⟩ : stringSetEntry V) ∈ s.entries) :
    ∃ pre suf, s.entries = pre ++ ⟨k, v0⟩ :: suf ∧
      StrictKeys (pre ++ ⟨k, ops.Merge v v0⟩ :: suf) ∧
      s.Add ops k v = some (Sets.slice (pre ++ ⟨k, ops.Merge v v0⟩ :: suf)) := by
  obtain ⟨i, hloc, hi, hlo, hhi⟩ := s.locate_split k (strictKeys_le hs)
  have hsplit : s.entries = s.entries.take i ++ s.entries.drop i := (List.take_append_drop i _).symm
  have hin : (⟨k, v0⟩ : stringSetEntry V) ∈ s.entries.drop i := by
    rw [hsplit] at hmem
    rcases List.mem_append.mp hmem with h | h
    · exact absurd (hlo _ h) (lt_irrefl _)
    · exact h
  cases hd : s.entries.drop i with
  | nil => rw [hd] at hin; simp at hin
  | cons e rest =>
    have hsd : StrictKeys (e :: rest) := by
      rw [← hd]; exact List.Pairwise.sublist (List.drop_sublist i _) hs
    have he : e = ⟨k, v0⟩ := by
      rw [hd] at hin
      rcases List.mem_cons.mp hin with h | h
      · exact h.symm
      · have h1 : e.key < k := strictKeys_head_lt hsd _ h
        have h2 : k ≤ e.key := hhi e (by rw [hd]; exact List.mem_cons_self _ _)
        exact absurd h1 (not_lt_of_le h2)
    subst he
    have hsplit2 : s.entries = s.entries.take i ++ ⟨k, v0⟩ :: rest := by rw [← hd]; exact hsplit
    have hsorted : StrictKeys (s.entries.take i ++ ⟨k, v0⟩ :: rest) := by
      rw [← hsplit2]; exact hs
    refine ⟨s.entries.take i, rest, hsplit2, strictKeys_replace hsorted (ops.Merge v v0), ?_⟩
    rw [Sets.Add_of_locate ops s k v i hloc hi]
    congr 2
    simp [addL, hd]

/-! ## Add followed by Lookup -/

/-- On a map with strictly increasing keys that holds `k` with value `v0`,
`Add(A, k, v)` returns a map on which `Lookup` of `k` returns the value that
line 49 of `sets.go` computes, `value.Merge(s[i].Value)`. -/
theorem Sets.Add_present_Lookup (ops : StringSetOps V) (A : Sets V) (k : String) (v v0 : V)
    (hA : A.StrictlyIncreasing) (hmem : (⟨k, v0⟩ : stringSetEntry V) ∈ A.entries) :
    ∃ r, A.Add ops k v = some r ∧ r.Lookup ops k = some (ops.Merge v v0, true) := by
  obtain ⟨pre, suf, _, hsorted, hadd⟩ := Sets.Add_present ops A k v v0 hA hmem
  have hlook : (Sets.slice (pre ++ ⟨k, ops.Merge v v0⟩ :: suf)).Lookup ops k =
      some (ops.Merge v v0, true) := by
    rw [Sets.Lookup_eq ops (Sets.slice (pre ++ ⟨k, ops.Merge v v0⟩ :: suf)) k
      (strictKeys_le hsorted)]
    have : lookupL (Sets.slice (pre ++ ⟨k, ops.Merge v v0⟩ :: suf)).entries k =
        some (ops.Merge v v0) :=
      lookupL_of_mem hsorted (List.mem_append_right _ (List.mem_cons_self _ _))
    rw [this]
    rfl
  exact ⟨_, hadd, hlook⟩

/-- C7: for every map `A` with strictly increasing keys, every key `k` that is
in `A` with value `v0`, and every value `v`, if the value type's `Merge` is
commutative then `Add(A, k, v)` returns a map on which `Lookup` of `k` returns
`(v0.Merge(v), true)`, the `Merge` with the existing value `v0` as receiver and
the added value `v` as argument. -/
theorem Add_present_then_Lookup (ops : StringSetOps V) (A : Sets V) (k : String) (v v0 : V)
    (hA : A.StrictlyIncreasing) (hmem : (⟨k, v0⟩ : stringSetEntry V) ∈ A.entries)
    (hcomm : ∀ a b, ops.Merge a b = ops.Merge b a) :
    ∃ r, A.Add ops k v = some r ∧ r.Lookup ops k = some (ops.Merge v0 v, true) := by
  obtain ⟨r, hadd, hlook⟩ := Sets.Add_present_Lookup ops A k v v0 hA hmem
  exact ⟨r, hadd, by rw [hlook, hcomm]⟩

/-- C7 at `A = {a: {1}, b: {2}}`, `k = a` and `v = {3}`, with sets of strings as
values: `Lookup` of `a` returns `({1}.Merge({3}), true)`, the union of `{3}` and
`{1}`. -/
theorem Add_present_then_Lookup_witness :
    mapAB.StrictlyIncreasing ∧
    (⟨"a", {"1"}⟩ : stringSetEntry (Finset String)) ∈ mapAB.entries ∧
    (∀ a b : Finset String, unionOps.Merge a b = unionOps.Merge b a) ∧
    (mapAB.Add unionOps "a" {"3"}).bind (fun r => r.Lookup unionOps "a") =
      some ({"3"} ∪ {"1"}, true) ∧
    ∃ r, mapAB.Add unionOps "a" {"3"} = some r ∧
      r.Lookup unionOps "a" = some (unionOps.Merge {"1"} {"3"}, true) :=
  ⟨by decide, by decide, fun a b => Finset.union_comm a b, by decide,
    Add_present_then_Lookup unionOps mapAB "a" {"3"} {"1"} (by decide) (by decide)
      (fun a b => Finset.union_comm a b)⟩

/-- C8: for every map `A` with strictly increasing keys, every key `k` that is
not in `A` and every value `v`, `Add(A, k, v)` returns a map on which `Lookup`
of `k` returns `(v, true)`. -/
theorem Add_absent_then_Lookup (ops : StringSetOps V) (A : Sets V) (k : String) (v : V)
    (hA : A.StrictlyIncreasing) (habs : ∀ e ∈ A.entries, e.key ≠ k) :
    ∃ r, A.Add ops k v = some r ∧ r.Lookup ops k = some (v, true) := by
  obtain ⟨pre, suf, _, hsorted, hadd⟩ := Sets.Add_absent ops A k v hA habs
  refine ⟨_, hadd, ?_⟩
  rw [Sets.Lookup_eq ops (Sets.slice (pre ++ ⟨k, v⟩ :: suf)) k (strictKeys_le hsorted)]
  have : lookupL (Sets.slice (pre ++ ⟨k, v⟩ :: suf)).entries k = some v :=
    lookupL_of_mem hsorted (List.mem_append_right _ (List.mem_cons_self _ _))
  rw [this]
  rfl

/-- C8 at `A = {a: {1}, b: {2}}`, `k = ab` and `v = {3}`. -/
theorem Add_absent_then_Lookup_witness :
    mapAB.StrictlyIncreasing ∧ (∀ e ∈ mapAB.entries, e.key ≠ "ab") ∧
    ∃ r, mapAB.Add unionOps "ab" {"3"} = some r ∧ r.Lookup unionOps "ab" = some ({"3"}, true) :=
  ⟨by decide, by decide, Add_absent_then_Lookup unionOps mapAB "ab" {"3"} (by decide) (by decide)⟩

/-! ## Delete -/

/-- `Delete` returns once `locate` has returned an index within the slice: the
receiver when the entry at the index does not have the key (or there is none),
and otherwise the entries `deleteL` describes, in which for `i > 0` the entry
at `i - 1` is replaced by the zero entry. -/
theorem Sets.Delete_of_locate (ops : StringSetOps V) (s : Sets V) (k : String) (i : Nat)
    (hloc : s.locate k = some i) (hi : i ≤ s.entries.length) :
    s.Delete ops k = some (match s.entries.drop i with
      | [] => s
      | e :: _ => if e.key = k then Sets.slice (deleteL ops s.entries i) else s) := by
  by_cases hlt : i < s.entries.length
  · have hdrop : s.entries.drop i = s.entries[i] :: s.entries.drop (i + 1) :=
      List.drop_eq_getElem_cons hlt
    by_cases hk : s.entries[i].key = k
    · have hrhs : (match s.entries.drop i with
          | [] => s
          | e :: _ => if e.key = k then Sets.slice (deleteL ops s.entries i) else s) =
          Sets.slice (deleteL ops s.entries i) := by
        rw [hdrop]
        simp only [if_pos hk]
      rw [hrhs]
      by_cases hpos : i > 0
      · have hlen : (s.entries.take (i - 1)).length = i - 1 := by
          simp only [List.length_take]; omega
        have h1 : goCopy (goMake (zeroEntry ops) (s.entries.length - 1)) (s.entries.take (i - 1)) =
            s.entries.take (i - 1) ++
              zeroEntry ops :: goMake (zeroEntry ops) (s.entries.length - 1 - i) := by
          rw [goCopy_make _ _ _ (by rw [hlen]; omega), hlen]
          have : s.entries.length - 1 - (i - 1) = (s.entries.length - 1 - i) + 1 := by omega
          rw [this]
          simp [goMake, List.replicate_succ]
        have h2 : goCopyInto (s.entries.take (i - 1) ++
              zeroEntry ops :: goMake (zeroEntry ops) (s.entries.length - 1 - i)) i
              (s.entries.drop (i + 1)) =
            some (s.entries.take (i - 1) ++ zeroEntry ops :: s.entries.drop (i + 1)) := by
          have := goCopyInto_fill (s.entries.take (i - 1) ++ [zeroEntry ops])
            (goMake (zeroEntry ops) (s.entries.length - 1 - i)) (s.entries.drop (i + 1)) i
            (by simp only [List.length_append, hlen, List.length_singleton]; omega)
            (by simp only [goMake, List.length_replicate, List.length_drop]; omega)
          simpa using this
        have h3 : i ≤ s.entries.length + 1 := by omega
        have h4 : i + 1 ≤ s.entries.length := by omega
        simp [Sets.Delete, hloc, Nat.ne_of_lt hlt, goIndex_lt _ _ hlt, hk, hpos, goSliceTo,
          goSliceFrom, h3, h4, h1, h2, deleteL]
      · have hi0 : i = 0 := by omega
        subst hi0
        have h2 : goCopyInto (goMake (zeroEntry ops) (s.entries.length - 1)) 0
            s.entries.tail = some s.entries.tail := by
          have := goCopyInto_fill [] (goMake (zeroEntry ops) (s.entries.length - 1))
            s.entries.tail 0 rfl (by simp [goMake])
          simpa using this
        have h4 : 1 ≤ s.entries.length := by omega
        have hk0 : s.entries[0].key = k := hk
        simp [Sets.Delete, hloc, Nat.ne_of_lt hlt, goIndex_lt _ _ hlt, hk0, goSliceFrom, h4, h2,
          deleteL]
    · have hrhs : (match s.entries.drop i with
          | [] => s
          | e :: _ => if e.key = k then Sets.slice (deleteL ops s.entries i) else s) = s := by
        rw [hdrop]
        simp only [if_neg hk]
      rw [hrhs]
      simp [Sets.Delete, hloc, Nat.ne_of_lt hlt, goIndex_lt _ _ hlt, hk]
  · have hil : i = s.entries.length := by omega
    subst hil
    have hnil : s.entries.drop s.entries.length = [] := List.drop_eq_nil_of_le (Nat.le_refl _)
    simp [Sets.Delete, hloc, hnil]

/-- `Delete` on a map with strictly increasing keys, for a key the map holds
after at least one other entry: the entry just before the key's entry is
replaced by the zero entry. -/
theorem Sets.Delete_after_first (ops : StringSetOps V) (pre suf : List (stringSetEntry V))
    (p : stringSetEntry V) (k : String) (v : V)
    (hs : StrictKeys (pre ++ p :: ⟨k, v⟩ :: suf)) :
    (Sets.slice (pre ++ p :: ⟨k, v⟩ :: suf)).Delete ops k =
      some (Sets.slice (pre ++ zeroEntry ops :: suf)) := by
  obtain ⟨i, hloc, hi, hlo, hhi⟩ :=
    (Sets.slice (pre ++ p :: ⟨k, v⟩ :: suf)).locate_split k (strictKeys_le hs)
  have hpw := strictKeys_lt hs
  rw [List.pairwise_append, List.pairwise_cons, List.pairwise_cons] at hpw
  obtain ⟨_, ⟨hp, hkv, _⟩, hcross⟩ := hpw
  have hpk : p.key < k := hp ⟨k, v⟩ (List.mem_cons_self _ _)
  have hi2 : i = pre.length + 1 := by
    simp only [Sets.entries] at hi hlo hhi
    by_contra hne
    rcases Nat.lt_or_gt_of_ne hne with hlt | hgt
    · have hmem : p ∈ (pre ++ p :: ⟨k, v⟩ :: suf).drop i := by
        rw [List.drop_append_of_le_length (by omega)]
        exact List.mem_append_right _ (List.mem_cons_self _ _)
      exact absurd (hhi p hmem) (not_le_of_lt hpk)
    · have hmem : (⟨k, v⟩ : stringSetEntry V) ∈ (pre ++ p :: ⟨k, v⟩ :: suf).take i := by
        have h1 : pre ++ p :: ⟨k, v⟩ :: suf = (pre ++ [p, ⟨k, v⟩]) ++ suf := by simp
        rw [h1, List.take_append_eq_append_take, List.take_of_length_le (by simp; omega)]
        exact List.mem_append_left _ (by simp)
      exact absurd (hlo _ hmem) (lt_irrefl _)
  subst hi2
  rw [Sets.Delete_of_locate ops _ k _ hloc hi]
  have hd : (pre ++ p :: ⟨k, v⟩ :: suf).drop (pre.length + 1) = ⟨k, v⟩ :: suf := by
    have h1 : pre ++ p :: ⟨k, v⟩ :: suf = (pre ++ [p]) ++ ⟨k, v⟩ :: suf := by simp
    rw [h1]
    exact List.drop_left' (by simp)
  have hd2 : (pre ++ p :: ⟨k, v⟩ :: suf).drop (pre.length + 1 + 1) = suf := by
    have h1 : pre ++ p :: ⟨k, v⟩ :: suf = (pre ++ [p, ⟨k, v⟩]) ++ suf := by simp
    rw [h1]
    exact List.drop_left' (by simp)
  have ht : (pre ++ p :: ⟨k, v⟩ :: suf).take (pre.length + 1 - 1) = pre := by
    exact List.take_left' (by omega)
  simp only [Sets.entries, hd, if_pos, deleteL, Nat.succ_pos, gt_iff_lt, ht, hd2]


/-- `Delete` on a map with strictly increasing keys, for a key the map does not
hold, returns the receiver. -/
theorem Sets.Delete_absent (ops : StringSetOps V) (s : Sets V) (k : String)
    (hs : s.StrictlyIncreasing) (habs : ∀ e ∈ s.entries, e.key ≠ k) :
    s.Delete ops k = some s := by
  obtain ⟨i, hloc, hi, _, _⟩ := s.locate_split k (strictKeys_le hs)
  rw [Sets.Delete_of_locate ops s k i hloc hi]
  cases hd : s.entries.drop i with
  | nil => rfl
  | cons e rest =>
    have : e.key ≠ k := habs e (List.mem_of_mem_drop (by rw [hd]; exact List.mem_cons_self _ _))
    simp only [if_neg this]

/-- C9 at `A = {a: {1}, b: {2}}` and `k = b`: the keys of `A` are strictly
increasing and `b` is in `A`, and `Delete(A, b)` returns the one-entry map whose
entry is the zero entry (empty key, zero value). The entry `a -> {1}` of `A` is
not in it: `Lookup` of `a` finds nothing. -/
theorem Delete_loses_previous_entry :
    mapAB.StrictlyIncreasing ∧
    (⟨"b", {"2"}⟩ : stringSetEntry (Finset String)) ∈ mapAB.entries ∧
    mapAB.Delete unionOps "b" = some (Sets.slice [zeroEntry unionOps]) ∧
    zeroEntry unionOps = ⟨"", ∅⟩ ∧
    mapAB.Delete unionOps "b" ≠ some (Sets.slice [⟨"a", {"1"}⟩]) ∧
    (mapAB.Delete unionOps "b").bind (fun r => r.Lookup unionOps "a") = some (∅, false) := by
  decide

/-- C10 at `A = {a: {1}}`, `k = b` and `v = {2}`: the keys of `A` are strictly
increasing and `b` is not in `A`; `Delete(A, b)` returns `A`, while
`Delete(Add(A, b, {2}), b)` returns the one-entry map whose entry is the zero
entry, which is not `DeepEqual` to `A`. -/
theorem Delete_after_Add_loses_entry :
    mapA.StrictlyIncreasing ∧ (∀ e ∈ mapA.entries, e.key ≠ "b") ∧
    mapA.Delete unionOps "b" = some mapA ∧
    mapA.Add unionOps "b" {"2"} = some mapAB ∧
    (mapA.Add unionOps "b" {"2"}).bind (fun r => r.Delete unionOps "b") =
      some (Sets.slice [zeroEntry unionOps]) ∧
    (Sets.slice [zeroEntry unionOps]).DeepEqual mapA = some false := by
  decide

/-! ## locate, Lookup and Add on every map -/

/-- The binary search loop returns within `j - i` steps whenever the predicate
is defined on `[0, n)`, and returns an index between `i` and `j`. -/
theorem Search.loop_total (f : Nat → Option Bool) (n : Nat)
    (hf : ∀ h, h < n → ∃ b, f h = some b) :
    ∀ fuel i j, i ≤ j → j ≤ n → j - i ≤ fuel →
      ∃ r, Search.loop f fuel i j = some r ∧ i ≤ r ∧ r ≤ j := by
  intro fuel
  induction fuel with
  | zero =>
    intro i j hij hjn hfuel
    have : ¬ i < j := by omega
    exact ⟨i, by simp [Search.loop, this], Nat.le_refl _, hij⟩
  | succ fuel ih =>
    intro i j hij hjn hfuel
    by_cases hlt : i < j
    · obtain ⟨b, hb⟩ := hf ((i + j) / 2) (by omega)
      cases b with
      | false =>
        obtain ⟨r, hr, h1, h2⟩ := ih ((i + j) / 2 + 1) j (by omega) hjn (by omega)
        exact ⟨r, by simp [Search.loop, hlt, hb, hr], by omega, h2⟩
      | true =>
        obtain ⟨r, hr, h1, h2⟩ := ih i ((i + j) / 2) (by omega) (by omega) (by omega)
        exact ⟨r, by simp [Search.loop, hlt, hb, hr], h1, by omega⟩
    · exact ⟨i, by simp [Search.loop, hlt], Nat.le_refl _, hij⟩

/-- `locate` returns on every map, sorted or not, an index within the slice. -/
theorem Sets.locate_total (s : Sets V) (key : String) :
    ∃ i, s.locate key = some i ∧ i ≤ s.entries.length := by
  obtain ⟨r, hr, _, h2⟩ := Search.loop_total
    (fun i => (goIndex s.entries i).map (fun e => !strLess e.key key)) s.entries.length
    (fun h hh => ⟨!strLess s.entries[h].key key, by simp [goIndex_lt _ _ hh]⟩)
    s.entries.length 0 s.entries.length (Nat.zero_le _) (Nat.le_refl _) (by omega)
  exact ⟨r, hr, h2⟩

theorem Sets.Lookup_of_locate (ops : StringSetOps V) (s : Sets V) (k : String) (i : Nat)
    (hloc : s.locate k = some i) : ∃ r, s.Lookup ops k = some r := by
  by_cases hlt : i < s.entries.length
  · by_cases hk : s.entries[i].key = k
    · exact ⟨(s.entries[i].Value, true),
        by simp [Sets.Lookup, hloc, hlt, goIndex_lt _ _ hlt, hk]⟩
    · exact ⟨(ops.MakeStringSet, false),
        by simp [Sets.Lookup, hloc, hlt, goIndex_lt _ _ hlt, hk]⟩
  · exact ⟨(ops.MakeStringSet, false), by simp [Sets.Lookup, hloc, hlt]⟩

/-- C18: `Merge`, `Add`, `Delete` and `Lookup` are total. For every map (nil,
empty, sorted or not), every key and every value each of them returns a result:
no index or slice expression of theirs is out of range, and no loop of theirs
runs past its bound. -/
theorem operations_total (ops : StringSetOps V) (A B : Sets V) (k : String) (v : V) :
    (∃ r, A.Merge ops B = some r) ∧ (∃ r, A.Add ops k v = some r) ∧
    (∃ r, A.Delete ops k = some r) ∧ (∃ r, A.Lookup ops k = some r) := by
  obtain ⟨i, hloc, hi⟩ := A.locate_total k
  obtain ⟨m, hm, _⟩ := Sets.Merge_entries ops A B
  exact ⟨⟨m, hm⟩, ⟨_, Sets.Add_of_locate ops A k v i hloc hi⟩,
    ⟨_, Sets.Delete_of_locate ops A k i hloc hi⟩, Sets.Lookup_of_locate ops A k i hloc⟩

theorem nonDecreasing_le {s : Sets V} (h : s.NonDecreasing) :
    s.entries.Pairwise (fun a b => a.key ≤ b.key) :=
  List.Pairwise.imp (fun hab => (strLess_eq_false_iff _ _).mp hab) h

/-- C19: for every map `A` with keys in non-decreasing order and every key `k`,
`locate(A, k)` returns an index `i` with `0 <= i <= len(A)` such that every
entry before `i` has a key `< k` and every entry from `i` on has a key `>= k`:
`i` is the smallest index whose key is `>= k`, or `len(A)` if there is none. -/
theorem locate_lower_bound (A : Sets V) (k : String) (hA : A.NonDecreasing) :
    ∃ i, A.locate k = some i ∧ i ≤ A.entries.length ∧
      (∀ j e, A.entries.get? j = some e → j < i → strLess e.key k = true) ∧
      (∀ j e, A.entries.get? j = some e → i ≤ j → strLess e.key k = false) ∧
      (∀ i2, i2 ≤ A.entries.length →
        (∀ j e, A.entries.get? j = some e → i2 ≤ j → strLess e.key k = false) → i ≤ i2) := by
  obtain ⟨i, hloc, hi, hlo, hhi⟩ := A.locate_split k (nonDecreasing_le hA)
  have hbelow : ∀ j e, A.entries.get? j = some e → j < i → strLess e.key k = true := by
    intro j e hj hji
    rw [strLess_iff]
    apply hlo
    rw [List.get?_eq_getElem?] at hj
    have hjl : j < A.entries.length := (List.getElem?_eq_some_iff.mp hj).1
    have he : A.entries[j] = e := (List.getElem?_eq_some_iff.mp hj).2
    rw [← he]
    exact List.mem_iff_getElem.mpr ⟨j, by simp; omega, by simp⟩
  refine ⟨i, hloc, hi, hbelow, ?_, ?_⟩
  · intro j e hj hij
    rw [strLess_eq_false_iff]
    apply hhi
    rw [List.get?_eq_getElem?] at hj
    have hjl : j < A.entries.length := (List.getElem?_eq_some_iff.mp hj).1
    have he : A.entries[j] = e := (List.getElem?_eq_some_iff.mp hj).2
    rw [← he]
    exact List.mem_iff_getElem.mpr ⟨j - i, by simp; omega, by simp [Nat.add_sub_cancel' hij]⟩
  · intro i2 hi2 hall
    by_contra hlt
    have hi2i : i2 < i := by omega
    have hi2l : i2 < A.entries.length := by omega
    have hget : A.entries.get? i2 = some A.entries[i2] := by
      rw [List.get?_eq_getElem?, List.getElem?_eq_getElem hi2l]
    have h1 := hbelow i2 _ hget hi2i
    have h2 := hall i2 _ hget (Nat.le_refl _)
    rw [h1] at h2
    exact Bool.noConfusion h2

/-- C19 at `A = {a: {1}, b: {2}, b: {3}, c: {4}}`, where the key `b` is there
twice, and `k = b`. -/
theorem locate_lower_bound_witness :
    mapRepeated.NonDecreasing ∧
    ∃ i, mapRepeated.locate "b" = some i ∧ i ≤ mapRepeated.entries.length ∧
      (∀ j e, mapRepeated.entries.get? j = some e → j < i → strLess e.key "b" = true) ∧
      (∀ j e, mapRepeated.entries.get? j = some e → i ≤ j → strLess e.key "b" = false) ∧
      (∀ i2, i2 ≤ mapRepeated.entries.length →
        (∀ j e, mapRepeated.entries.get? j = some e → i2 ≤ j → strLess e.key "b" = false) →
        i ≤ i2) :=
  ⟨by decide, locate_lower_bound mapRepeated "b" (by decide)⟩

/-- C15: for every map `A` with strictly increasing keys and every key `k`,
`Lookup(A, k)` returns a result; it is `(v, true)` if and only if `(k, v)` is an
entry of `A`, and it is `(MakeStringSet(), false)` when no entry of `A` has the
key `k`. -/
theorem Lookup_iff_entry (ops : StringSetOps V) (A : Sets V) (k : String)
    (hA : A.StrictlyIncreasing) :
    ∃ r, A.Lookup ops k = some r ∧
      (∀ v, r = (v, true) ↔ (⟨k, v⟩ : stringSetEntry V) ∈ A.entries) ∧
      ((∀ e ∈ A.entries, e.key ≠ k) → r = (ops.MakeStringSet, false)) := by
  refine ⟨_, Sets.Lookup_eq ops A k (strictKeys_le hA), ?_, ?_⟩
  · intro v
    constructor
    · intro h
      cases hl : lookupL A.entries k with
      | none => rw [hl] at h; simp [lookupResult] at h
      | some w =>
        rw [hl] at h
        simp only [lookupResult, Prod.mk.injEq, and_true] at h
        exact mem_of_lookupL (h ▸ hl)
    · intro h
      rw [lookupL_of_mem hA h]
      rfl
  · intro h
    rw [lookupL_eq_none h]
    rfl

/-- C15 at `A = {a: {1}, b: {2}}` and `k = b`. -/
theorem Lookup_iff_entry_witness :
    mapAB.StrictlyIncreasing ∧
    ∃ r, mapAB.Lookup unionOps "b" = some r ∧
      (∀ v, r = (v, true) ↔ (⟨"b", v⟩ : stringSetEntry (Finset String)) ∈ mapAB.entries) ∧
      ((∀ e ∈ mapAB.entries, e.key ≠ "b") → r = (unionOps.MakeStringSet, false)) :=
  ⟨by decide, Lookup_iff_entry unionOps mapAB "b" (by decide)⟩

/-- C16: `Add` preserves the ordering invariant. For every map `A` with strictly
increasing keys, every key `k` and every value `v`, `Add(A, k, v)` returns a map
whose keys are strictly increasing; its size is `Size(A)` when `k` was in `A`
and `Size(A) + 1` when it was not. -/
theorem Add_keeps_order_and_size (ops : StringSetOps V) (A : Sets V) (k : String) (v : V)
    (hA : A.StrictlyIncreasing) :
    ∃ r, A.Add ops k v = some r ∧ r.StrictlyIncreasing ∧
      ((∃ e ∈ A.entries, e.key = k) → r.Size = A.Size) ∧
      ((∀ e ∈ A.entries, e.key ≠ k) → r.Size = A.Size + 1) := by
  by_cases hin : ∃ e ∈ A.entries, e.key = k
  · obtain ⟨e, he, hek⟩ := hin
    have hmem : (⟨k, e.Value⟩ : stringSetEntry V) ∈ A.entries := by
      cases e; simp only at hek; subst hek; exact he
    obtain ⟨pre, suf, hsplit, hsorted, hadd⟩ := Sets.Add_present ops A k v e.Value hA hmem
    refine ⟨_, hadd, hsorted, ?_, ?_⟩
    · intro _
      show (pre ++ ⟨k, ops.Merge v e.Value⟩ :: suf).length = A.entries.length
      rw [hsplit]
      simp
    · intro habs
      exact absurd hek (habs e he)
  · have habs : ∀ e ∈ A.entries, e.key ≠ k := fun e he hk => hin ⟨e, he, hk⟩
    obtain ⟨pre, suf, hsplit, hsorted, hadd⟩ := Sets.Add_absent ops A k v hA habs
    refine ⟨_, hadd, hsorted, ?_, ?_⟩
    · intro h
      exact absurd h hin
    · intro _
      show (pre ++ ⟨k, v⟩ :: suf).length = A.entries.length + 1
      rw [hsplit]
      simp
      omega

/-- C16 at `A = {a: {1}, b: {2}}`, `k = ab` and `v = {3}`. -/
theorem Add_keeps_order_and_size_witness :
    mapAB.StrictlyIncreasing ∧
    ∃ r, mapAB.Add unionOps "ab" {"3"} = some r ∧ r.StrictlyIncreasing ∧
      ((∃ e ∈ mapAB.entries, e.key = "ab") → r.Size = mapAB.Size) ∧
      ((∀ e ∈ mapAB.entries, e.key ≠ "ab") → r.Size = mapAB.Size + 1) :=
  ⟨by decide, Add_keeps_order_and_size unionOps mapAB "ab" {"3"} (by decide)⟩

theorem lookupL_append_cons_ne (pre suf : List (stringSetEntry V)) (e : stringSetEntry V)
    (k : String) (h : e.key ≠ k) : lookupL (pre ++ e :: suf) k = lookupL (pre ++ suf) k := by
  induction pre with
  | nil => simp only [List.nil_append]; rw [lookupL_cons, if_neg h]
  | cons x xs ih => simp only [List.cons_append]; rw [lookupL_cons, lookupL_cons, ih]

/-- C20: `Add` changes only the entry for the added key. For every map `A` with
strictly increasing keys, every key `k`, every value `v` and every key `k2`
different from `k`, `Add(A, k, v)` returns a map on which `Lookup` of `k2`
returns what `Lookup(A, k2)` returns. -/
theorem Add_keeps_other_keys (ops : StringSetOps V) (A : Sets V) (k : String) (v : V)
    (k2 : String) (hA : A.StrictlyIncreasing) (hne : k2 ≠ k) :
    ∃ r, A.Add ops k v = some r ∧ ∃ x, A.Lookup ops k2 = some x ∧ r.Lookup ops k2 = some x := by
  have hold := Sets.Lookup_eq ops A k2 (strictKeys_le hA)
  by_cases hin : ∃ e ∈ A.entries, e.key = k
  · obtain ⟨e, he, hek⟩ := hin
    have hmem : (⟨k, e.Value⟩ : stringSetEntry V) ∈ A.entries := by
      cases e; simp only at hek; subst hek; exact he
    obtain ⟨pre, suf, hsplit, hsorted, hadd⟩ := Sets.Add_present ops A k v e.Value hA hmem
    refine ⟨_, hadd, _, hold, ?_⟩
    rw [Sets.Lookup_eq ops (Sets.slice (pre ++ ⟨k, ops.Merge v e.Value⟩ :: suf)) k2
      (strictKeys_le hsorted), hsplit]
    simp only [Sets.entries]
    rw [lookupL_append_cons_ne pre suf _ k2 (Ne.symm hne),
      lookupL_append_cons_ne pre suf _ k2 (Ne.symm hne)]
  · have habs : ∀ e ∈ A.entries, e.key ≠ k := fun e he hk => hin ⟨e, he, hk⟩
    obtain ⟨pre, suf, hsplit, hsorted, hadd⟩ := Sets.Add_absent ops A k v hA habs
    refine ⟨_, hadd, _, hold, ?_⟩
    rw [Sets.Lookup_eq ops (Sets.slice (pre ++ ⟨k, v⟩ :: suf)) k2 (strictKeys_le hsorted), hsplit]
    simp only [Sets.entries]
    rw [lookupL_append_cons_ne pre suf _ k2 (Ne.symm hne)]

/-- C20 at `A = {a: {1}, b: {2}}`, `k = a`, `v = {3}` and `k2 = b`. -/
theorem Add_keeps_other_keys_witness :
    mapAB.StrictlyIncreasing ∧ "b" ≠ "a" ∧
    ∃ r, mapAB.Add unionOps "a" {"3"} = some r ∧
      ∃ x, mapAB.Lookup unionOps "b" = some x ∧ r.Lookup unionOps "b" = some x :=
  ⟨by decide, by decide, Add_keeps_other_keys unionOps mapAB "a" {"3"} "b" (by decide) (by decide)⟩

/-! ## One pass of the decode loop -/

theorem lookupL_append_cons_self {pre suf : List (stringSetEntry V)} {k : String} {v : V}
    (h : StrictKeys (pre ++ ⟨k, v⟩ :: suf)) : lookupL (pre ++ ⟨k, v⟩ :: suf) k = some v :=
  lookupL_of_mem h (List.mem_append_right _ (List.mem_cons_self _ _))

/-- An update or insertion at the index `locate` returned keeps the keys
strictly increasing and changes the value under the key only. -/
theorem upsertL_sorted (l : List (stringSetEntry V)) (i : Nat) (k : String) (g : Option V → V)
    (hl : StrictKeys l) (hlo : ∀ e ∈ l.take i, e.key < k) (hhi : ∀ e ∈ l.drop i, k ≤ e.key) :
    StrictKeys (upsertL l i k g) ∧
      (∀ k2, lookupL (upsertL l i k g) k2 =
        if k2 = k then some (g (lookupL l k)) else lookupL l k2) := by
  have hsplit : l = l.take i ++ l.drop i := (List.take_append_drop i l).symm
  have hpre : ∀ e ∈ l.take i, e.key ≠ k := fun e he => ne_of_lt (hlo e he)
  cases hd : l.drop i with
  | nil =>
    have hl2 : l = l.take i ++ [] := by rw [← hd]; exact hsplit
    have hsorted : StrictKeys (l.take i ++ ⟨k, g none⟩ :: []) :=
      strictKeys_insert (by rw [← hl2]; exact hl) k (g none) hlo (by simp)
    have hnone : lookupL l k = none := by
      rw [hl2, List.append_nil]; exact lookupL_eq_none hpre
    have hup : upsertL l i k g = l.take i ++ ⟨k, g none⟩ :: [] := by simp [upsertL, hd]
    rw [hup]
    refine ⟨hsorted, fun k2 => ?_⟩
    by_cases hk : k2 = k
    · rw [if_pos hk, hk, lookupL_append_cons_self hsorted, hnone]
    · rw [if_neg hk, lookupL_append_cons_ne _ _ _ _ (Ne.symm hk)]
      conv_rhs => rw [hl2]
  | cons e rest =>
    have hl2 : l = l.take i ++ e :: rest := by rw [← hd]; exact hsplit
    have hsd : StrictKeys (e :: rest) := by
      rw [← hd]; exact List.Pairwise.sublist (List.drop_sublist i _) hl
    have hke : k ≤ e.key := hhi e (by rw [hd]; exact List.mem_cons_self _ _)
    by_cases hek : e.key = k
    · have hup : upsertL l i k g = l.take i ++ ⟨k, g (some e.Value)⟩ :: rest := by
        simp [upsertL, hd, hek]
      have he : e = ⟨k, e.Value⟩ := by cases e; simp only at hek; subst hek; rfl
      have hsorted0 : StrictKeys (l.take i ++ ⟨k, e.Value⟩ :: rest) := by
        rw [← he, ← hl2]; exact hl
      have hsorted : StrictKeys (l.take i ++ ⟨k, g (some e.Value)⟩ :: rest) :=
        strictKeys_replace hsorted0 (g (some e.Value))
      have hsome : lookupL l k = some e.Value := by
        conv_lhs => rw [hl2, he]
        exact lookupL_append_cons_self hsorted0
      rw [hup]
      refine ⟨hsorted, fun k2 => ?_⟩
      by_cases hk : k2 = k
      · rw [if_pos hk, hk, lookupL_append_cons_self hsorted, hsome]
      · rw [if_neg hk, lookupL_append_cons_ne _ _ _ _ (Ne.symm hk)]
        conv_rhs => rw [hl2, he, lookupL_append_cons_ne _ _ _ _ (Ne.symm hk)]
    · have hup : upsertL l i k g = l.take i ++ ⟨k, g none⟩ :: e :: rest := by
        simp [upsertL, hd, hek]
      have hlt : k < e.key := lt_of_le_of_ne hke (Ne.symm hek)
      have hsuf : ∀ x ∈ e :: rest, k < x.key := by
        intro x hx
        rcases List.mem_cons.mp hx with rfl | hmem
        · exact hlt
        · exact lt_trans hlt (strictKeys_head_lt hsd x hmem)
      have hsorted : StrictKeys (l.take i ++ ⟨k, g none⟩ :: e :: rest) :=
        strictKeys_insert (by rw [← hl2]; exact hl) k (g none) hlo hsuf
      have hnone : lookupL l k = none := by
        rw [hl2]
        apply lookupL_eq_none
        intro x hx
        rcases List.mem_append.mp hx with h | h
        · exact hpre x h
        · exact ne_of_gt (hsuf x h)
      rw [hup]
      refine ⟨hsorted, fun k2 => ?_⟩
      by_cases hk : k2 = k
      · rw [if_pos hk, hk, lookupL_append_cons_self hsorted, hnone]
      · rw [if_neg hk, lookupL_append_cons_ne _ _ _ _ (Ne.symm hk)]
        conv_rhs => rw [hl2]

theorem upsertL_ne_nil (l : List (stringSetEntry V)) (i : Nat) (k : String) (g : Option V → V) :
    upsertL l i k g ≠ [] := by
  unfold upsertL
  cases l.drop i with
  | nil => simp
  | cons e rest => by_cases h : e.key = k <;> simp [h]

/-- The statements that make room for a fresh entry at `j`: after `append`,
`(*m)[j:]` is the entries from `j` on and the zero entry. -/
theorem decode_room_source {α : Type} (l : List α) (z : α) (j : Nat) (hj : j ≤ l.length) :
    goSliceFrom (l ++ [z]) j = some (l.drop j ++ [z]) := by
  simp [goSliceFrom, List.drop_append_of_le_length hj]
  omega

/-- `copy((*m)[j+1:], (*m)[j:])` moves the entries from `j` on up by one. -/
theorem decode_room_copy {α : Type} (l : List α) (z : α) (j : Nat) (hj : j ≤ l.length) :
    goCopyInto (l ++ [z]) (j + 1) (l.drop j ++ [z]) =
      some ((l ++ [z]).take (j + 1) ++ l.drop j) := by
  have h2 : goCopy ((l ++ [z]).drop (j + 1)) (l.drop j ++ [z]) = l.drop j := by
    have hd : ((l ++ [z]).drop (j + 1)).length = (l.drop j).length := by
      simp only [List.length_drop, List.length_append, List.length_singleton]; omega
    have hs : ((l ++ [z]).drop (j + 1)).length ≤ (l.drop j ++ [z]).length := by
      simp only [List.length_drop, List.length_append, List.length_singleton]; omega
    unfold goCopy
    rw [List.drop_eq_nil_of_le hs, hd, List.take_left' rfl, List.append_nil]
  simp only [goCopyInto, h2, List.length_append, List.length_singleton]
  rw [if_pos (by omega)]

/-- `(*m)[j] = stringSetEntry{}` leaves the entries before `j`, a zero entry,
and the entries from `j` on. -/
theorem decode_room_store {α : Type} (l : List α) (z y : α) (j : Nat) (hj : j ≤ l.length) :
    goStore ((l ++ [z]).take (j + 1) ++ l.drop j) j y = some (l.take j ++ y :: l.drop j) := by
  have hlen : ((l ++ [z]).take (j + 1)).length = j + 1 := by
    simp only [List.length_take, List.length_append, List.length_singleton]; omega
  have hlt : j < ((l ++ [z]).take (j + 1) ++ l.drop j).length := by
    rw [List.length_append, hlen]; omega
  simp only [goStore, hlt, if_true]
  rw [List.set_eq_take_append_cons_drop, if_pos hlt,
    List.take_append_of_le_length (by omega), List.take_take,
    List.drop_left' hlen, Nat.min_eq_left (by omega),
    List.take_append_of_le_length hj]

/-- The search for the entry of a key in the decode loop returns once `locate`
has returned an index `i` within the slice: the entries before `i`, an entry
with the key and the old value (the zero value when the key is new), and the
entries after it. -/
theorem Sets.CodecDecodeSelf.slot_of_locate (ops : StringSetOps V) (m : Sets V) (k : String)
    (i : Nat) (hloc : m.locate k = some i) (hi : i ≤ m.entries.length) (g : Option V → V) :
    ∃ old suf,
      upsertL m.entries i k g = m.entries.take i ++ ⟨k, g old⟩ :: suf ∧
      Sets.CodecDecodeSelf.slot ops m k =
        some (m.entries.take i ++ ⟨k, old.getD ops.zero⟩ :: suf, i) := by
  have hlen : (m.entries.take i).length = i := by simp [hi]
  have h1 := decode_room_source m.entries (zeroEntry ops) i hi
  have h2 := decode_room_copy m.entries (zeroEntry ops) i hi
  have h3 := decode_room_store m.entries (zeroEntry ops) (zeroEntry ops) i hi
  have h4 : goIndex (m.entries.take i ++ zeroEntry ops :: m.entries.drop i) i =
      some (zeroEntry ops) := by
    simp [goIndex, List.getElem?_append_right (Nat.le_of_eq hlen), hlen]
  have h5 : goStore (m.entries.take i ++ zeroEntry ops :: m.entries.drop i) i
      ⟨k, (zeroEntry ops).Value⟩ = some (m.entries.take i ++ ⟨k, ops.zero⟩ :: m.entries.drop i) :=
    goStore_mid _ _ _ _ i hlen
  by_cases hlt : i < m.entries.length
  · have hdrop : m.entries.drop i = m.entries[i] :: m.entries.drop (i + 1) :=
      List.drop_eq_getElem_cons hlt
    have hidx : goIndex m.entries i = some m.entries[i] := goIndex_lt _ _ hlt
    by_cases hk : m.entries[i].key = k
    · refine ⟨some m.entries[i].Value, m.entries.drop (i + 1), ?_, ?_⟩
      · simp only [upsertL, hdrop, if_pos hk]
      · have hst : goStore m.entries i ⟨k, m.entries[i].Value⟩ =
            some (m.entries.take i ++ ⟨k, m.entries[i].Value⟩ :: m.entries.drop (i + 1)) := by
          simp [goStore, hlt, List.set_eq_take_append_cons_drop]
        simp only [Sets.CodecDecodeSelf.slot, hloc, Option.pure_def, Option.bind_eq_bind,
          Option.some_bind, if_neg (Nat.ne_of_lt hlt), hidx, ne_eq, hk, not_true_eq_false,
          decide_False, Bool.false_eq_true, if_false, hst, Option.getD_some]
    · refine ⟨none, m.entries.drop i, ?_, ?_⟩
      · simp only [upsertL, hdrop, if_neg hk]
      · simp only [Sets.CodecDecodeSelf.slot, hloc, Option.pure_def, Option.bind_eq_bind,
          Option.some_bind, if_neg (Nat.ne_of_lt hlt), hidx, ne_eq, hk, not_false_eq_true,
          decide_True, if_true, h1, h2, h3, h4, h5, Option.getD_none]
  · have hil : i = m.entries.length := by omega
    have hnil : m.entries.drop i = [] := List.drop_eq_nil_of_le (by omega)
    refine ⟨none, m.entries.drop i, ?_, ?_⟩
    · simp only [upsertL, hnil]
    · simp only [Sets.CodecDecodeSelf.slot, hloc, Option.pure_def, Option.bind_eq_bind,
        Option.some_bind, if_pos hil, if_true, h1, h2, h3, h4, h5, Option.getD_none]

theorem decodedValue_eq (ops : StringSetOps V) (codec : StringSetCodec V W) (p : Option W)
    (old : Option V) : decodedValue ops codec p old = applyPayload codec (old.getD ops.zero) p := by
  cases old <;> rfl

/-- One pass of the decode loop on the tokens of a pair returns once `locate`
has returned an index within the slice, and returns the entries `upsertL`
describes. -/
theorem Sets.CodecDecodeSelf.step_of_locate (ops : StringSetOps V) (codec : StringSetCodec V W)
    (m : Sets V) (k : String) (p : Option W) (rest : List (Token W)) (i : Nat)
    (hloc : m.locate k = some i) (hi : i ≤ m.entries.length) :
    Sets.CodecDecodeSelf.step ops codec m (encodePair (k, p) ++ rest) =
      some (Sets.slice (upsertL m.entries i k (decodedValue ops codec p)), rest) := by
  have hlen : (m.entries.take i).length = i := by simp [hi]
  obtain ⟨old, suf, hup, hslot⟩ :=
    Sets.CodecDecodeSelf.slot_of_locate ops m k i hloc hi (decodedValue ops codec p)
  rw [hup, decodedValue_eq]
  have h3 : goIndex (m.entries.take i ++ ⟨k, old.getD ops.zero⟩ :: suf) i =
      some ⟨k, old.getD ops.zero⟩ := by
    simp [goIndex, List.getElem?_append_right (Nat.le_of_eq hlen), hlen]
  cases p with
  | none =>
    simp only [Sets.CodecDecodeSelf.step, encodePair, List.cons_append, List.nil_append,
      DecSendContainerState, TryDecodeAsNil, DecodeString, if_true, Bool.not_false,
      Option.pure_def, Option.bind_eq_bind, Option.some_bind, hslot, Bool.not_true,
      Bool.false_eq_true, if_false, applyPayload]
  | some w =>
    have h4 : goStore (m.entries.take i ++ ⟨k, old.getD ops.zero⟩ :: suf) i
        ⟨k, codec.CodecDecodeSelf (old.getD ops.zero) w⟩ =
        some (m.entries.take i ++ ⟨k, codec.CodecDecodeSelf (old.getD ops.zero) w⟩ :: suf) :=
      goStore_mid _ _ _ _ i hlen
    simp only [Sets.CodecDecodeSelf.step, encodePair, List.cons_append, List.nil_append,
      DecSendContainerState, TryDecodeAsNil, DecodeString, if_true, Bool.not_false,
      Option.pure_def, Option.bind_eq_bind, Option.some_bind, hslot, h3, h4, decodeValue,
      applyPayload]

/-! ## Decoding a stream of pairs -/

theorem encodePairs_length (pairs : List (String × Option W)) :
    (encodePairs pairs).length = 4 * pairs.length := by
  induction pairs with
  | nil => rfl
  | cons p ps ih => simp [encodePairs, encodePair, ih]; omega

/-- One pass of the decode loop on a map with strictly increasing keys keeps
the keys strictly increasing, and changes the value under the key of the pair
only. -/
theorem Sets.CodecDecodeSelf.step_sorted (ops : StringSetOps V) (codec : StringSetCodec V W)
    (m : Sets V) (p : String × Option W) (rest : List (Token W)) (hm : StrictKeys m.entries) :
    ∃ l2, Sets.CodecDecodeSelf.step ops codec m (encodePair p ++ rest) =
        some (Sets.slice l2, rest) ∧ StrictKeys l2 ∧ l2 ≠ [] ∧
      ∀ k, lookupL l2 k =
        if p.1 = k then some (decodedValue ops codec p.2 (lookupL m.entries k))
        else lookupL m.entries k := by
  obtain ⟨i, hloc, hi, hlo, hhi⟩ := m.locate_split p.1 (strictKeys_le hm)
  obtain ⟨hs, hlook⟩ := upsertL_sorted m.entries i p.1 (decodedValue ops codec p.2) hm hlo hhi
  refine ⟨_, Sets.CodecDecodeSelf.step_of_locate ops codec m p.1 p.2 rest i hloc hi, hs,
    upsertL_ne_nil _ _ _ _, ?_⟩
  intro k
  rw [hlook k]
  by_cases hk : p.1 = k
  · rw [if_pos hk.symm, if_pos hk, hk]
  · rw [if_neg (Ne.symm hk), if_neg hk]

/-- The decode loop on the pairs of a stream whose map-start gave their number:
it returns after the last pair, with strictly increasing keys and under every
key the value `valueAfter` describes. -/
theorem Sets.CodecDecodeSelf.loop_known (ops : StringSetOps V) (codec : StringSetCodec V W)
    (length : Int) (hlength : 0 ≤ length) :
    ∀ (pairs : List (String × Option W)) (fuel : Nat) (i : Int) (m : Sets V)
      (rest : List (Token W)), StrictKeys m.entries → pairs.length ≤ fuel →
      i + (pairs.length : Int) = length →
      ∃ m2, Sets.CodecDecodeSelf.loop ops codec length fuel i m (encodePairs pairs ++ rest) =
          some (m2, rest) ∧ StrictKeys m2.entries ∧
        (∀ k, lookupL m2.entries k = valueAfter ops codec k pairs (lookupL m.entries k)) ∧
        (pairs = [] → m2 = m) ∧ (pairs ≠ [] → m2 ≠ Sets.nil) := by
  intro pairs
  have hneg : ¬ length < 0 := by omega
  induction pairs with
  | nil =>
    intro fuel i m rest hm _ hi
    have hcond : ¬ (length < 0 ∨ i < length) := by
      simp only [List.length_nil, Int.Nat.cast_ofNat_Int, add_zero] at hi
      omega
    refine ⟨m, ?_, hm, fun k => rfl, fun _ => rfl, fun h => absurd rfl h⟩
    cases fuel <;> simp [Sets.CodecDecodeSelf.loop, hcond, encodePairs]
  | cons p ps ih =>
    intro fuel i m rest hm hfuel hi
    cases fuel with
    | zero => simp at hfuel
    | succ fuel =>
      have hcond : length < 0 ∨ i < length := by
        simp only [List.length_cons, Nat.cast_add, Nat.cast_one] at hi
        omega
      obtain ⟨l2, hstep, hs2, hne2, hlook2⟩ :=
        Sets.CodecDecodeSelf.step_sorted ops codec m p (encodePairs ps ++ rest) hm
      obtain ⟨m2, hloop, hs, hlook, hnil2, hcons2⟩ := ih fuel (i + 1) (Sets.slice l2) rest hs2
        (by simp only [List.length_cons] at hfuel; omega)
        (by simp only [List.length_cons, Nat.cast_add, Nat.cast_one] at hi; omega)
      refine ⟨m2, ?_, hs, ?_, fun h => by simp at h, ?_⟩
      · simp only [encodePairs, List.append_assoc]
        simp only [Sets.CodecDecodeSelf.loop, if_pos hcond, if_neg hneg, Bool.false_eq_true,
          if_false, hstep, Option.bind_eq_bind, Option.some_bind, hloop]
      · intro k
        rw [hlook k]
        show valueAfter ops codec k ps (lookupL l2 k) =
          valueAfter ops codec k (p :: ps) (lookupL m.entries k)
        rw [hlook2 k]
        rfl
      · intro _ hnil
        by_cases hps : ps = []
        · rw [hnil2 hps] at hnil
          exact Sets.noConfusion hnil
        · exact hcons2 hps hnil

/-- The decode loop on the pairs of a stream of unknown length, which a break
ends: it returns after the break, with strictly increasing keys and under every
key the value `valueAfter` describes. -/
theorem Sets.CodecDecodeSelf.loop_unknown (ops : StringSetOps V) (codec : StringSetCodec V W)
    (length : Int) (hlength : length < 0) :
    ∀ (pairs : List (String × Option W)) (fuel : Nat) (i : Int) (m : Sets V)
      (rest : List (Token W)), StrictKeys m.entries → pairs.length ≤ fuel →
      ∃ m2, Sets.CodecDecodeSelf.loop ops codec length fuel i m
          (encodePairs pairs ++ Token.breakMark :: rest) = some (m2, rest) ∧
        StrictKeys m2.entries ∧
        (∀ k, lookupL m2.entries k = valueAfter ops codec k pairs (lookupL m.entries k)) ∧
        (pairs = [] → m2 = m) ∧ (pairs ≠ [] → m2 ≠ Sets.nil) := by
  intro pairs
  have hcond : ∀ i : Int, length < 0 ∨ i < length := fun _ => Or.inl hlength
  induction pairs with
  | nil =>
    intro fuel i m rest hm _
    refine ⟨m, ?_, hm, fun k => rfl, fun _ => rfl, fun h => absurd rfl h⟩
    cases fuel <;> simp [Sets.CodecDecodeSelf.loop, hlength, encodePairs, CheckBreak]
  | cons p ps ih =>
    intro fuel i m rest hm hfuel
    cases fuel with
    | zero => simp at hfuel
    | succ fuel =>
      obtain ⟨l2, hstep, hs2, hne2, hlook2⟩ := Sets.CodecDecodeSelf.step_sorted ops codec m p
        (encodePairs ps ++ Token.breakMark :: rest) hm
      obtain ⟨m2, hloop, hs, hlook, hnil2, hcons2⟩ := ih fuel (i + 1) (Sets.slice l2) rest hs2
        (by simp only [List.length_cons] at hfuel; omega)
      refine ⟨m2, ?_, hs, ?_, fun h => by simp at h, ?_⟩
      · have hbrk : CheckBreak (encodePair p ++ (encodePairs ps ++ Token.breakMark :: rest)) =
            (false, encodePair p ++ (encodePairs ps ++ Token.breakMark :: rest)) := by
          simp [encodePair, CheckBreak]
        simp only [encodePairs, List.append_assoc]
        simp only [Sets.CodecDecodeSelf.loop, if_pos (hcond i), if_pos hlength, hbrk,
          Bool.false_eq_true, if_false, hstep, Option.bind_eq_bind, Option.some_bind, hloop]
      · intro k
        rw [hlook k]
        show valueAfter ops codec k ps (lookupL l2 k) =
          valueAfter ops codec k (p :: ps) (lookupL m.entries k)
        rw [hlook2 k]
        rfl
      · intro _ hnil
        by_cases hps : ps = []
        · rw [hnil2 hps] at hnil
          exact Sets.noConfusion hnil
        · exact hcons2 hps hnil

/-- Decoding an encoded stream of pairs returns, with nothing of the stream
left: a map with strictly increasing keys that holds under every key the value
`valueAfter` describes, and that is nil exactly when the stream has no pair. -/
theorem Sets.CodecDecodeSelf_stream (ops : StringSetOps V) (codec : StringSetCodec V W)
    (lengthKnown : Bool) (pairs : List (String × Option W)) :
    ∃ m, Sets.CodecDecodeSelf ops codec (encodeStream lengthKnown pairs) = some (m, []) ∧
      StrictKeys m.entries ∧
      (∀ k, lookupL m.entries k = valueAfter ops codec k pairs none) ∧
      (pairs = [] → m = Sets.nil) ∧ (pairs ≠ [] → m ≠ Sets.nil) := by
  cases lengthKnown with
  | true =>
    have hfuel : pairs.length ≤
        (encodePairs pairs ++ [Token.state containerState.containerMapEnd]).length := by
      rw [List.length_append, encodePairs_length]; omega
    obtain ⟨m2, hloop, hs, hlook, hnil, hcons⟩ :=
      Sets.CodecDecodeSelf.loop_known ops codec (pairs.length : Int) (by omega) pairs _ 0
        (if (pairs.length : Int) > 0 then Sets.slice [] else Sets.nil)
        [Token.state containerState.containerMapEnd]
        (by split <;> exact List.Pairwise.nil) hfuel (by omega)
    refine ⟨m2, ?_, hs, ?_, ?_, hcons⟩
    · simp only [Sets.CodecDecodeSelf, encodeStream, TryDecodeAsNil, ReadMapStart,
        Option.bind_eq_bind, Option.some_bind, Option.pure_def, Bool.false_eq_true,
        ↓reduceIte, hloop, DecSendContainerState]
    · intro k
      rw [hlook k]
      split <;> rfl
    · intro h
      rw [hnil h, h]
      rfl
  | false =>
    have hfuel : pairs.length ≤ (encodePairs pairs ++
        [Token.breakMark, Token.state containerState.containerMapEnd]).length := by
      rw [List.length_append, encodePairs_length]; omega
    obtain ⟨m2, hloop, hs, hlook, hnil, hcons⟩ :=
      Sets.CodecDecodeSelf.loop_unknown ops codec (-1) (by omega) pairs _ 0 (Sets.nil : Sets V)
        [Token.state containerState.containerMapEnd] List.Pairwise.nil hfuel
    refine ⟨m2, ?_, hs, hlook, hnil, hcons⟩
    have hlt : ¬ ((-1 : Int) > 0) := by omega
    simp only [Sets.CodecDecodeSelf, encodeStream, TryDecodeAsNil, ReadMapStart,
      Option.bind_eq_bind, Option.some_bind, Option.pure_def, Bool.false_eq_true,
      ↓reduceIte, if_neg hlt, hloop, DecSendContainerState]

/-! ## The encoder, and the value a decoded map holds under a key -/

theorem Sets.CodecEncodeSelf.foldl_eq (codec : StringSetCodec V W) :
    ∀ (es : List (stringSetEntry V)) (out : List (Token W)),
      es.foldl (fun out val =>
        out ++ [Token.state containerState.containerMapKey] ++ [Token.string val.key] ++
          [Token.state containerState.containerMapValue] ++ encodeValue codec val.Value) out =
      out ++ encodePairs (es.map (wirePair codec)) := by
  intro es
  induction es with
  | nil => intro out; simp [encodePairs]
  | cons e es ih =>
    intro out
    rw [List.foldl_cons, ih]
    cases h : codec.CodecEncodeSelf e.Value <;>
      simp [encodePairs, encodePair, wirePair, encodeValue, h]

/-- What `CodecEncodeSelf` writes for a non-nil map is the encoded stream of the
pairs of its entries, with their number in the map-start. -/
theorem Sets.CodecEncodeSelf_slice (codec : StringSetCodec V W) (es : List (stringSetEntry V)) :
    (Sets.slice es).CodecEncodeSelf codec = encodeStream true (es.map (wirePair codec)) := by
  show (es.foldl _ [Token.mapStart (es.length : Int)]) ++
    [Token.state containerState.containerMapEnd] = _
  rw [Sets.CodecEncodeSelf.foldl_eq]
  simp [encodeStream]

theorem valueAfter_absent (ops : StringSetOps V) (codec : StringSetCodec V W) (k : String) :
    ∀ (pairs : List (String × Option W)) (acc : Option V), (∀ p ∈ pairs, p.1 ≠ k) →
      valueAfter ops codec k pairs acc = acc := by
  intro pairs
  induction pairs with
  | nil => intro acc _; rfl
  | cons p ps ih =>
    intro acc h
    rw [valueAfter, if_neg (h p (List.mem_cons_self _ _))]
    exact ih acc (fun q hq => h q (List.mem_cons_of_mem _ hq))

/-- Decoding what was encoded for entries with strictly increasing keys gives
under every key the value the entries hold under it, when decoding into a zero
value what encode wrote for a value gives that value. -/
theorem valueAfter_encoded (ops : StringSetOps V) (codec : StringSetCodec V W)
    (hround : ∀ v, applyPayload codec ops.zero (codec.CodecEncodeSelf v) = v) (k : String) :
    ∀ (es : List (stringSetEntry V)), StrictKeys es →
      valueAfter ops codec k (es.map (wirePair codec)) none = lookupL es k := by
  intro es
  induction es with
  | nil => intro _; rfl
  | cons e es ih =>
    intro hs
    rw [List.map_cons, valueAfter, lookupL_cons]
    by_cases hk : e.key = k
    · have h1 : (wirePair codec e).1 = k := hk
      rw [if_pos h1, if_pos hk]
      rw [valueAfter_absent ops codec k _ _ (by
        intro p hp
        obtain ⟨x, hx, rfl⟩ := List.mem_map.mp hp
        intro h
        have hxk : x.key = k := h
        have hlt := strictKeys_head_lt hs x hx
        rw [hk, hxk] at hlt
        exact lt_irrefl _ hlt)]
      show some (applyPayload codec ops.zero (codec.CodecEncodeSelf e.Value)) = some e.Value
      rw [hround]
    · have h1 : ¬ (wirePair codec e).1 = k := hk
      rw [if_neg h1, if_neg hk]
      exact ih (strictKeys_tail hs)

theorem payloadsOf_cons (k : String) (p : String × Option W) (ps : List (String × Option W)) :
    payloadsOf k (p :: ps) = if p.1 = k then p.2 :: payloadsOf k ps else payloadsOf k ps := by
  by_cases h : p.1 = k <;> simp [payloadsOf, List.filter_cons, h]

theorem payloadsOf_eq_nil_iff (k : String) (pairs : List (String × Option W)) :
    payloadsOf k pairs = [] ↔ k ∉ pairs.map Prod.fst := by
  induction pairs with
  | nil => simp [payloadsOf]
  | cons p ps ih =>
    rw [payloadsOf_cons]
    by_cases h : p.1 = k
    · simp [h]
    · rw [if_neg h, ih]
      simp [h, Ne.symm h]

/-- The value under `k` after decoding the pairs: the value before when no pair
has the key, and otherwise the values of the pairs with the key decoded one
after the other into the value before (the zero value if there was none). -/
theorem valueAfter_eq (ops : StringSetOps V) (codec : StringSetCodec V W) (k : String) :
    ∀ (pairs : List (String × Option W)) (acc : Option V),
      (payloadsOf k pairs = [] → valueAfter ops codec k pairs acc = acc) ∧
      (payloadsOf k pairs ≠ [] → valueAfter ops codec k pairs acc =
        some ((payloadsOf k pairs).foldl (applyPayload codec) (acc.getD ops.zero))) := by
  intro pairs
  induction pairs with
  | nil => intro acc; exact ⟨fun _ => rfl, fun h => absurd rfl h⟩
  | cons p ps ih =>
    intro acc
    rw [valueAfter, payloadsOf_cons]
    by_cases h : p.1 = k
    · rw [if_pos h, if_pos h]
      refine ⟨fun h2 => by simp at h2, fun _ => ?_⟩
      by_cases hps : payloadsOf k ps = []
      · rw [(ih _).1 hps, hps, decodedValue_eq]
        rfl
      · rw [(ih _).2 hps, decodedValue_eq]
        rfl
    · rw [if_neg h, if_neg h]
      exact ih acc

/-- With a value decode that does not read its receiver, decoding a sequence of
values one after the other gives what the last of them that is not the nil
marker decodes to, and leaves the receiver as it is when there is none. -/
theorem foldl_applyPayload_last (ops : StringSetOps V) (codec : StringSetCodec V W)
    (hover : ∀ r w, codec.CodecDecodeSelf r w = codec.CodecDecodeSelf ops.zero w) :
    ∀ (ps : List (Option W)) (r : V),
      ps.foldl (applyPayload codec) r =
        match lastPayload ps with
        | none => r
        | some w => codec.CodecDecodeSelf ops.zero w := by
  intro ps
  induction ps with
  | nil => intro r; rfl
  | cons p ps ih =>
    intro r
    rw [List.foldl_cons, ih, lastPayload]
    cases hl : lastPayload ps with
    | some w => rfl
    | none =>
      cases p with
      | none => rfl
      | some w => simp only [applyPayload]; exact hover r w

theorem Sets.CodecDecodeSelf.loop_congr (ops : StringSetOps V) (codec : StringSetCodec V W)
    (f : V → V → V) (length : Int) :
    ∀ (fuel : Nat) (i : Int) (m : Sets V) (toks : List (Token W)),
      Sets.CodecDecodeSelf.loop ⟨f, ops.MakeStringSet, ops.zero⟩ codec length fuel i m toks =
        Sets.CodecDecodeSelf.loop ops codec length fuel i m toks := by
  have hstep : ∀ (m : Sets V) (toks : List (Token W)),
      Sets.CodecDecodeSelf.step ⟨f, ops.MakeStringSet, ops.zero⟩ codec m toks =
        Sets.CodecDecodeSelf.step ops codec m toks := fun _ _ => rfl
  intro fuel
  induction fuel with
  | zero => intro i m toks; rfl
  | succ fuel ih =>
    intro i m toks
    simp only [Sets.CodecDecodeSelf.loop, hstep, ih]

/-- `CodecDecodeSelf` does not depend on the value type's `Merge`. -/
theorem Sets.CodecDecodeSelf_congr (ops : StringSetOps V) (codec : StringSetCodec V W)
    (f : V → V → V) (toks : List (Token W)) :
    Sets.CodecDecodeSelf ⟨f, ops.MakeStringSet, ops.zero⟩ codec toks =
      Sets.CodecDecodeSelf ops codec toks := by
  simp only [Sets.CodecDecodeSelf, Sets.CodecDecodeSelf.loop_congr]

/-! ## Encode and decode -/

/-- C11: for every map `A` with strictly increasing keys, decoding the stream
that encoding `A` writes returns, with nothing of the stream left, a map that is
`DeepEqual` to `A`; the assumption on the value type is that decoding into a
zero value what its encode wrote for a value gives that value. -/
theorem encode_decode_roundtrip [DecidableEq V] (ops : StringSetOps V)
    (codec : StringSetCodec V W) (A : Sets V) (hA : A.StrictlyIncreasing)
    (hround : ∀ v, applyPayload codec ops.zero (codec.CodecEncodeSelf v) = v) :
    ∃ m, Sets.CodecDecodeSelf ops codec (A.CodecEncodeSelf codec) = some (m, []) ∧
      m.DeepEqual A = some true := by
  cases A with
  | nil =>
    refine ⟨Sets.nil, by simp [Sets.CodecEncodeSelf, Sets.CodecDecodeSelf, TryDecodeAsNil], ?_⟩
    rw [Sets.DeepEqual_eq]
    simp
  | slice es =>
    obtain ⟨m, hm, hs, hlook, _, _⟩ :=
      Sets.CodecDecodeSelf_stream ops codec true (es.map (wirePair codec))
    refine ⟨m, by rw [Sets.CodecEncodeSelf_slice]; exact hm, ?_⟩
    have hent : m.entries = es := by
      apply strictKeys_ext _ _ hs hA
      intro k
      rw [hlook k, valueAfter_encoded ops codec hround k es hA]
      rfl
    rw [Sets.DeepEqual_eq, hent]
    simp [Sets.entries]

/-- C11 at `A = {a: {1}, b: {2}}`, with sets of strings as values. -/
theorem encode_decode_roundtrip_witness :
    mapAB.StrictlyIncreasing ∧
    (∀ v, applyPayload setCodec unionOps.zero (setCodec.CodecEncodeSelf v) = v) ∧
    ∃ m, Sets.CodecDecodeSelf unionOps setCodec (mapAB.CodecEncodeSelf setCodec) = some (m, []) ∧
      m.DeepEqual mapAB = some true :=
  have hround : ∀ v, applyPayload setCodec unionOps.zero (setCodec.CodecEncodeSelf v) = v := by
    intro v
    by_cases hv : v = ∅
    · simp [setCodec, applyPayload, unionOps, hv]
    · simp [setCodec, applyPayload, hv]
  ⟨by decide, hround, encode_decode_roundtrip unionOps setCodec mapAB (by decide) hround⟩

/-- C12, as the code has it: for every encoded stream of key/value pairs and
every key `k` occurring in it, decoding returns a map that holds under `k` the
result of decoding, in the order of the stream and starting from the zero value,
the values of the pairs with key `k` into the value stored under `k`; a pair
whose value is the nil marker leaves the stored value as it is. With a value
decode that overwrites its receiver the map holds under `k` the value of the
last pair with key `k` whose value is not the nil marker (the zero value if
there is none). The result is the same whatever the value type's `Merge` is. -/
theorem decode_duplicate_key (ops : StringSetOps V) (codec : StringSetCodec V W)
    (lengthKnown : Bool) (pairs : List (String × Option W)) (k : String)
    (hk : k ∈ pairs.map Prod.fst) :
    ∃ m, Sets.CodecDecodeSelf ops codec (encodeStream lengthKnown pairs) = some (m, []) ∧
      (⟨k, (payloadsOf k pairs).foldl (applyPayload codec) ops.zero⟩ : stringSetEntry V) ∈
        m.entries ∧
      ((∀ r w, codec.CodecDecodeSelf r w = codec.CodecDecodeSelf ops.zero w) →
        (⟨k, match lastPayload (payloadsOf k pairs) with
            | none => ops.zero
            | some w => codec.CodecDecodeSelf ops.zero w⟩ : stringSetEntry V) ∈ m.entries) ∧
      (∀ f, Sets.CodecDecodeSelf ⟨f, ops.MakeStringSet, ops.zero⟩ codec
        (encodeStream lengthKnown pairs) = some (m, [])) := by
  obtain ⟨m, hm, _, hlook, _, _⟩ := Sets.CodecDecodeSelf_stream ops codec lengthKnown pairs
  have hne : payloadsOf k pairs ≠ [] := fun h => (payloadsOf_eq_nil_iff k pairs).mp h hk
  have hmem : (⟨k, (payloadsOf k pairs).foldl (applyPayload codec) ops.zero⟩ :
      stringSetEntry V) ∈ m.entries := by
    apply mem_of_lookupL
    rw [hlook k, (valueAfter_eq ops codec k pairs none).2 hne]
    rfl
  refine ⟨m, hm, hmem, ?_, fun f => by rw [Sets.CodecDecodeSelf_congr]; exact hm⟩
  intro hover
  rw [← foldl_applyPayload_last ops codec hover]
  exact hmem

/-- C12 as the code has it, at the stream `x -> {1}`, `x -> {2}`: the decoded map
holds `{2}` under `x`. -/
theorem decode_duplicate_key_witness :
    "x" ∈ pairsTwice.map Prod.fst ∧
    ∃ m, Sets.CodecDecodeSelf unionOps setCodec (encodeStream true pairsTwice) = some (m, []) ∧
      (⟨"x", (payloadsOf "x" pairsTwice).foldl (applyPayload setCodec) unionOps.zero⟩ :
        stringSetEntry (Finset String)) ∈ m.entries ∧
      ((∀ r w, setCodec.CodecDecodeSelf r w = setCodec.CodecDecodeSelf unionOps.zero w) →
        (⟨"x", match lastPayload (payloadsOf "x" pairsTwice) with
            | none => unionOps.zero
            | some w => setCodec.CodecDecodeSelf unionOps.zero w⟩ :
          stringSetEntry (Finset String)) ∈ m.entries) ∧
      (∀ f, Sets.CodecDecodeSelf ⟨f, unionOps.MakeStringSet, unionOps.zero⟩ setCodec
        (encodeStream true pairsTwice) = some (m, [])) :=
  ⟨by decide, decode_duplicate_key unionOps setCodec true pairsTwice "x" (by decide)⟩

/-- C12 as the claim has it fails: the stream that `CodecEncodeSelf` writes for
the entries `x -> {1}`, `x -> {}` has the pairs `x -> {1}`, `x -> nil marker`;
the value of the last pair with key `x` is the empty set, and the decoded map
holds `{1}` under `x`. The scenario of the claim itself holds: `x -> {1}`,
`x -> {2}` decodes to `x -> {2}`. -/
theorem decode_keeps_value_on_nil_marker :
    (Sets.slice entriesNilLast).CodecEncodeSelf setCodec =
      encodeStream true [("x", some {"1"}), ("x", none)] ∧
    entriesNilLast.getLast? = some ⟨"x", ∅⟩ ∧
    Sets.CodecDecodeSelf unionOps setCodec
      ((Sets.slice entriesNilLast).CodecEncodeSelf setCodec) =
      some (Sets.slice [⟨"x", {"1"}⟩], []) ∧
    Sets.CodecDecodeSelf unionOps setCodec
      ((Sets.slice entriesNilLast).CodecEncodeSelf setCodec) ≠
      some (Sets.slice [⟨"x", ∅⟩], []) ∧
    Sets.CodecDecodeSelf unionOps setCodec (encodeStream true pairsTwice) =
      some (Sets.slice [⟨"x", {"2"}⟩], []) := by
  decide

/-- C13, as the code has it: decoding the nil marker returns the nil map, and
decoding a map-start without pairs (of length zero, or of unknown length and
ended at once by the break) returns the nil map as well, which is `DeepEqual` to
the empty map; decoding a stream with at least one pair returns a non-nil map.
Encode writes the nil marker for the nil map and for no other, and a map-start
of length zero, followed by the map end, for the empty map. -/
theorem decode_nil_and_empty [DecidableEq V] (ops : StringSetOps V)
    (codec : StringSetCodec V W) :
    Sets.CodecDecodeSelf ops codec [Token.null] = some (Sets.nil, []) ∧
    (∀ lengthKnown,
      Sets.CodecDecodeSelf ops codec (encodeStream lengthKnown []) = some (Sets.nil, [])) ∧
    (Sets.nil : Sets V).DeepEqual MakeSets = some true ∧
    (∀ lengthKnown pairs, pairs ≠ [] →
      ∃ m, Sets.CodecDecodeSelf ops codec (encodeStream lengthKnown pairs) = some (m, []) ∧
        m ≠ Sets.nil) ∧
    (∀ m : Sets V, m.CodecEncodeSelf codec = [Token.null] ↔ m = Sets.nil) ∧
    (MakeSets : Sets V).CodecEncodeSelf codec =
      [Token.mapStart 0, Token.state containerState.containerMapEnd] ∧
    Sets.CodecDecodeSelf ops codec ((MakeSets : Sets V).CodecEncodeSelf codec) =
      some (Sets.nil, []) := by
  have hempty : ∀ lengthKnown,
      Sets.CodecDecodeSelf ops codec (encodeStream lengthKnown []) = some (Sets.nil, []) := by
    intro lengthKnown
    obtain ⟨m, hm, _, _, hnil, _⟩ := Sets.CodecDecodeSelf_stream ops codec lengthKnown []
    rw [hm, hnil rfl]
  have henc : (MakeSets : Sets V).CodecEncodeSelf codec =
      [Token.mapStart 0, Token.state containerState.containerMapEnd] := by
    simp [MakeSets, Sets.CodecEncodeSelf]
  refine ⟨by simp [Sets.CodecDecodeSelf, TryDecodeAsNil], hempty, ?_, ?_, ?_, henc, ?_⟩
  · rw [Sets.DeepEqual_eq]
    simp [MakeSets, Sets.entries]
  · intro lengthKnown pairs hne
    obtain ⟨m, hm, _, _, _, hcons⟩ := Sets.CodecDecodeSelf_stream ops codec lengthKnown pairs
    exact ⟨m, hm, hcons hne⟩
  · intro m
    cases m with
    | nil => simp [Sets.CodecEncodeSelf]
    | slice es =>
      rw [Sets.CodecEncodeSelf_slice]
      simp [encodeStream]
  · rw [henc]
    exact hempty true

/-- C13 as the claim has it fails: for the empty map `MakeSets()` encode writes
a map-start of length zero, and decoding it returns the nil map, which is not
the empty but present map. -/
theorem decode_empty_stream_is_nil :
    (MakeSets : Sets (Finset String)).CodecEncodeSelf setCodec =
      [Token.mapStart 0, Token.state containerState.containerMapEnd] ∧
    Sets.CodecDecodeSelf unionOps setCodec
      [Token.mapStart 0, Token.state containerState.containerMapEnd] = some (Sets.nil, []) ∧
    (Sets.nil : Sets (Finset String)) ≠ MakeSets ∧
    Sets.CodecDecodeSelf unionOps setCodec
      [Token.mapStart 0, Token.state containerState.containerMapEnd] ≠ some (MakeSets, []) := by
  decide

/-- C14: for every encoded stream of key/value pairs, in any order and with any
key any number of times, decoding returns a map whose keys are strictly
increasing and are exactly the keys of the pairs of the stream. -/
theorem decode_sorted_distinct_keys (ops : StringSetOps V) (codec : StringSetCodec V W)
    (lengthKnown : Bool) (pairs : List (String × Option W)) :
    ∃ m, Sets.CodecDecodeSelf ops codec (encodeStream lengthKnown pairs) = some (m, []) ∧
      m.StrictlyIncreasing ∧
      ∀ k, (∃ e ∈ m.entries, e.key = k) ↔ k ∈ pairs.map Prod.fst := by
  obtain ⟨m, hm, hs, hlook, _, _⟩ := Sets.CodecDecodeSelf_stream ops codec lengthKnown pairs
  refine ⟨m, hm, hs, fun k => ?_⟩
  constructor
  · rintro ⟨e, he, hek⟩
    by_contra hnot
    have hnil := (payloadsOf_eq_nil_iff k pairs).mpr hnot
    have hnone : lookupL m.entries k = none := by
      rw [hlook k, (valueAfter_eq ops codec k pairs none).1 hnil]
    exact lookupL_none_iff.mp hnone e he hek
  · intro hk
    have hne : payloadsOf k pairs ≠ [] := fun h => (payloadsOf_eq_nil_iff k pairs).mp h hk
    have hsome := hlook k
    rw [(valueAfter_eq ops codec k pairs none).2 hne] at hsome
    exact ⟨_, mem_of_lookupL hsome, rfl⟩

/-- C14 at the stream `b -> {2}`, `a -> {1}`, `b -> {3}`: the decoded map is
`{a: {1}, b: {3}}`. -/
theorem decode_unsorted_stream :
    Sets.CodecDecodeSelf unionOps setCodec (encodeStream true pairsUnsorted) =
      some (Sets.slice [⟨"a", {"1"}⟩, ⟨"b", {"3"}⟩], []) ∧
    Sets.CodecDecodeSelf unionOps setCodec (encodeStream false pairsUnsorted) =
      some (Sets.slice [⟨"a", {"1"}⟩, ⟨"b", {"3"}⟩], []) := by
  decide

/-! ## No write into a backing array that was there before the call -/

theorem Memory.keeps_refl (n0 : Nat) (mem : Memory V) : Memory.keeps n0 mem mem :=
  ⟨Nat.le_refl _, fun _ _ => rfl⟩

theorem Memory.keeps_trans {n0 : Nat} {m1 m2 m3 : Memory V} (h1 : Memory.keeps n0 m1 m2)
    (h2 : Memory.keeps n0 m2 m3) : Memory.keeps n0 m1 m3 :=
  ⟨Nat.le_trans h1.1 h2.1, fun a ha => (h2.2 a ha).trans (h1.2 a ha)⟩

theorem memMake_keeps (z : stringSetEntry V) (len cap : Nat) (mem : Memory V) (n0 : Nat)
    (hn : n0 ≤ mem.length) : Memory.keeps n0 mem (memMake z len cap mem).2 := by
  refine ⟨by simp [memMake], fun a ha => ?_⟩
  simp only [memMake, List.get?_eq_getElem?]
  rw [List.getElem?_append_left (by omega)]

theorem set_keeps (mem : Memory V) (a0 : Nat) (arr : List (stringSetEntry V)) (n0 : Nat)
    (h : n0 ≤ a0) : Memory.keeps n0 mem (mem.set a0 arr) := by
  refine ⟨by simp, fun a ha => ?_⟩
  simp only [List.get?_eq_getElem?]
  rw [List.getElem?_set_ne (by omega)]

theorem memStore_keeps {mem mem2 : Memory V} {s : sliceValue} {i : Nat} {x : stringSetEntry V}
    (h : memStore mem s i x = some mem2) (n0 : Nat) (hs : n0 ≤ s.array) :
    Memory.keeps n0 mem mem2 := by
  unfold memStore at h
  split at h
  · split at h
    · exact absurd h (by simp)
    · split at h
      · cases h
        exact set_keeps _ _ _ _ hs
      · exact absurd h (by simp)
  · exact absurd h (by simp)

theorem memCopy_keeps {mem mem2 : Memory V} {dst src : sliceValue}
    (h : memCopy mem dst src = some mem2) (n0 : Nat) (hs : n0 ≤ dst.array) :
    Memory.keeps n0 mem mem2 := by
  unfold memCopy at h
  simp only at h
  split at h
  · cases h
    exact Memory.keeps_refl _ _
  · split at h
    · split at h
      · cases h
        exact set_keeps _ _ _ _ hs
      · exact absurd h (by simp)
    · exact absurd h (by simp)

theorem memAppend_keeps {z : stringSetEntry V} {mem mem2 : Memory V} {s s2 : sliceValue}
    {x : stringSetEntry V} (h : memAppend z mem s x = some (s2, mem2)) (n0 : Nat)
    (hs : n0 ≤ s.array) (hn : n0 ≤ mem.length) :
    Memory.keeps n0 mem mem2 ∧ n0 ≤ s2.array ∧ n0 ≤ mem2.length := by
  unfold memAppend at h
  split at h
  · split at h
    · exact absurd h (by simp)
    · split at h
      · simp only [Option.some.injEq, Prod.mk.injEq] at h
        obtain ⟨rfl, rfl⟩ := h
        exact ⟨set_keeps _ _ _ _ hs, hs, by simpa using hn⟩
      · exact absurd h (by simp)
  · split at h
    · exact absurd h (by simp)
    · simp only [Option.some.injEq, Prod.mk.injEq] at h
      obtain ⟨rfl, rfl⟩ := h
      refine ⟨⟨by simp, fun a ha => ?_⟩, hn, by simp; omega⟩
      simp only [List.get?_eq_getElem?]
      rw [List.getElem?_append_left (by omega)]

theorem memSliceFrom_array {s d : sliceValue} {lo : Nat} (h : memSliceFrom s lo = some d) :
    d.array = s.array := by
  unfold memSliceFrom at h
  split at h
  · cases h; rfl
  · exact absurd h (by simp)

/-- `Add` writes into no backing array that was there before the call. -/
theorem memAdd_keeps (ops : StringSetOps V) (mem mem2 : Memory V) (s r : sliceValue)
    (key : String) (value : V) (h : memAdd ops mem s key value = some (r, mem2)) :
    Memory.keeps mem.length mem mem2 := by
  have hmk : ∀ len cap, Memory.keeps mem.length mem (memMake (zeroEntry ops) len cap mem).2 :=
    fun len cap => memMake_keeps _ _ _ _ _ (Nat.le_refl _)
  unfold memAdd at h
  simp only [Option.bind_eq_bind, Option.bind_eq_some, Option.pure_def] at h
  obtain ⟨i, _, h⟩ := h
  split at h
  · simp only [Option.bind_eq_some, Option.some.injEq, Prod.mk.injEq] at h
    obtain ⟨m1, h1, m2, h2, _, rfl⟩ := h
    exact Memory.keeps_trans (hmk _ _)
      (Memory.keeps_trans (memCopy_keeps h1 _ (Nat.le_refl _))
        (memStore_keeps h2 _ (Nat.le_refl _)))
  · simp only [Option.bind_eq_some] at h
    obtain ⟨si, _, h⟩ := h
    split at h
    · simp only [Option.bind_eq_some, Option.some.injEq, Prod.mk.injEq] at h
      obtain ⟨m1, h1, m2, h2, _, rfl⟩ := h
      exact Memory.keeps_trans (hmk _ _)
        (Memory.keeps_trans (memCopy_keeps h1 _ (Nat.le_refl _))
          (memStore_keeps h2 _ (Nat.le_refl _)))
    · simp only [Option.bind_eq_some, Option.some.injEq, Prod.mk.injEq] at h
      obtain ⟨hd, _, m1, h1, dst, hdst, tl, _, m2, h2, m3, h3, _, rfl⟩ := h
      have harr := memSliceFrom_array hdst
      exact Memory.keeps_trans (hmk _ _)
        (Memory.keeps_trans (memCopy_keeps h1 _ (Nat.le_refl _))
          (Memory.keeps_trans (memCopy_keeps h2 _ (by rw [harr]; exact Nat.le_refl _))
            (memStore_keeps h3 _ (Nat.le_refl _))))

/-- `Delete` writes into no backing array that was there before the call. -/
theorem memDelete_keeps (ops : StringSetOps V) (mem mem2 : Memory V) (s r : sliceValue)
    (key : String) (h : memDelete ops mem s key = some (r, mem2)) :
    Memory.keeps mem.length mem mem2 := by
  have hmk : ∀ len cap, Memory.keeps mem.length mem (memMake (zeroEntry ops) len cap mem).2 :=
    fun len cap => memMake_keeps _ _ _ _ _ (Nat.le_refl _)
  unfold memDelete at h
  simp only [Option.bind_eq_bind, Option.bind_eq_some, Option.pure_def] at h
  obtain ⟨i, _, h⟩ := h
  by_cases hil : i = s.len
  · rw [if_pos hil] at h
    simp only [Option.some_bind, ↓reduceIte, Option.some.injEq, Prod.mk.injEq] at h
    obtain ⟨_, rfl⟩ := h
    exact Memory.keeps_refl _ _
  · rw [if_neg hil] at h
    simp only [Option.bind_eq_some, Option.some_bind] at h
    obtain ⟨si, _, h⟩ := h
    by_cases hk : decide (si.key ≠ key) = true
    · rw [if_pos hk] at h
      simp only [Option.some.injEq, Prod.mk.injEq] at h
      obtain ⟨_, rfl⟩ := h
      exact Memory.keeps_refl _ _
    · rw [if_neg hk] at h
      by_cases hpos : i > 0
      · rw [if_pos hpos] at h
        simp only [Option.bind_eq_some, Option.some.injEq, Prod.mk.injEq] at h
        obtain ⟨hd, _, m1, h1, dst, hdst, tl, _, m2, h2, _, rfl⟩ := h
        have harr := memSliceFrom_array hdst
        exact Memory.keeps_trans (hmk _ _)
          (Memory.keeps_trans (memCopy_keeps h1 _ (Nat.le_refl _))
            (memCopy_keeps h2 _ (by rw [harr]; exact Nat.le_refl _)))
      · rw [if_neg hpos] at h
        simp only [Option.bind_eq_some, Option.some_bind, Option.some.injEq,
          Prod.mk.injEq] at h
        obtain ⟨dst, hdst, tl, _, m2, h2, _, rfl⟩ := h
        have harr := memSliceFrom_array hdst
        exact Memory.keeps_trans (hmk _ _)
          (memCopy_keeps h2 _ (by rw [harr]; exact Nat.le_refl _))

theorem memMerge.rest_keeps (ops : StringSetOps V) (n : sliceValue) (n0 : Nat) :
    ∀ (fuel j : Nat) (out r : sliceValue) (mem mem2 : Memory V),
      memMerge.rest ops n fuel j out mem = some (r, mem2) → n0 ≤ out.array → n0 ≤ mem.length →
      Memory.keeps n0 mem mem2 := by
  intro fuel
  induction fuel with
  | zero =>
    intro j out r mem mem2 h _ _
    unfold memMerge.rest at h
    split at h
    · exact absurd h (by simp)
    · simp only [Option.some.injEq, Prod.mk.injEq] at h
      obtain ⟨_, rfl⟩ := h
      exact Memory.keeps_refl _ _
  | succ fuel ih =>
    intro j out r mem mem2 h hout hmem
    unfold memMerge.rest at h
    split at h
    · simp only [Option.bind_eq_bind, Option.bind_eq_some] at h
      obtain ⟨nj, _, ⟨out2, m2⟩, happ, h⟩ := h
      obtain ⟨hk, ho, hm⟩ := memAppend_keeps happ n0 hout hmem
      exact Memory.keeps_trans hk (ih _ _ _ _ _ h ho hm)
    · simp only [Option.some.injEq, Prod.mk.injEq] at h
      obtain ⟨_, rfl⟩ := h
      exact Memory.keeps_refl _ _

theorem memMerge.loop_keeps (ops : StringSetOps V) (m n : sliceValue) (n0 : Nat) :
    ∀ (fuel i j : Nat) (out r : sliceValue) (j2 : Nat) (mem mem2 : Memory V),
      memMerge.loop ops m n fuel i j out mem = some (j2, r, mem2) → n0 ≤ out.array →
      n0 ≤ mem.length → Memory.keeps n0 mem mem2 ∧ n0 ≤ r.array ∧ n0 ≤ mem2.length := by
  intro fuel
  induction fuel with
  | zero =>
    intro i j out r j2 mem mem2 h hout hmem
    unfold memMerge.loop at h
    split at h
    · exact absurd h (by simp)
    · simp only [Option.some.injEq, Prod.mk.injEq] at h
      obtain ⟨_, rfl, rfl⟩ := h
      exact ⟨Memory.keeps_refl _ _, hout, hmem⟩
  | succ fuel ih =>
    intro i j out r j2 mem mem2 h hout hmem
    have happ : ∀ (x : stringSetEntry V) (i2 j3 : Nat),
        (∃ d, memAppend (zeroEntry ops) mem out x = some d ∧
          memMerge.loop ops m n fuel i2 j3 d.1 d.2 = some (j2, r, mem2)) →
        Memory.keeps n0 mem mem2 ∧ n0 ≤ r.array ∧ n0 ≤ mem2.length := by
      intro x i2 j3 hx
      obtain ⟨⟨out2, m2⟩, hap, hx⟩ := hx
      obtain ⟨hk, ho, hm⟩ := memAppend_keeps hap n0 hout hmem
      obtain ⟨hk2, ho2, hm2⟩ := ih _ _ _ _ _ _ _ hx ho hm
      exact ⟨Memory.keeps_trans hk hk2, ho2, hm2⟩
    unfold memMerge.loop at h
    split at h
    · simp only [Option.bind_eq_bind, Option.pure_def] at h
      split at h
      · simp only [Option.some_bind, if_true, Option.bind_eq_some] at h
        obtain ⟨mi, _, h⟩ := h
        exact happ _ _ _ h
      · simp only [Option.bind_eq_some, Option.some_bind] at h
        obtain ⟨mi, _, nj, _, h⟩ := h
        split at h
        · simp only [Option.bind_eq_some] at h
          obtain ⟨mi2, _, h⟩ := h
          exact happ _ _ _ h
        · simp only [Option.bind_eq_some] at h
          obtain ⟨mi2, _, nj2, _, h⟩ := h
          split at h
          · exact happ _ _ _ (by simpa only [Option.bind_eq_some] using h)
          · exact happ _ _ _ (by simpa only [Option.bind_eq_some] using h)
    · simp only [Option.some.injEq, Prod.mk.injEq] at h
      obtain ⟨_, rfl, rfl⟩ := h
      exact ⟨Memory.keeps_refl _ _, hout, hmem⟩

/-- `Merge` writes into no backing array that was there before the call. -/
theorem memMerge_keeps (ops : StringSetOps V) (mem mem2 : Memory V) (m n r : sliceValue)
    (h : memMerge ops mem m n = some (r, mem2)) : Memory.keeps mem.length mem mem2 := by
  unfold memMerge at h
  split at h
  · simp only [Option.some.injEq, Prod.mk.injEq] at h
    obtain ⟨_, rfl⟩ := h
    exact Memory.keeps_refl _ _
  · split at h
    · simp only [Option.some.injEq, Prod.mk.injEq] at h
      obtain ⟨_, rfl⟩ := h
      exact Memory.keeps_refl _ _
    · simp only [Option.bind_eq_bind, Option.bind_eq_some] at h
      obtain ⟨⟨j, out, m1⟩, hloop, hrest⟩ := h
      have hmk := memMake_keeps (zeroEntry ops) 0
        ((if n.len > m.len then n.len else m.len) + 1) mem mem.length (Nat.le_refl _)
      obtain ⟨hk, ho, hm⟩ := memMerge.loop_keeps ops m n mem.length _ _ _ _ _ _ _ _ hloop
        (Nat.le_refl _) hmk.1
      exact Memory.keeps_trans hmk
        (Memory.keeps_trans hk (memMerge.rest_keeps ops n mem.length _ _ _ _ _ _ hrest ho hm))

/-- A slice holds in the memory after a call the entries it held before, when no
backing array that was there before the call was written. -/
theorem Memory.entries_of_keeps {mem mem2 : Memory V} (h : Memory.keeps mem.length mem mem2)
    (s : sliceValue) (es : List (stringSetEntry V)) (hs : Memory.entries mem s = some es) :
    Memory.entries mem2 s = some es := by
  unfold Memory.entries at hs ⊢
  split
  · rename_i hlen
    rw [if_pos hlen] at hs
    exact hs
  · rename_i hlen
    rw [if_neg hlen] at hs
    cases hget : mem.get? s.array with
    | none => rw [hget] at hs; exact absurd hs (by simp)
    | some arr =>
      have hlt : s.array < mem.length := by
        rw [List.get?_eq_getElem?] at hget
        exact (List.getElem?_eq_some_iff.mp hget).1
      rw [h.2 s.array hlt, hget]
      rw [hget] at hs
      exact hs

/-! ## The operations on backing arrays return -/

theorem Memory.grows_refl (mem : Memory V) : Memory.grows mem mem :=
  fun _ arr h => ⟨arr, h, rfl⟩

theorem Memory.grows_trans {m1 m2 m3 : Memory V} (h1 : Memory.grows m1 m2)
    (h2 : Memory.grows m2 m3) : Memory.grows m1 m3 := by
  intro a arr h
  obtain ⟨arr2, h3, hl2⟩ := h1 a arr h
  obtain ⟨arr3, h4, hl3⟩ := h2 a arr2 h3
  exact ⟨arr3, h4, hl3.trans hl2⟩

theorem Memory.holds_of_grows {mem mem2 : Memory V} {s : sliceValue} (h : Memory.holds mem s)
    (hg : Memory.grows mem mem2) : Memory.holds mem2 s := by
  refine ⟨h.1, fun hpos => ?_⟩
  obtain ⟨arr, ha, hb⟩ := h.2 hpos
  obtain ⟨arr2, ha2, hl⟩ := hg _ _ ha
  exact ⟨arr2, ha2, by omega⟩

theorem Memory.holds_of_room {mem : Memory V} {s : sliceValue} (h : Memory.room mem s) :
    Memory.holds mem s := by
  obtain ⟨h1, arr, ha, hb⟩ := h
  exact ⟨h1, fun _ => ⟨arr, ha, by omega⟩⟩

theorem set_grows (mem : Memory V) (a0 : Nat) (arr0 arr1 : List (stringSetEntry V))
    (h0 : mem.get? a0 = some arr0) (hl : arr1.length = arr0.length) :
    Memory.grows mem (mem.set a0 arr1) := by
  intro a arr h
  have ha0 : a0 < mem.length := by
    rw [List.get?_eq_getElem?] at h0
    exact (List.getElem?_eq_some_iff.mp h0).1
  by_cases ha : a0 = a
  · subst ha
    refine ⟨arr1, ?_, ?_⟩
    · rw [List.get?_eq_getElem?, List.getElem?_set_self ha0]
    · rw [h0] at h
      cases h
      exact hl
  · refine ⟨arr, ?_, rfl⟩
    rw [List.get?_eq_getElem?, List.getElem?_set_ne ha]
    rw [List.get?_eq_getElem?] at h
    exact h

theorem append_grows (mem : Memory V) (arr : List (stringSetEntry V)) :
    Memory.grows mem (mem ++ [arr]) := by
  intro a arr0 h
  refine ⟨arr0, ?_, rfl⟩
  rw [List.get?_eq_getElem?] at h ⊢
  rw [List.getElem?_append_left (List.getElem?_eq_some_iff.mp h).1]
  exact h

theorem memMake_room (z : stringSetEntry V) (len cap : Nat) (mem : Memory V) (h : len ≤ cap) :
    Memory.room (memMake z len cap mem).2 (memMake z len cap mem).1 := by
  refine ⟨h, List.replicate cap z, ?_, by simp [memMake]⟩
  simp [memMake]

theorem memIndex_total {mem : Memory V} {s : sliceValue} (h : Memory.holds mem s) (i : Nat)
    (hi : i < s.len) : ∃ e, memIndex mem s i = some e := by
  obtain ⟨arr, ha, hb⟩ := h.2 (by omega)
  have hlt : s.offset + i < arr.length := by omega
  exact ⟨arr[s.offset + i], by
    simp only [memIndex, hi, if_true, ha, Option.some_bind, List.get?_eq_getElem?,
      List.getElem?_eq_getElem hlt]⟩

theorem memStore_total {mem : Memory V} {s : sliceValue} (h : Memory.holds mem s) (i : Nat)
    (hi : i < s.len) (x : stringSetEntry V) :
    ∃ mem2, memStore mem s i x = some mem2 ∧ Memory.grows mem mem2 := by
  obtain ⟨arr, ha, hb⟩ := h.2 (by omega)
  have hlt : s.offset + i < arr.length := by omega
  exact ⟨mem.set s.array (arr.set (s.offset + i) x),
    by simp only [memStore, hi, if_true, ha, hlt], set_grows _ _ _ _ ha (by simp)⟩

theorem memCopy_total {mem : Memory V} {dst src : sliceValue} (hd : Memory.holds mem dst)
    (hs : Memory.holds mem src) :
    ∃ mem2, memCopy mem dst src = some mem2 ∧ Memory.grows mem mem2 := by
  by_cases hn : min dst.len src.len = 0
  · exact ⟨mem, by simp only [memCopy, hn, if_true], Memory.grows_refl _⟩
  · have h1 : 0 < dst.len := by
      rcases Nat.eq_zero_or_pos dst.len with h | h
      · exact absurd (by simp [h]) hn
      · exact h
    have h2 : 0 < src.len := by
      rcases Nat.eq_zero_or_pos src.len with h | h
      · exact absurd (by simp [h]) hn
      · exact h
    obtain ⟨darr, hda, hdb⟩ := hd.2 h1
    obtain ⟨sarr, hsa, hsb⟩ := hs.2 h2
    have hle1 : min dst.len src.len ≤ dst.len := Nat.min_le_left _ _
    have hle2 : min dst.len src.len ≤ src.len := Nat.min_le_right _ _
    have hb : src.offset + min dst.len src.len ≤ sarr.length ∧
        dst.offset + min dst.len src.len ≤ darr.length := ⟨by omega, by omega⟩
    refine ⟨mem.set dst.array (darr.take dst.offset ++
        (sarr.drop src.offset).take (min dst.len src.len) ++
        darr.drop (dst.offset + min dst.len src.len)),
      by simp only [memCopy, hn, if_false, hsa, hda, hb, and_self, if_true],
      set_grows _ _ _ _ hda ?_⟩
    simp only [List.length_append, List.length_take, List.length_drop]
    omega

theorem memAppend_total (z : stringSetEntry V) {mem : Memory V} {s : sliceValue}
    (h : Memory.room mem s) (x : stringSetEntry V) :
    ∃ s2 mem2, memAppend z mem s x = some (s2, mem2) ∧ Memory.grows mem mem2 ∧
      Memory.room mem2 s2 := by
  obtain ⟨hlc, arr, ha, hb⟩ := h
  by_cases hlt : s.len < s.cap
  · have hlt2 : s.offset + s.len < arr.length := by omega
    have ha0 : s.array < mem.length := by
      rw [List.get?_eq_getElem?] at ha
      exact (List.getElem?_eq_some_iff.mp ha).1
    refine ⟨{ s with len := s.len + 1 }, mem.set s.array (arr.set (s.offset + s.len) x),
      by simp only [memAppend, hlt, if_true, ha, hlt2], set_grows _ _ _ _ ha (by simp), ?_⟩
    refine ⟨by simp only; omega, arr.set (s.offset + s.len) x, ?_, by simp only [List.length_set]; exact hb⟩
    rw [List.get?_eq_getElem?, List.getElem?_set_self ha0]
  · have hent : ∃ old, Memory.entries mem s = some old ∧ old.length = s.len := by
      unfold Memory.entries
      by_cases h0 : s.len = 0
      · exact ⟨[], by simp only [h0, if_true], by simp [h0]⟩
      · have hb2 : s.offset + s.len ≤ arr.length := by omega
        refine ⟨(arr.drop s.offset).take s.len, by simp only [h0, if_false, ha, hb2, if_true], ?_⟩
        simp only [List.length_take, List.length_drop]
        omega
    obtain ⟨old, hold, holdlen⟩ := hent
    refine ⟨⟨false, mem.length, 0, s.len + 1, 2 * s.cap + 1⟩,
      mem ++ [old ++ x :: List.replicate (2 * s.cap - s.len) z],
      by simp only [memAppend, hlt, if_false, hold], append_grows _ _, ?_⟩
    refine ⟨by simp only; omega, old ++ x :: List.replicate (2 * s.cap - s.len) z, ?_, ?_⟩
    · simp
    · simp only [List.length_append, List.length_cons, List.length_replicate, holdlen]
      omega

theorem memSliceTo_total {mem : Memory V} {s : sliceValue} (h : Memory.holds mem s) (hi : Nat)
    (hle : hi ≤ s.len) : ∃ d, memSliceTo s hi = some d ∧ Memory.holds mem d := by
  have hc : hi ≤ s.cap := Nat.le_trans hle h.1
  refine ⟨{ s with len := hi }, by simp only [memSliceTo, hc, if_true], hc, fun hpos => ?_⟩
  simp only at hpos
  obtain ⟨arr, ha, hb⟩ := h.2 (by omega)
  exact ⟨arr, ha, by simp only; omega⟩

theorem memSliceFrom_total {mem : Memory V} {s : sliceValue} (h : Memory.holds mem s) (lo : Nat)
    (hle : lo ≤ s.len) : ∃ d, memSliceFrom s lo = some d ∧ Memory.holds mem d := by
  refine ⟨{ s with offset := s.offset + lo, len := s.len - lo, cap := s.cap - lo },
    by simp only [memSliceFrom, hle, if_true], by have := h.1; simp only; omega, fun hpos => ?_⟩
  simp only at hpos
  obtain ⟨arr, ha, hb⟩ := h.2 (by omega)
  exact ⟨arr, ha, by simp only; omega⟩

theorem memLocate_total {mem : Memory V} {s : sliceValue} (h : Memory.holds mem s)
    (key : String) : ∃ i, memLocate mem s key = some i ∧ i ≤ s.len := by
  obtain ⟨r, hr, _, h2⟩ := Search.loop_total
    (fun i => (memIndex mem s i).map (fun e => !strLess e.key key)) s.len
    (fun i hi => by
      obtain ⟨e, he⟩ := memIndex_total h i hi
      exact ⟨!strLess e.key key, by simp only [he, Option.map_some']⟩)
    s.len 0 s.len (Nat.zero_le _) (Nat.le_refl _) (by omega)
  exact ⟨r, hr, h2⟩

theorem memAdd_total (ops : StringSetOps V) {mem : Memory V} {s : sliceValue}
    (h : Memory.holds mem s) (key : String) (value : V) :
    ∃ r mem2, memAdd ops mem s key value = some (r, mem2) := by
  obtain ⟨i, hi, hile⟩ := memLocate_total h key
  have hins : ∀ x : stringSetEntry V, ∃ mem2,
      (do
        let head ← memSliceTo s i
        let mem1 ← memCopy (memMake (zeroEntry ops) (s.len + 1) (s.len + 1) mem).2
          (memMake (zeroEntry ops) (s.len + 1) (s.len + 1) mem).1 head
        let dst ← memSliceFrom (memMake (zeroEntry ops) (s.len + 1) (s.len + 1) mem).1 (i + 1)
        let tail ← memSliceFrom s i
        let mem1 ← memCopy mem1 dst tail
        let mem1 ← memStore mem1 (memMake (zeroEntry ops) (s.len + 1) (s.len + 1) mem).1 i x
        pure ((memMake (zeroEntry ops) (s.len + 1) (s.len + 1) mem).1, mem1)) =
        some ((memMake (zeroEntry ops) (s.len + 1) (s.len + 1) mem).1, mem2) := by
    intro x
    have hroom := memMake_room (zeroEntry ops) (s.len + 1) (s.len + 1) mem (Nat.le_refl _)
    have hg0 : Memory.grows mem (memMake (zeroEntry ops) (s.len + 1) (s.len + 1) mem).2 :=
      append_grows _ _
    have hs1 := Memory.holds_of_room hroom
    have hs0 := Memory.holds_of_grows h hg0
    obtain ⟨head, hhead, hheadh⟩ := memSliceTo_total hs0 i hile
    obtain ⟨mem1, hc1, hg1⟩ := memCopy_total hs1 hheadh
    obtain ⟨dst, hdst, hdsth⟩ := memSliceFrom_total hs1 (i + 1)
      (by simp only [memMake]; omega)
    obtain ⟨tail, htail, htailh⟩ := memSliceFrom_total hs0 i hile
    obtain ⟨mem2, hc2, hg2⟩ := memCopy_total (Memory.holds_of_grows hdsth hg1)
      (Memory.holds_of_grows htailh hg1)
    obtain ⟨mem3, hc3, _⟩ := memStore_total
      (Memory.holds_of_grows (Memory.holds_of_grows hs1 hg1) hg2) i
      (by simp only [memMake]; omega) x
    exact ⟨mem3, by
      simp only [hhead, hc1, hdst, htail, hc2, hc3, Option.bind_eq_bind, Option.some_bind,
        Option.pure_def]⟩
  have hrep : ∀ (n : Nat) (x : stringSetEntry V), i < n → s.len ≤ n → ∃ mem2,
      (do
        let mem1 ← memCopy (memMake (zeroEntry ops) n n mem).2
          (memMake (zeroEntry ops) n n mem).1 s
        let mem1 ← memStore mem1 (memMake (zeroEntry ops) n n mem).1 i x
        pure ((memMake (zeroEntry ops) n n mem).1, mem1)) =
        some ((memMake (zeroEntry ops) n n mem).1, mem2) := by
    intro n x hin _
    have hroom := memMake_room (zeroEntry ops) n n mem (Nat.le_refl _)
    have hg0 : Memory.grows mem (memMake (zeroEntry ops) n n mem).2 := append_grows _ _
    have hs1 := Memory.holds_of_room hroom
    have hs0 := Memory.holds_of_grows h hg0
    obtain ⟨mem1, hc1, hg1⟩ := memCopy_total hs1 hs0
    obtain ⟨mem2, hc2, _⟩ := memStore_total (Memory.holds_of_grows hs1 hg1) i
      (by simp only [memMake]; exact hin) x
    exact ⟨mem2, by
      simp only [hc1, hc2, Option.bind_eq_bind, Option.some_bind, Option.pure_def]⟩
  by_cases hend : i = s.len
  · obtain ⟨mem2, h2⟩ := hrep (s.len + 1) ⟨key, value⟩ (by omega) (by omega)
    refine ⟨(memMake (zeroEntry ops) (s.len + 1) (s.len + 1) mem).1, mem2, ?_⟩
    simp only [memAdd, hi, Option.bind_eq_bind, Option.some_bind, hend, if_true]
    rw [hend] at h2
    exact h2
  · obtain ⟨si, hsi⟩ := memIndex_total h i (by omega)
    by_cases hk : si.key = key
    · obtain ⟨mem2, h2⟩ := hrep s.len ⟨key, ops.Merge value si.Value⟩ (by omega)
        (Nat.le_refl _)
      refine ⟨(memMake (zeroEntry ops) s.len s.len mem).1, mem2, ?_⟩
      simp only [memAdd, hi, Option.bind_eq_bind, Option.some_bind, hend, if_false, hsi, hk,
        if_true]
      exact h2
    · obtain ⟨mem2, h2⟩ := hins ⟨key, value⟩
      refine ⟨(memMake (zeroEntry ops) (s.len + 1) (s.len + 1) mem).1, mem2, ?_⟩
      simp only [memAdd, hi, Option.bind_eq_bind, Option.some_bind, hend, if_false, hsi, hk]
      exact h2

theorem memDelete_total (ops : StringSetOps V) {mem : Memory V} {s : sliceValue}
    (h : Memory.holds mem s) (key : String) :
    ∃ r mem2, memDelete ops mem s key = some (r, mem2) := by
  obtain ⟨i, hi, hile⟩ := memLocate_total h key
  by_cases hend : i = s.len
  · exact ⟨s, mem, by
      simp only [memDelete, hi, Option.bind_eq_bind, Option.some_bind, hend, if_true,
        Option.pure_def]⟩
  · obtain ⟨si, hsi⟩ := memIndex_total h i (by omega)
    by_cases hk : si.key = key
    · have hroom := memMake_room (zeroEntry ops) (s.len - 1) (s.len - 1) mem (Nat.le_refl _)
      have hg0 : Memory.grows mem (memMake (zeroEntry ops) (s.len - 1) (s.len - 1) mem).2 :=
        append_grows _ _
      have hs1 := Memory.holds_of_room hroom
      have hs0 := Memory.holds_of_grows h hg0
      obtain ⟨dst, hdst, hdsth⟩ := memSliceFrom_total hs1 i (by simp only [memMake]; omega)
      obtain ⟨tail, htail, htailh⟩ := memSliceFrom_total hs0 (i + 1) (by omega)
      by_cases hpos : i > 0
      · obtain ⟨head, hhead, hheadh⟩ := memSliceTo_total hs0 (i - 1) (by omega)
        obtain ⟨mem1, hc1, hg1⟩ := memCopy_total hs1 hheadh
        obtain ⟨mem2, hc2, _⟩ := memCopy_total (Memory.holds_of_grows hdsth hg1)
          (Memory.holds_of_grows htailh hg1)
        refine ⟨(memMake (zeroEntry ops) (s.len - 1) (s.len - 1) mem).1, mem2, ?_⟩
        simp only [memDelete, hi, Option.bind_eq_bind, Option.some_bind, hend, if_false, hsi,
          Option.pure_def, hk, ne_eq, not_true_eq_false, decide_False, Bool.false_eq_true, hpos,
          if_true, hhead, hc1, hdst, htail, hc2]
      · obtain ⟨mem2, hc2, _⟩ := memCopy_total hdsth htailh
        refine ⟨(memMake (zeroEntry ops) (s.len - 1) (s.len - 1) mem).1, mem2, ?_⟩
        simp only [memDelete, hi, Option.bind_eq_bind, Option.some_bind, hend, if_false, hsi,
          Option.pure_def, hk, ne_eq, not_true_eq_false, decide_False, Bool.false_eq_true, hpos,
          hdst, htail, hc2]
    · exact ⟨s, mem, by
        simp only [memDelete, hi, Option.bind_eq_bind, Option.some_bind, hend, if_false, hsi,
          Option.pure_def, ne_eq, hk, not_false_eq_true, decide_True, if_true]⟩

theorem memMerge.rest_returns (ops : StringSetOps V) (n : sliceValue) :
    ∀ (fuel j : Nat) (out : sliceValue) (mem : Memory V), Memory.holds mem n →
      Memory.room mem out → n.len - j ≤ fuel →
      ∃ r mem2, memMerge.rest ops n fuel j out mem = some (r, mem2) := by
  intro fuel
  induction fuel with
  | zero =>
    intro j out mem _ _ hfuel
    have hlt : ¬ j < n.len := by omega
    exact ⟨out, mem, by simp only [memMerge.rest, hlt, if_false]⟩
  | succ fuel ih =>
    intro j out mem hn hout hfuel
    by_cases hlt : j < n.len
    · obtain ⟨nj, hnj⟩ := memIndex_total hn j hlt
      obtain ⟨out2, mem2, happ, hg, hroom⟩ := memAppend_total (zeroEntry ops) hout nj
      obtain ⟨r, mem3, hr⟩ := ih (j + 1) out2 mem2 (Memory.holds_of_grows hn hg) hroom
        (by omega)
      exact ⟨r, mem3, by
        simp only [memMerge.rest, hlt, if_true, Option.bind_eq_bind, hnj, Option.some_bind,
          happ, hr]⟩
    · exact ⟨out, mem, by simp only [memMerge.rest, hlt, if_false]⟩

theorem memMerge.loop_returns (ops : StringSetOps V) (m n : sliceValue) :
    ∀ (fuel i j : Nat) (out : sliceValue) (mem : Memory V), Memory.holds mem m →
      Memory.holds mem n → Memory.room mem out → (m.len - i) + (n.len - j) ≤ fuel →
      ∃ j2 out2 mem2, memMerge.loop ops m n fuel i j out mem = some (j2, out2, mem2) ∧
        Memory.grows mem mem2 ∧ Memory.room mem2 out2 := by
  intro fuel
  induction fuel with
  | zero =>
    intro i j out mem _ _ hout hfuel
    have hlt : ¬ i < m.len := by omega
    exact ⟨j, out, mem, by simp only [memMerge.loop, hlt, if_false], Memory.grows_refl _, hout⟩
  | succ fuel ih =>
    intro i j out mem hm hn hout hfuel
    by_cases hlt : i < m.len
    · obtain ⟨mi, hmi⟩ := memIndex_total hm i hlt
      by_cases hj : j ≥ n.len
      · obtain ⟨out2, mem2, happ, hg, hroom⟩ := memAppend_total (zeroEntry ops) hout mi
        obtain ⟨j3, out3, mem3, hr, hg3, hroom3⟩ := ih (i + 1) j out2 mem2
          (Memory.holds_of_grows hm hg) (Memory.holds_of_grows hn hg) hroom (by omega)
        exact ⟨j3, out3, mem3, by
          simp only [memMerge.loop, hlt, if_true, Option.bind_eq_bind, hj, Option.pure_def,
            Option.some_bind, hmi, happ, hr], Memory.grows_trans hg hg3, hroom3⟩
      · obtain ⟨nj, hnj⟩ := memIndex_total hn j (by omega)
        by_cases hless : strLess mi.key nj.key = true
        · obtain ⟨out2, mem2, happ, hg, hroom⟩ := memAppend_total (zeroEntry ops) hout mi
          obtain ⟨j3, out3, mem3, hr, hg3, hroom3⟩ := ih (i + 1) j out2 mem2
            (Memory.holds_of_grows hm hg) (Memory.holds_of_grows hn hg) hroom (by omega)
          exact ⟨j3, out3, mem3, by
            simp only [memMerge.loop, hlt, if_true, Option.bind_eq_bind, hj, if_false,
              Option.pure_def, Option.some_bind, hmi, hnj, hless, happ, hr],
            Memory.grows_trans hg hg3, hroom3⟩
        · by_cases hk : mi.key = nj.key
          · obtain ⟨out2, mem2, happ, hg, hroom⟩ := memAppend_total (zeroEntry ops) hout
              ⟨mi.key, ops.Merge mi.Value nj.Value⟩
            obtain ⟨j3, out3, mem3, hr, hg3, hroom3⟩ := ih (i + 1) (j + 1) out2 mem2
              (Memory.holds_of_grows hm hg) (Memory.holds_of_grows hn hg) hroom (by omega)
            exact ⟨j3, out3, mem3, by
              simp only [memMerge.loop, hlt, if_true, Option.bind_eq_bind, hj, if_false,
                Option.pure_def, Option.some_bind, hmi, hnj, hless, Bool.false_eq_true,
                if_pos hk, happ, hr],
              Memory.grows_trans hg hg3, hroom3⟩
          · obtain ⟨out2, mem2, happ, hg, hroom⟩ := memAppend_total (zeroEntry ops) hout nj
            obtain ⟨j3, out3, mem3, hr, hg3, hroom3⟩ := ih i (j + 1) out2 mem2
              (Memory.holds_of_grows hm hg) (Memory.holds_of_grows hn hg) hroom (by omega)
            exact ⟨j3, out3, mem3, by
              simp only [memMerge.loop, hlt, if_true, Option.bind_eq_bind, hj, if_false,
                Option.pure_def, Option.some_bind, hmi, hnj, hless, Bool.false_eq_true,
                if_neg hk, happ, hr],
              Memory.grows_trans hg hg3, hroom3⟩
    · exact ⟨j, out, mem, by simp only [memMerge.loop, hlt, if_false], Memory.grows_refl _,
        hout⟩

theorem memMerge_total (ops : StringSetOps V) {mem : Memory V} {m n : sliceValue}
    (hm : Memory.holds mem m) (hn : Memory.holds mem n) :
    ∃ r mem2, memMerge ops mem m n = some (r, mem2) := by
  by_cases hmnil : m.isNil = true
  · exact ⟨n, mem, by simp only [memMerge, hmnil, if_true]⟩
  · by_cases hnnil : n.isNil = true
    · exact ⟨m, mem, by simp only [memMerge, hmnil, hnnil, if_true, if_false, Bool.false_eq_true]⟩
    · have hroom := memMake_room (zeroEntry ops) 0
        ((if n.len > m.len then n.len else m.len) + 1) mem (Nat.zero_le _)
      have hg0 : Memory.grows mem (memMake (zeroEntry ops) 0
          ((if n.len > m.len then n.len else m.len) + 1) mem).2 := append_grows _ _
      obtain ⟨j, out, mem1, hloop, hg1, hroom1⟩ := memMerge.loop_returns ops m n
        (m.len + n.len) 0 0 _ _ (Memory.holds_of_grows hm hg0) (Memory.holds_of_grows hn hg0)
        hroom (by omega)
      obtain ⟨r, mem2, hrest⟩ := memMerge.rest_returns ops n n.len j out mem1
        (Memory.holds_of_grows (Memory.holds_of_grows hn hg0) hg1) hroom1 (by omega)
      exact ⟨r, mem2, by
        simp only [memMerge, hmnil, hnnil, if_false, Bool.false_eq_true, Option.bind_eq_bind,
          hloop, Option.some_bind, hrest]⟩

/-- C17: `Add`, `Delete` and `Merge` never write to the backing storage of their
inputs. With the backing arrays explicit: whenever a call of `Add(A, k, v)`,
`Delete(A, k)` or `Merge(A, B)` returns, every slice of the memory before the
call (the inputs `A` and `B`, and any other holder of a backing array) holds in
the memory after the call the entries it held before; and on slices `A` and `B`
that lie within their backing arrays each of the three calls does return, with
such a memory. -/
theorem operations_keep_inputs (ops : StringSetOps V) (mem : Memory V) (A B : sliceValue)
    (k : String) (v : V) (s : sliceValue) (es : List (stringSetEntry V))
    (hs : Memory.entries mem s = some es) :
    ((∀ r mem2, memAdd ops mem A k v = some (r, mem2) → Memory.entries mem2 s = some es) ∧
      (∀ r mem2, memDelete ops mem A k = some (r, mem2) → Memory.entries mem2 s = some es) ∧
      (∀ r mem2, memMerge ops mem A B = some (r, mem2) → Memory.entries mem2 s = some es)) ∧
    (Memory.holds mem A → Memory.holds mem B →
      (∃ r mem2, memAdd ops mem A k v = some (r, mem2) ∧ Memory.entries mem2 s = some es) ∧
      (∃ r mem2, memDelete ops mem A k = some (r, mem2) ∧ Memory.entries mem2 s = some es) ∧
      (∃ r mem2, memMerge ops mem A B = some (r, mem2) ∧ Memory.entries mem2 s = some es)) := by
  have hadd : ∀ r mem2, memAdd ops mem A k v = some (r, mem2) →
      Memory.entries mem2 s = some es :=
    fun r mem2 h => Memory.entries_of_keeps (memAdd_keeps ops mem mem2 A r k v h) s es hs
  have hdel : ∀ r mem2, memDelete ops mem A k = some (r, mem2) →
      Memory.entries mem2 s = some es :=
    fun r mem2 h => Memory.entries_of_keeps (memDelete_keeps ops mem mem2 A r k h) s es hs
  have hmerge : ∀ r mem2, memMerge ops mem A B = some (r, mem2) →
      Memory.entries mem2 s = some es :=
    fun r mem2 h => Memory.entries_of_keeps (memMerge_keeps ops mem mem2 A B r h) s es hs
  refine ⟨⟨hadd, hdel, hmerge⟩, fun hA hB => ⟨?_, ?_, ?_⟩⟩
  · obtain ⟨r, mem2, h⟩ := memAdd_total ops hA k v
    exact ⟨r, mem2, h, hadd r mem2 h⟩
  · obtain ⟨r, mem2, h⟩ := memDelete_total ops hA k
    exact ⟨r, mem2, h, hdel r mem2 h⟩
  · obtain ⟨r, mem2, h⟩ := memMerge_total ops hA hB
    exact ⟨r, mem2, h, hmerge r mem2 h⟩

/-- C17 at `A = {a: {1}}` and `B = {a: {2}}`, two slices that lie within their
backing arrays: `Merge(A, B)` returns the map `{a: {1, 2}}`, `Add(A, b, {2})`
returns `{a: {1}, b: {2}}` and `Delete(A, a)` returns the empty map, and after
each of the calls `A` still holds its single entry `a -> {1}`. -/
theorem operations_keep_inputs_witness :
    Memory.entries memoryAB sliceA = some [⟨"a", {"1"}⟩] ∧
    Memory.holds memoryAB sliceA ∧ Memory.holds memoryAB sliceB ∧
    (memMerge unionOps memoryAB sliceA sliceB).bind (fun r => Memory.entries r.2 r.1) =
      some [⟨"a", {"1", "2"}⟩] ∧
    (memAdd unionOps memoryAB sliceA "b" {"2"}).bind (fun r => Memory.entries r.2 r.1) =
      some [⟨"a", {"1"}⟩, ⟨"b", {"2"}⟩] ∧
    (memDelete unionOps memoryAB sliceA "a").bind (fun r => Memory.entries r.2 r.1) = some [] ∧
    ((∃ r mem2, memAdd unionOps memoryAB sliceA "b" {"2"} = some (r, mem2) ∧
        Memory.entries mem2 sliceA = some [⟨"a", {"1"}⟩]) ∧
      (∃ r mem2, memDelete unionOps memoryAB sliceA "b" = some (r, mem2) ∧
        Memory.entries mem2 sliceA = some [⟨"a", {"1"}⟩]) ∧
      (∃ r mem2, memMerge unionOps memoryAB sliceA sliceB = some (r, mem2) ∧
        Memory.entries mem2 sliceA = some [⟨"a", {"1"}⟩])) :=
  have hA : Memory.holds memoryAB sliceA :=
    ⟨by decide, fun _ => ⟨[⟨"a", {"1"}⟩], rfl, by decide⟩⟩
  have hB : Memory.holds memoryAB sliceB :=
    ⟨by decide, fun _ => ⟨[⟨"a", {"2"}⟩], rfl, by decide⟩⟩
  ⟨by decide, hA, hB, by decide, by decide, by decide,
    (operations_keep_inputs unionOps memoryAB sliceA sliceB "b" {"2"} sliceA _ (by decide)).2
      hA hB⟩

/-- The scenario of C17: after `Merge` of `A = {a: {1}}` and `B = {a: {2}}` both
`A` and `B` still hold their single singleton value. -/
theorem Merge_scenario_keeps_inputs :
    (memMerge unionOps memoryAB sliceA sliceB).bind (fun r => Memory.entries r.2 sliceA) =
      some [⟨"a", {"1"}⟩] ∧
    (memMerge unionOps memoryAB sliceA sliceB).bind (fun r => Memory.entries r.2 sliceB) =
      some [⟨"a", {"2"}⟩] := by
  decide

end Report
